import Mathlib

/-!
# A shallow embedding of the FUSE file system core

The C sources `inode.c`, `directory.c`, `utilities.c` and `storage.c` are
translated function by function.  A pointer into the memory-mapped image is
represented by the place it points at: an `inode_t*` is the inode number,
and a pointer into a block is the byte address inside the mapping (block `b`
starts at address `b * BLOCK_SIZE`, so a copy that runs over the end of a
block continues in the next one).  Every read of `node->field` therefore
sees earlier writes through any alias, as in the C program.

A call that does not run to completion (a failed `assert`, or a read outside
the string it was given) yields `none`.
-/

namespace FuseFS

/-! ## Constants and types -/

/-- Compile-time constants supplied by the headers `blocks.h`, `storage.h`
and `directory.h`, which are not among the translated files. -/
structure Config where
  BLOCK_SIZE : Nat
  BLOCK_COUNT : Nat
  NUM_INODE_BLOCKS : Nat
  INODE_BLOCK_BEGIN : Nat
  DIR_NAME_LENGTH : Nat
  SIZE_DIRENT : Nat
  INODES_PER_BLOCK : Nat

/-- The values the specification calls typical (4096-byte blocks, 256 of
them) with a 48-byte name field in a 64-byte directory entry and
`4096 / sizeof(inode_t) = 256` inodes in a block. -/
def stdConfig : Config :=
  { BLOCK_SIZE := 4096, BLOCK_COUNT := 256, NUM_INODE_BLOCKS := 1,
    INODE_BLOCK_BEGIN := 1, DIR_NAME_LENGTH := 48, SIZE_DIRENT := 64,
    INODES_PER_BLOCK := 256 }

def ROOT_INODE : Int := 0

def EPERM : Int := 1
def ENOENT : Int := 2
def EACCES : Int := 13
def EEXIST : Int := 17
def ENOTDIR : Int := 20
def EISDIR : Int := 21
def EINVAL : Int := 22
def EFBIG : Int := 27
def ENOSPC : Int := 28
def ESPIPE : Int := 29
def ENOTEMPTY : Int := 39

/-- The record `inode_t` of `helpers/inode.h`: four `int` fields. -/
structure inode_t where
  refs : Int
  mode : Int
  size : Int
  block : Int
deriving DecidableEq, Repr

/-- The memory-mapped image: the two bitmaps of block 0, the inode table of the
blocks behind it, and the bytes of the mapping (`data a` is the byte at
address `a`; the data blocks are read and written through it). -/
structure Image where
  blocks_bitmap : Int → Bool
  inode_bitmap : Int → Bool
  inodes : Int → inode_t
  data : Int → Nat

/-- A C string: its characters before the terminating NUL. -/
abbrev CString := List Nat

/-- The character codes of a string literal. -/
def cstr (s : String) : CString := s.toList.map Char.toNat

/-- The character `'/'`. -/
def SLASH : Nat := 47

/-! ## C integer arithmetic -/

/-- Conversion of an integer value to the 32-bit `int`.  The constant is the
left operand of the sum so that the term stays in normal form when `x` is
not a numeral. -/
def to_int (x : Int) : Int := (2147483648 + x) % 4294967296 - 2147483648

/-- Bitwise AND of the low `n` bits of two two's-complement integers. -/
def and_bits : Nat → Int → Int → Int
  | 0, _, _ => 0
  | n + 1, x, y =>
    (if x % 2 = 1 ∧ y % 2 = 1 then 1 else 0) + 2 * and_bits n (x / 2) (y / 2)

/-- The C expression `x & y` on `int` operands. -/
def c_and (x y : Int) : Int := to_int (and_bits 32 x y)

/-! ## Memory primitives -/

/-- Store `n` into the inode record `node` points at. -/
def Image.set_inode (img : Image) (node : Int) (n : inode_t) : Image :=
  { img with inodes := fun j => if j = node then n else img.inodes j }

/-- Modelled from the spec: `blocks_get_block(b)` of the absent `blocks.c`
points at the first byte of block `b`, the blocks being `BLOCK_SIZE` bytes
each and contiguous in the mapping. -/
def blocks_get_block (c : Config) (b : Int) : Int := b * c.BLOCK_SIZE

/-- The call `memcpy(dst, src, n)` into the mapping, where byte `k` of the
source is `src k`. -/
def memcpy (img : Image) (dst : Int) (src : Nat → Nat) (n : Nat) : Image :=
  { img with data := fun a =>
      if dst ≤ a ∧ a < dst + n then src (a - dst).toNat else img.data a }

/-- The bytes that `strcpy` copies for the string `name`: its characters and
the terminating NUL. -/
def strcpy_src (name : CString) : Nat → Nat := fun k => (name ++ [0]).getD k 0

/-- The test `strcmp(p, name) == 0` for a pointer `p` into the mapping: the
bytes at `p` spell `name` followed by NUL.  The comparison stops at the
first difference, so exactly the bytes up to there are read. -/
def strcmp_eq (img : Image) (p : Int) (name : CString) : Bool :=
  (List.range (name.length + 1)).all
    (fun k => decide (img.data (p + k) = (name ++ [0]).getD k 0))

/-- Byte `k` (`k < 4`) of the little-endian representation of the `int` `v`. -/
def int_byte (v : Int) (k : Nat) : Nat := ((v % 4294967296) / 256 ^ k % 256).toNat

/-- Store the `int` `v` at address `p`. -/
def store_int (img : Image) (p : Int) (v : Int) : Image :=
  memcpy img p (int_byte v) 4

/-- Load the `int` stored at address `p`. -/
def load_int (img : Image) (p : Int) : Int :=
  to_int ((img.data p : Int) + 256 * (img.data (p + 1) : Int)
    + 65536 * (img.data (p + 2) : Int) + 16777216 * (img.data (p + 3) : Int))

/-- Offset of the field `inum` inside a directory entry.  Modelled from the
spec: `dirent_t` of the absent `helpers/directory.h` is a name field of
`DIR_NAME_LENGTH` bytes followed by the `int` `inum`, with no padding beyond
what the alignment of an `int` requires. -/
def INUM_OFFSET (c : Config) : Int := ((((c.DIR_NAME_LENGTH + 3) / 4) * 4 : Nat) : Int)

/-! ## Block layer (`blocks.c`, `bitmap.c`: not among the translated files) -/

/-- Modelled from the spec: the scan of a bitmap for its first clear bit among
the bits `i, i+1, ...` (`n` of them), which `alloc_block` performs. -/
def first_clear (bm : Int → Bool) : Nat → Int → Option Int
  | 0, _ => none
  | n + 1, i => if bm i = false then some i else first_clear bm n (i + 1)

/-- Modelled from the spec: `alloc_block()` scans the block bitmap for the
first clear bit, sets it and returns the index, or returns `-1` if none is
free. -/
def alloc_block (c : Config) (img : Image) : Int × Image :=
  match first_clear img.blocks_bitmap c.BLOCK_COUNT 0 with
  | some i => (i, { img with blocks_bitmap := fun j => if j = i then true else img.blocks_bitmap j })
  | none => (-1, img)

/-- Modelled from the spec: `free_block(i)` clears bit `i` of the block
bitmap. -/
def free_block (img : Image) (i : Int) : Image :=
  { img with blocks_bitmap := fun j => if j = i then false else img.blocks_bitmap j }

/-- Modelled from the spec: `bytes_to_blocks(n)` is the ceiling of
`n / BLOCK_SIZE`, computed on `int` with C division. -/
def bytes_to_blocks (c : Config) (bytes : Int) : Int :=
  if Int.tmod bytes c.BLOCK_SIZE = 0 then Int.tdiv bytes c.BLOCK_SIZE
  else Int.tdiv bytes c.BLOCK_SIZE + 1

/-- The call `bitmap_put(get_inode_bitmap(), i, v)`. -/
def inode_bitmap_put (img : Image) (i : Int) (v : Bool) : Image :=
  { img with inode_bitmap := fun j => if j = i then v else img.inode_bitmap j }

/-! ## `inode.c` -/

/-- `get_inode`: both assertions must hold; the result points at inode
`inum`. -/
def get_inode (img : Image) (inum : Int) : Option Int :=
  if 0 ≤ inum ∧ img.inode_bitmap inum = true then some inum else none

/-- The loop of `alloc_inode` with `n` iterations left, at index `i`. -/
def alloc_inode_from (c : Config) (img : Image) : Nat → Int → Option (Int × Image)
  | 0, _ => some (-1, img)
  | n + 1, i =>
    if img.inode_bitmap i = false then
      let r := alloc_block c img
      if r.1 = -1 then some (-1, r.2)
      else
        let img1 := inode_bitmap_put r.2 i true
        match get_inode img1 i with
        | none => none
        | some node =>
          some (i, img1.set_inode node { img1.inodes node with block := r.1 })
    else alloc_inode_from c img n (i + 1)

/-- `alloc_inode`. -/
def alloc_inode (c : Config) (img : Image) : Option (Int × Image) :=
  alloc_inode_from c img c.BLOCK_COUNT 0

/-- `free_inode`. -/
def free_inode (img : Image) (inum : Int) : Option Image :=
  match get_inode img inum with
  | none => none
  | some node => some (inode_bitmap_put (free_block img (img.inodes node).block) inum false)

/-- `decrement_references`. -/
def decrement_references (img : Image) (inum : Int) : Option Image :=
  match get_inode img inum with
  | none => none
  | some node =>
    let img1 := img.set_inode node { img.inodes node with refs := (img.inodes node).refs - 1 }
    if (img1.inodes node).refs = 0 then free_inode img1 inum else some img1

/-- `grow_inode`: the two assertions, then the store. -/
def grow_inode (c : Config) (img : Image) (node : Int) (size : Int) : Option Image :=
  if size ≥ (img.inodes node).size ∧ size ≤ c.BLOCK_SIZE then
    some (img.set_inode node { img.inodes node with size := size })
  else none

/-- `shrink_inode`: the two assertions, then the store. -/
def shrink_inode (img : Image) (node : Int) (size : Int) : Option Image :=
  if size ≤ (img.inodes node).size ∧ size ≥ 0 then
    some (img.set_inode node { img.inodes node with size := size })
  else none

/-! ## `directory.c` -/

/-- `is_directory`: `node->mode / 010000 == 4`. -/
def is_directory (node : inode_t) : Bool := decide (Int.tdiv node.mode 4096 = 4)

/-- The loop of `directory_lookup` over the entries behind the pointer
`entry`, with `n` iterations left, at entry `i`. -/
def directory_lookup_from (c : Config) (img : Image) (entry : Int) (name : CString) :
    Nat → Int → Int
  | 0, _ => -1
  | n + 1, i =>
    if strcmp_eq img (entry + i * c.SIZE_DIRENT) name then
      load_int img (entry + i * c.SIZE_DIRENT + INUM_OFFSET c)
    else directory_lookup_from c img entry name n (i + 1)

/-- `directory_lookup`.  The loop bound `dd->size / SIZE_DIRENT` is taken on
`int`; the two readings of the absent macro agree for sizes that are not
negative. -/
def directory_lookup (c : Config) (img : Image) (dd : Int) (name : CString) : Int :=
  if is_directory (img.inodes dd) = false then -1
  else directory_lookup_from c img (blocks_get_block c (img.inodes dd).block) name
    (Int.tdiv (img.inodes dd).size c.SIZE_DIRENT).toNat 0

/-- Modelled from the spec: `s_explode(text, delim)` of the absent `slist.c`
splits `text` at every `delim` into its components; an empty text has no
component and a delimiter at the very end opens no further component. -/
def s_explode : CString → Nat → List CString
  | [], _ => []
  | ch :: rest, delim =>
    if ch = delim then [] :: s_explode rest delim
    else
      match s_explode rest delim with
      | [] => [[ch]]
      | part :: parts => (ch :: part) :: parts

/-- The loop of `tree_lookup`: `while(next != NULL && src != -1)`. -/
def tree_walk (c : Config) (img : Image) : List CString → Int → Option Int
  | [], src => some src
  | name :: next, src =>
    if src = -1 then some src
    else
      match get_inode img src with
      | none => none
      | some dd => tree_walk c img next (directory_lookup c img dd name)

/-- `tree_lookup`.  The components are taken from `path + 1`; for the empty
string that address lies behind the terminator, outside the string. -/
def tree_lookup (c : Config) (img : Image) (path : CString) : Option Int :=
  match path with
  | [] => none
  | _ :: rest => tree_walk c img (s_explode rest SLASH) ROOT_INODE

/-- `directory_put`. -/
def directory_put (c : Config) (img : Image) (dd : Int) (name : CString) (inum : Int) :
    Option (Int × Image) :=
  if (img.inodes dd).size + c.SIZE_DIRENT > c.BLOCK_SIZE then some (-ENOSPC, img)
  else
    let new := blocks_get_block c (img.inodes dd).block + (img.inodes dd).size
    let img1 := memcpy img new (strcpy_src name) (name.length + 1)
    let img2 := store_int img1 (new + INUM_OFFSET c) inum
    match get_inode img2 (load_int img2 (new + INUM_OFFSET c)) with
    | none => none
    | some node =>
      let img3 := img2.set_inode node { img2.inodes node with refs := (img2.inodes node).refs + 1 }
      match grow_inode c img3 dd ((img3.inodes dd).size + c.SIZE_DIRENT) with
      | none => none
      | some img4 => some (0, img4)

/-- The loop of `directory_delete` over the entries of the block of `dd`, with
`n` iterations left, at entry `i`.  The `memcpy` moves the tail one entry to
the left; its source is read as it was before the copy. -/
def directory_delete_from (c : Config) (img : Image) (dd : Int) (name : CString) :
    Nat → Int → Option (Int × Image)
  | 0, _ => some (-ENOENT, img)
  | n + 1, i =>
    let entry := blocks_get_block c (img.inodes dd).block
    if strcmp_eq img (entry + i * c.SIZE_DIRENT) name then
      match decrement_references img (load_int img (entry + i * c.SIZE_DIRENT + INUM_OFFSET c)) with
      | none => none
      | some img1 =>
        let img2 := memcpy img1 (entry + i * c.SIZE_DIRENT)
          (fun k => img1.data (entry + (i + 1) * c.SIZE_DIRENT + k))
          ((img1.inodes dd).size - (i + 1) * c.SIZE_DIRENT).toNat
        match shrink_inode img2 dd ((img2.inodes dd).size - c.SIZE_DIRENT) with
        | none => none
        | some img3 => some (0, img3)
    else directory_delete_from c img dd name n (i + 1)

/-- `directory_delete`. -/
def directory_delete (c : Config) (img : Image) (dd : Int) (name : CString) :
    Option (Int × Image) :=
  directory_delete_from c img dd name (Int.tdiv (img.inodes dd).size c.SIZE_DIRENT).toNat 0

/-- Modelled from the spec: the string list of the absent `slist.c`, whose
cells the sources read through `->data` and `->next`; `s_cons(text, rest)`
is the list with first cell `text` and rest `rest`, and `NULL` is the empty
list. -/
def s_cons (text : CString) (rest : List CString) : List CString := text :: rest

/-- The C string found at address `p`: the bytes up to the first NUL, at most
`n` of them. -/
def load_cstr (img : Image) : Nat → Int → CString
  | 0, _ => []
  | n + 1, p => if img.data p = 0 then [] else img.data p :: load_cstr img n (p + 1)

/-- The loop of `directory_list`, with `n` iterations left, at entry `i`;
the strings are read within the mapping. -/
def directory_list_from (c : Config) (img : Image) (entry : Int) :
    Nat → Int → List CString → List CString
  | 0, _, entries => entries
  | n + 1, i, entries =>
    directory_list_from c img entry n (i + 1)
      (s_cons (load_cstr img (c.BLOCK_COUNT * c.BLOCK_SIZE) (entry + i * c.SIZE_DIRENT)) entries)

/-- `directory_list`. -/
def directory_list (c : Config) (img : Image) (dd : Int) : List CString :=
  directory_list_from c img (blocks_get_block c (img.inodes dd).block)
    (Int.tdiv (img.inodes dd).size c.SIZE_DIRENT).toNat 0 []

/-- `directory_init`. -/
def directory_init (c : Config) (img : Image) : Option Image :=
  if img.inode_bitmap ROOT_INODE = false then
    let img1 := inode_bitmap_put img ROOT_INODE true
    match get_inode img1 ROOT_INODE with
    | none => none
    | some root =>
      let r := alloc_block c img1
      let img2 := r.2.set_inode root { r.2.inodes root with block := r.1 }
      if (img2.inodes root).block ≠ -1 then
        let img3 := img2.set_inode root
          { refs := 1, mode := 16877, size := 0, block := (img2.inodes root).block }
        match directory_put c img3 root (cstr ".") ROOT_INODE with
        | none => none
        | some r1 =>
          match directory_put c r1.2 root (cstr "..") ROOT_INODE with
          | none => none
          | some r2 => some r2.2
      else none
  else none

/-! ## `utilities.c` -/

/-- The loop of `get_parent`, run over the characters of the path from its
last one backwards: the number of characters behind the last `'/'`.  Without
a `'/'` the loop leaves the string at its front. -/
def child_length : List Nat → Option Nat
  | [] => none
  | ch :: before => if ch = SLASH then some 0 else (child_length before).map (fun n => n + 1)

/-- `get_parent`: the path cut behind its last `'/'`. -/
def get_parent (path : CString) : Option CString :=
  match child_length path.reverse with
  | none => none
  | some n => some (path.take (path.length - n))

/-! ## Copies that reach the bitmaps and the inode table

The image keeps the two bitmaps and the inode records apart from the bytes
of the data blocks.  In the mapping they are bytes like the others: a copy
whose destination lies in front of the data blocks overwrites them.  The
copy of `storage_write` starts at `block + offset` for any `offset` the
caller passes, so it is modelled with that effect.  The other copies of the
program start at an offset between 0 and the size of the inode inside the
inode's block and run towards higher addresses. -/

/-- Address of the record of inode `i` in the mapping: `get_inode` takes it
from block `INODE_BLOCK_BEGIN + i / INODES_PER_BLOCK`, as element
`i % INODES_PER_BLOCK` of an array of `inode_t`, whose four `int` fields make
16 bytes. -/
def inode_address (c : Config) (i : Int) : Int :=
  blocks_get_block c (c.INODE_BLOCK_BEGIN + Int.tdiv i c.INODES_PER_BLOCK)
    + Int.tmod i c.INODES_PER_BLOCK * 16

/-- The `int` at address `p`, which held `v`, after `n` bytes (byte `k` being
`src k`) have been copied to address `dst`: its bytes inside
`dst .. dst + n - 1` are the copied ones. -/
def copied_int (dst : Int) (src : Nat → Nat) (n : Nat) (p : Int) (v : Int) : Int :=
  if dst < p + 4 ∧ p < dst + n then
    let byte : Nat → Int := fun k =>
      if dst ≤ p + k ∧ p + k < dst + n then (src (p + k - dst).toNat : Int)
      else (int_byte v k : Int)
    to_int (byte 0 + 256 * byte 1 + 65536 * byte 2 + 16777216 * byte 3)
  else v

/-- Modelled from the spec: bit `j` of a bitmap that begins at address `p`,
which was `b`, after the same copy.  The absent `bitmap.c` keeps bit `j` in
byte `j / 8` of the bitmap, as bit `j % 8` counted from the low end. -/
def copied_bit (dst : Int) (src : Nat → Nat) (n : Nat) (p : Int) (j : Int) (b : Bool) : Bool :=
  if dst ≤ p + j / 8 ∧ p + j / 8 < dst + n then
    decide (src (p + j / 8 - dst).toNat / 2 ^ (j % 8).toNat % 2 = 1)
  else b

/-- Modelled from the spec: the address at which the inode bitmap begins;
block 0 holds the block bitmap, of `BLOCK_COUNT` bits, in its low bytes and
the inode bitmap behind it. -/
def inode_bitmap_address (c : Config) : Int := ((c.BLOCK_COUNT + 7) / 8 : Nat)

/-- The call `memcpy(dst, src, n)` for a destination anywhere in the mapping:
the bytes are stored, and the bits of the two bitmaps (one for each of the
`BLOCK_COUNT` blocks and inodes) and the fields of the inode records of the
table that lie in `dst .. dst + n - 1` take the copied bytes. -/
def memcpy_mapping (c : Config) (img : Image) (dst : Int) (src : Nat → Nat) (n : Nat) : Image :=
  { blocks_bitmap := fun j =>
      if 0 ≤ j ∧ j < c.BLOCK_COUNT then copied_bit dst src n 0 j (img.blocks_bitmap j)
      else img.blocks_bitmap j,
    inode_bitmap := fun j =>
      if 0 ≤ j ∧ j < c.BLOCK_COUNT
      then copied_bit dst src n (inode_bitmap_address c) j (img.inode_bitmap j)
      else img.inode_bitmap j,
    inodes := fun i =>
      if 0 ≤ i ∧ i < c.NUM_INODE_BLOCKS * c.INODES_PER_BLOCK then
        { refs := copied_int dst src n (inode_address c i) (img.inodes i).refs,
          mode := copied_int dst src n (inode_address c i + 4) (img.inodes i).mode,
          size := copied_int dst src n (inode_address c i + 8) (img.inodes i).size,
          block := copied_int dst src n (inode_address c i + 12) (img.inodes i).block }
      else img.inodes i,
    data := (memcpy img dst src n).data }

/-! ## `storage.c` -/

/-- What a call of an `int` function hands to its caller: the operand of the
`return` statement it executed, or nothing when control reached the closing
brace without one. -/
inductive retval where
  | ret (v : Int)
  | no_return
deriving DecidableEq, Repr

/-- The fields of `struct stat` that `storage_stat` fills, kept as the integer
values assigned to them. -/
structure stat where
  st_size : Int
  st_mode : Int
  st_uid : Int
  st_ino : Int
  st_nlink : Int
deriving DecidableEq, Repr

/-- The test `(((mode - 010000) / 0100) & 04) == 04` of `storage_read`. -/
def read_check (mode : Int) : Bool := decide (c_and (Int.tdiv (mode - 4096) 64) 4 = 4)

/-- The test `(((mode - 010000) / 0100) & 02) == 02` of `storage_write` and
`storage_truncate`. -/
def write_check (mode : Int) : Bool := decide (c_and (Int.tdiv (mode - 4096) 64) 2 = 2)

/-- The test `(((mode - 040000) / 0100) & 02) == 02` applied to directories. -/
def dir_write_check (mode : Int) : Bool := decide (c_and (Int.tdiv (mode - 16384) 64) 2 = 2)

/-- Modelled from the spec: `blocks_init` maps a new, zero-filled backing file
and marks block 0, which holds the bitmaps, as allocated. -/
def blocks_init : Image :=
  { blocks_bitmap := fun j => decide (j = 0),
    inode_bitmap := fun _ => false,
    inodes := fun _ => { refs := 0, mode := 0, size := 0, block := 0 },
    data := fun _ => 0 }

/-- The loop `assert(i + INODE_BLOCK_BEGIN == alloc_block())` of
`storage_init`, with `n` iterations left, at `i`. -/
def storage_init_alloc (c : Config) (img : Image) : Nat → Int → Option Image
  | 0, _ => some img
  | n + 1, i =>
    let r := alloc_block c img
    if i + c.INODE_BLOCK_BEGIN = r.1 then storage_init_alloc c r.2 n (i + 1) else none

/-- The loop `assert(bitmap_get(get_blocks_bitmap(), i + INODE_BLOCK_BEGIN))`
of `storage_init`. -/
def storage_init_check (c : Config) (img : Image) : Nat → Int → Bool
  | 0, _ => true
  | n + 1, i => img.blocks_bitmap (i + c.INODE_BLOCK_BEGIN) && storage_init_check c img n (i + 1)

/-- `storage_init`, applied to the image that `blocks_init` has mapped. -/
def storage_init (c : Config) (img : Image) : Option Image :=
  if img.blocks_bitmap 1 = false then
    match storage_init_alloc c img c.NUM_INODE_BLOCKS 0 with
    | none => none
    | some img1 => directory_init c img1
  else if storage_init_check c img c.NUM_INODE_BLOCKS 0 then
    if img.inode_bitmap ROOT_INODE = true then
      match get_inode img ROOT_INODE with
      | none => none
      | some root => if img.blocks_bitmap (img.inodes root).block = true then some img else none
    else none
  else none

/-- `storage_stat`; `uid` is the value of `getuid()`. -/
def storage_stat (c : Config) (img : Image) (uid : Int) (path : CString) (st : stat) :
    Option (Int × stat × Image) :=
  match tree_lookup c img path with
  | none => none
  | some inum =>
    if inum = -1 then some (-ENOENT, st, img)
    else
      match get_inode img inum with
      | none => none
      | some node =>
        some (0, { st_size := (img.inodes node).size, st_mode := (img.inodes node).mode,
                   st_uid := uid, st_ino := inum, st_nlink := (img.inodes node).refs }, img)

/-- Conversion of an integer value to the 64-bit unsigned `size_t`. -/
def to_size_t (x : Int) : Nat := (x % 18446744073709551616).toNat

/-- `storage_read`.  The result carries the return value, the caller's buffer
after the call, and the image. -/
def storage_read (c : Config) (img : Image) (path : CString) (buf : Nat → Nat) (size : Nat)
    (offset : Int) : Option (Int × (Nat → Nat) × Image) :=
  match tree_lookup c img path with
  | none => none
  | some inum =>
    if inum = -1 then some (-ENOENT, buf, img)
    else
      match get_inode img inum with
      | none => none
      | some node =>
        if is_directory (img.inodes node) then some (-EISDIR, buf, img)
        else if read_check (img.inodes node).mode then
          if offset > (img.inodes node).size then some (-ESPIPE, buf, img)
          else
            let size1 : Nat :=
              if size > to_size_t ((img.inodes node).size - offset)
              then to_size_t ((img.inodes node).size - offset) else size
            some (to_int size1,
              fun k => if k < size1
                then img.data (blocks_get_block c (img.inodes node).block + offset + k)
                else buf k,
              img)
        else some (-EACCES, buf, img)

/-- `storage_write`; byte `k` of the caller's buffer is `buf k`.  No test
keeps `offset` from being negative, so the copy may begin in front of the
block of the file. -/
def storage_write (c : Config) (img : Image) (path : CString) (buf : Nat → Nat) (size : Nat)
    (offset : Int) : Option (Int × Image) :=
  let num_blocks := bytes_to_blocks c (to_int (size + offset))
  match tree_lookup c img path with
  | none => none
  | some inum =>
    if inum = -1 then some (-ENOENT, img)
    else if num_blocks > 1 then some (-EFBIG, img)
    else
      match get_inode img inum with
      | none => none
      | some node =>
        if is_directory (img.inodes node) then some (-EISDIR, img)
        else if write_check (img.inodes node).mode then
          let img1 :=
            memcpy_mapping c img (blocks_get_block c (img.inodes node).block + offset) buf size
          match grow_inode c img1 node (to_int (offset + size)) with
          | none => none
          | some img2 => some (to_int size, img2)
        else some (-EACCES, img)

/-- `storage_truncate`.  The branch that truncates ends without a `return`
statement. -/
def storage_truncate (c : Config) (img : Image) (path : CString) (size : Int) :
    Option (retval × Image) :=
  match tree_lookup c img path with
  | none => none
  | some inum =>
    if inum = -1 then some (.ret (-ENOENT), img)
    else if size > c.BLOCK_SIZE then some (.ret (-EFBIG), img)
    else if size < 0 then some (.ret (-EINVAL), img)
    else
      match get_inode img inum with
      | none => none
      | some node =>
        if is_directory (img.inodes node) then some (.ret (-EISDIR), img)
        else if write_check (img.inodes node).mode then
          match shrink_inode img node (to_int size) with
          | none => none
          | some img1 =>
            if size > (img1.inodes node).size then
              some (.no_return, memcpy img1
                (blocks_get_block c (img1.inodes node).block + (img1.inodes node).size)
                (fun _ => 0) (to_size_t (size - (img1.inodes node).size)))
            else some (.no_return, img1)
        else some (.ret (-EACCES), img)

/-- The three stores `child_node->size = 0; child_node->mode = mode;
child_node->refs = 1;` of `storage_mknod`. -/
def init_child (img : Image) (child_node : Int) (mode : Int) : Image :=
  img.set_inode child_node { img.inodes child_node with size := 0, mode := mode, refs := 1 }

/-- `storage_mknod`. -/
def storage_mknod (c : Config) (img : Image) (path : CString) (mode : Int) :
    Option (Int × Image) :=
  match tree_lookup c img path with
  | none => none
  | some found =>
    if found ≠ -1 then some (-EEXIST, img)
    else
      match get_parent path with
      | none => none
      | some parent =>
        match tree_lookup c img parent with
        | none => none
        | some parent_num =>
          let child := path.drop parent.length
          if parent_num = -1 then some (-ENOENT, img)
          else
            match get_inode img parent_num with
            | none => none
            | some parent_node =>
              if is_directory (img.inodes parent_node) = false then some (-ENOTDIR, img)
              else if dir_write_check (img.inodes parent_node).mode = false then
                some (-EACCES, img)
              else if (img.inodes parent_node).size = c.BLOCK_SIZE then some (-ENOSPC, img)
              else if child.length > c.DIR_NAME_LENGTH then some (-EINVAL, img)
              else
                match alloc_inode c img with
                | none => none
                | some a =>
                  if a.1 = -1 then some (-ENOSPC, a.2)
                  else
                    match directory_put c a.2 parent_node child a.1 with
                    | none => none
                    | some p =>
                      match get_inode p.2 a.1 with
                      | none => none
                      | some child_node =>
                        let img3 := init_child p.2 child_node mode
                        if Int.tdiv mode 4096 = 4 then
                          match directory_put c img3 child_node (cstr "..") parent_num with
                          | none => none
                          | some p1 =>
                            match directory_put c p1.2 child_node (cstr ".") a.1 with
                            | none => none
                            | some p2 => some (0, p2.2)
                        else some (0, img3)

/-- `storage_unlink`.  After the call of `directory_delete`, whose result is
discarded, the function ends without a `return` statement. -/
def storage_unlink (c : Config) (img : Image) (path : CString) : Option (retval × Image) :=
  match get_parent path with
  | none => none
  | some parent =>
    match tree_lookup c img parent with
    | none => none
    | some inum =>
      let child := path.drop parent.length
      if inum = -1 then some (.ret (-ENOENT), img)
      else
        match get_inode img inum with
        | none => none
        | some node =>
          if Int.tdiv (img.inodes node).mode 4096 ≠ 4 then some (.ret (-ENOTDIR), img)
          else if dir_write_check (img.inodes node).mode = false then some (.ret (-EACCES), img)
          else
            match get_inode img inum with
            | none => none
            | some dd =>
              match directory_delete c img dd child with
              | none => none
              | some d => some (.no_return, d.2)

/-- `storage_link`.  After the call of `directory_put`, whose result is
discarded, the function ends without a `return` statement. -/
def storage_link (c : Config) (img : Image) (from_path to_path : CString) :
    Option (retval × Image) :=
  match tree_lookup c img from_path with
  | none => none
  | some from_inum =>
    match get_parent to_path with
    | none => none
    | some to_parent =>
      match tree_lookup c img to_parent with
      | none => none
      | some to_parent_inum =>
        let child := to_path.drop to_parent.length
        if from_inum = -1 then some (.ret (-ENOENT), img)
        else
          match tree_lookup c img to_path with
          | none => none
          | some to_inum =>
            if to_inum ≠ -1 then some (.ret (-EEXIST), img)
            else if to_parent_inum = -1 then some (.ret (-ENOENT), img)
            else
              match get_inode img to_parent_inum with
              | none => none
              | some parent_node =>
                if Int.tdiv (img.inodes parent_node).mode 4096 ≠ 4 then
                  some (.ret (-ENOTDIR), img)
                else if (img.inodes parent_node).size = c.BLOCK_SIZE then
                  some (.ret (-ENOSPC), img)
                else if dir_write_check (img.inodes parent_node).mode = false then
                  some (.ret (-EACCES), img)
                else
                  match directory_put c img parent_node child from_inum with
                  | none => none
                  | some p => some (.no_return, p.2)

/-- `storage_rename`.  When `storage_link` ended without a `return`
statement, the value that `rv` receives is indeterminate; `rv_indeterminate`
stands for it. -/
def storage_rename (c : Config) (img : Image) (rv_indeterminate : Int)
    (from_path to_path : CString) : Option (retval × Image) :=
  match storage_link c img from_path to_path with
  | none => none
  | some l =>
    let rv : Int :=
      match l.1 with
      | .ret v => v
      | .no_return => rv_indeterminate
    if rv < 0 then some (.ret rv, l.2) else storage_unlink c l.2 from_path

/-- `storage_rmdir`.  The test `path == "/"` compares the address held by the
caller's pointer with the address of the string literal; `same_pointer` is
its outcome. -/
def storage_rmdir (c : Config) (img : Image) (same_pointer : Bool) (path : CString) :
    Option (Int × Image) :=
  if same_pointer then some (-EPERM, img)
  else
    match tree_lookup c img path with
    | none => none
    | some inum =>
      match get_inode img inum with
      | none => none
      | some node =>
        if is_directory (img.inodes node) = false then some (-ENOTDIR, img)
        else if (img.inodes node).size > 2 * c.SIZE_DIRENT then some (-ENOTEMPTY, img)
        else if dir_write_check (img.inodes node).mode then
          match get_parent path with
          | none => none
          | some parent =>
            match tree_lookup c img parent with
            | none => none
            | some parent_inum =>
              match get_inode img parent_inum with
              | none => none
              | some parent_node =>
                let child := path.drop parent.length
                match directory_delete c img node (cstr ".") with
                | none => none
                | some d1 =>
                  match directory_delete c d1.2 node (cstr "..") with
                  | none => none
                  | some d2 =>
                    match directory_delete c d2.2 parent_node child with
                    | none => none
                    | some d3 => some (0, d3.2)
        else some (-EACCES, img)

/-- `storage_list`; `NULL` is the empty list. -/
def storage_list (c : Config) (img : Image) (path : CString) : Option (List CString) :=
  match tree_lookup c img path with
  | none => none
  | some inum =>
    match get_inode img inum with
    | none => none
    | some node =>
      if is_directory (img.inodes node) = false then some []
      else some (directory_list c img node)

/-! ## Images after an operation -/

/-- The image a call leaves behind (`img` itself when the call does not
return). -/
def image_after {α : Type} (img : Image) (r : Option (α × Image)) : Image :=
  (r.map Prod.snd).getD img

/-- The image after `storage_mknod(path, mode)` on `img`. -/
def after_mknod (c : Config) (img : Image) (path : CString) (mode : Int) : Image :=
  image_after img (storage_mknod c img path mode)

/-- The image after `storage_write(path, buf, size, offset)` on `img`. -/
def after_write (c : Config) (img : Image) (path : CString) (buf : Nat → Nat) (size : Nat)
    (offset : Int) : Image :=
  image_after img (storage_write c img path buf size offset)

/-- The image after `storage_link(from, to)` on `img`. -/
def after_link (c : Config) (img : Image) (from_path to_path : CString) : Image :=
  image_after img (storage_link c img from_path to_path)

/-- The image after `storage_unlink(path)` on `img`. -/
def after_unlink (c : Config) (img : Image) (path : CString) : Image :=
  image_after img (storage_unlink c img path)

/-- The image after `storage_rmdir(path)` on `img`, the caller's pointer
being different from the address of the literal `"/"`. -/
def after_rmdir (c : Config) (img : Image) (path : CString) : Image :=
  image_after img (storage_rmdir c img false path)

/-! ## Sequences of requests -/

/-- A request to the storage layer: one call of one of its operations, with
its arguments (and, for `rename` and `rmdir`, the two values the C program
leaves open). -/
inductive request where
  | mknod (path : CString) (mode : Int)
  | unlink (path : CString)
  | link (from_path to_path : CString)
  | rename (rv_indeterminate : Int) (from_path to_path : CString)
  | rmdir (same_pointer : Bool) (path : CString)
  | write (path : CString) (buf : Nat → Nat) (size : Nat) (offset : Int)
  | truncate (path : CString) (size : Int)
  | read (path : CString) (buf : Nat → Nat) (size : Nat) (offset : Int)
  | stat (uid : Int) (path : CString) (st : stat)
  | list (path : CString)

/-- The image a request leaves behind when its call runs to completion. -/
def serve (c : Config) (img : Image) : request → Option Image
  | .mknod path mode => (storage_mknod c img path mode).map Prod.snd
  | .unlink path => (storage_unlink c img path).map Prod.snd
  | .link from_path to_path => (storage_link c img from_path to_path).map Prod.snd
  | .rename rv from_path to_path => (storage_rename c img rv from_path to_path).map Prod.snd
  | .rmdir same_pointer path => (storage_rmdir c img same_pointer path).map Prod.snd
  | .write path buf size offset => (storage_write c img path buf size offset).map Prod.snd
  | .truncate path size => (storage_truncate c img path size).map Prod.snd
  | .read path buf size offset =>
    (storage_read c img path buf size offset).map (fun r => r.2.2)
  | .stat uid path st => (storage_stat c img uid path st).map (fun r => r.2.2)
  | .list path => (storage_list c img path).map (fun _ => img)

/-- The image a sequence of requests leaves behind when every call runs to
completion. -/
def serve_all (c : Config) (img : Image) : List request → Option Image
  | [] => some img
  | r :: rest =>
    match serve c img r with
    | none => none
    | some img1 => serve_all c img1 rest

/-- The images that a sequence of requests, each run to completion, reaches
from a freshly initialised one. -/
def reachable (c : Config) (img : Image) : Prop :=
  ∃ img0 requests, storage_init c blocks_init = some img0 ∧
    serve_all c img0 requests = some img

/-! ## Reference counts and block ownership -/

/-- Every allocated inode owns a block that is marked allocated and that no
other allocated inode has. -/
def blocks_owned (img : Image) : Prop :=
  ∀ i, img.inode_bitmap i = true →
    img.blocks_bitmap (img.inodes i).block = true ∧
    ∀ j, j ≠ i → img.inode_bitmap j = true → (img.inodes j).block ≠ (img.inodes i).block

/-- Every allocated inode other than `x` has `refs > 0`. -/
def refs_positive_except (img : Image) (x : Int) : Prop :=
  ∀ i, i ≠ x → img.inode_bitmap i = true → (img.inodes i).refs > 0

/-- Every allocated inode has `refs > 0`, owns a block that is marked
allocated, and shares it with no other allocated inode. -/
def refs_blocks_ok (img : Image) : Prop :=
  ∀ i, img.inode_bitmap i = true →
    (img.inodes i).refs > 0 ∧ img.blocks_bitmap (img.inodes i).block = true ∧
    ∀ j, j ≠ i → img.inode_bitmap j = true → (img.inodes j).block ≠ (img.inodes i).block

/-- From `img` to `img'` no bitmap and no `block` field has changed and no
`refs` has gone down. -/
def same_allocation (img img' : Image) : Prop :=
  img'.inode_bitmap = img.inode_bitmap ∧ img'.blocks_bitmap = img.blocks_bitmap ∧
  ∀ i, (img'.inodes i).block = (img.inodes i).block ∧ (img.inodes i).refs ≤ (img'.inodes i).refs

/-- The blocks in front of the data blocks (block 0 and the inode table) are
marked allocated, and the block of every allocated inode is a data block. -/
def data_blocks_ok (c : Config) (img : Image) : Prop :=
  (∀ b : Int, 0 ≤ b → b < c.INODE_BLOCK_BEGIN + c.NUM_INODE_BLOCKS →
    img.blocks_bitmap b = true) ∧
  ∀ i, img.inode_bitmap i = true →
    (c.INODE_BLOCK_BEGIN + c.NUM_INODE_BLOCKS : Int) ≤ (img.inodes i).block

/-- The two invariants of the allocation together. -/
def storage_invariant (c : Config) (img : Image) : Prop :=
  refs_blocks_ok img ∧ data_blocks_ok c img

/-- The property `P` of images survives the steps that change no bitmap and
no `block` and lower no `refs`, and the step `decrement_references`. -/
def kept_by_steps (P : Image → Prop) : Prop :=
  (∀ a b, same_allocation a b → P a → P b) ∧
  ∀ a b i, P a → decrement_references a i = some b → P b

/-- The constants lay the mapping out as `storage_init` expects it: the inode
table begins at block 1, a block holds its `INODES_PER_BLOCK` records of 16
bytes, and block 0 holds the two bitmaps. -/
def layout_ok (c : Config) : Prop :=
  c.INODE_BLOCK_BEGIN = 1 ∧ c.INODES_PER_BLOCK * 16 ≤ c.BLOCK_SIZE ∧
  2 * ((c.BLOCK_COUNT + 7) / 8) ≤ c.BLOCK_SIZE

instance (c : Config) : Decidable (layout_ok c) := by
  unfold layout_ok
  infer_instance

/-- The request is not a `write` with a negative offset. -/
def write_in_block : request → Bool
  | .write _ _ _ offset => decide (0 ≤ offset)
  | _ => true

/-! ## Well-formed images

The invariants of the data model that the theorems below rely on, stated
for the inode numbers `0 .. BLOCK_COUNT - 1` that `alloc_inode` hands out. -/

/-- A C string holds no NUL character. -/
def cstring_ok (s : CString) : Prop := ∀ ch ∈ s, ch ≠ 0

instance (s : CString) : Decidable (cstring_ok s) := by
  unfold cstring_ok; infer_instance

/-- The constants describe a usable layout: an entry holds the name field
and the `inum` behind it, and block and inode numbers fit an `int`. -/
def valid_config (c : Config) : Prop :=
  0 < c.SIZE_DIRENT ∧ INUM_OFFSET c + 4 ≤ c.SIZE_DIRENT ∧ c.BLOCK_COUNT ≤ 2147483648
    ∧ c.BLOCK_SIZE < 2147483648 ∧ 0 < c.BLOCK_SIZE

instance (c : Config) : Decidable (valid_config c) := by
  unfold valid_config; infer_instance

/-- The entry at address `p` has a NUL inside its name field and an `inum`
that is an inode number. -/
def entry_ok (c : Config) (img : Image) (p : Int) : Prop :=
  (∃ j, j < c.DIR_NAME_LENGTH ∧ img.data (p + (j : Nat)) = 0) ∧
  0 ≤ load_int img (p + INUM_OFFSET c) ∧ load_int img (p + INUM_OFFSET c) < c.BLOCK_COUNT

instance (c : Config) (img : Image) (p : Int) : Decidable (entry_ok c img p) := by
  unfold entry_ok; infer_instance

/-- The directory inode `i` has a size that is a whole number of entries, and
each of its entries is well formed. -/
def dir_ok (c : Config) (img : Image) (i : Int) : Prop :=
  0 ≤ (img.inodes i).size ∧ (img.inodes i).size % c.SIZE_DIRENT = 0 ∧
  (img.inodes i).size ≤ c.BLOCK_SIZE ∧
  ∀ k, k < ((img.inodes i).size / c.SIZE_DIRENT).toNat →
    entry_ok c img (blocks_get_block c (img.inodes i).block + (k : Nat) * c.SIZE_DIRENT)

instance (c : Config) (img : Image) (i : Int) : Decidable (dir_ok c img i) := by
  unfold dir_ok; infer_instance

/-- The block of every allocated inode is marked allocated. -/
def blocks_marked (c : Config) (img : Image) : Prop :=
  ∀ i, i < c.BLOCK_COUNT → img.inode_bitmap (i : Nat) = true →
    img.blocks_bitmap (img.inodes (i : Nat)).block = true

instance (c : Config) (img : Image) : Decidable (blocks_marked c img) := by
  unfold blocks_marked; infer_instance

/-- No two allocated inodes share a block. -/
def blocks_distinct (c : Config) (img : Image) : Prop :=
  ∀ i, i < c.BLOCK_COUNT → ∀ j, j < c.BLOCK_COUNT →
    (img.inode_bitmap (i : Nat) = true ∧ img.inode_bitmap (j : Nat) = true ∧ i ≠ j →
      (img.inodes (i : Nat)).block ≠ (img.inodes (j : Nat)).block)

instance (c : Config) (img : Image) : Decidable (blocks_distinct c img) := by
  unfold blocks_distinct; infer_instance

/-- Every allocated directory is `dir_ok`. -/
def dirs_ok (c : Config) (img : Image) : Prop :=
  ∀ i, i < c.BLOCK_COUNT → img.inode_bitmap (i : Nat) = true →
    is_directory (img.inodes (i : Nat)) = true → dir_ok c img (i : Nat)

instance (c : Config) (img : Image) : Decidable (dirs_ok c img) := by
  unfold dirs_ok; infer_instance

/-- Well-formed image. -/
def WF (c : Config) (img : Image) : Prop :=
  blocks_marked c img ∧ blocks_distinct c img ∧ dirs_ok c img

instance (c : Config) (img : Image) : Decidable (WF c img) := by
  unfold WF; infer_instance

/-- Index of the first entry among `i, i+1, ...` (`n` of them) behind the
pointer `entry` whose name is `name`: the entry at which the loops of
`directory_lookup` and `directory_delete` stop. -/
def find_entry (c : Config) (img : Image) (entry : Int) (name : CString) :
    Nat → Int → Option Int
  | 0, _ => none
  | n + 1, i =>
    if strcmp_eq img (entry + i * c.SIZE_DIRENT) name then some i
    else find_entry c img entry name n (i + 1)

/-! ## The images the allocating and inserting steps produce -/

/-- The image with `size` stored into `node->size`. -/
def set_size (img : Image) (node : Int) (size : Int) : Image :=
  img.set_inode node { img.inodes node with size := size }

/-- The image with `d` added to `node->refs`. -/
def add_refs (img : Image) (node : Int) (d : Int) : Image :=
  img.set_inode node { img.inodes node with refs := (img.inodes node).refs + d }

/-- The image `alloc_inode` produces when it hands out inode `i` with block
`b`. -/
def alloc_image (img : Image) (i b : Int) : Image :=
  let img0 : Image :=
    { img with blocks_bitmap := fun j => if j = b then true else img.blocks_bitmap j }
  let img1 := inode_bitmap_put img0 i true
  img1.set_inode i { img1.inodes i with block := b }

/-- The address at which `directory_put` stores the next entry of `dd`. -/
def new_entry (c : Config) (img : Image) (dd : Int) : Int :=
  blocks_get_block c (img.inodes dd).block + (img.inodes dd).size

/-- The image `directory_put(dd, name, inum)` produces when it stores the
entry. -/
def put_image (c : Config) (img : Image) (dd : Int) (name : CString) (inum : Int) : Image :=
  set_size
    (add_refs
      (store_int (memcpy img (new_entry c img dd) (strcpy_src name) (name.length + 1))
        (new_entry c img dd + INUM_OFFSET c) inum)
      inum 1)
    dd ((img.inodes dd).size + c.SIZE_DIRENT)

/-- The image `storage_mknod` produces when it makes a node that is not a
directory: inode `i` with block `b` allocated, the entry `child` stored in
the parent `pn`, and the three fields of the child set. -/
def mknod_image (c : Config) (img : Image) (pn : Int) (child : CString) (i b : Int)
    (mode : Int) : Image :=
  init_child (put_image c (alloc_image img i b) pn child i) i mode

/-- The image `directory_delete` produces when it removes entry `i` of `dd`,
whose `inum` is the allocated inode `inum`: the count of `inum` taken down,
the entries behind entry `i` moved one slot to the front, the size of `dd`
lowered by one entry. -/
def delete_image (c : Config) (img : Image) (dd : Int) (i inum : Int) : Image :=
  let entry := blocks_get_block c (img.inodes dd).block
  let img1 := (decrement_references img inum).getD img
  let img2 := memcpy img1 (entry + i * c.SIZE_DIRENT)
    (fun k => img1.data (entry + (i + 1) * c.SIZE_DIRENT + k))
    ((img1.inodes dd).size - (i + 1) * c.SIZE_DIRENT).toNat
  img2.set_inode dd { img2.inodes dd with size := (img2.inodes dd).size - c.SIZE_DIRENT }

/-! ## Paths and their components -/

/-- The absolute path `"/c1/.../cn"` with the components `c1, ..., cn`. -/
def path_of : List CString → CString
  | [] => []
  | comp :: rest => SLASH :: comp ++ path_of rest

/-- The value the specification gives for the lookup of the components
`c_1, ..., c_n` from `x_0 = src`: `x_k = directory_lookup(inode x_(k-1), c_k)`,
and `-1` from the first `x_k = -1` on. -/
def lookup_chain (c : Config) (img : Image) : List CString → Int → Int
  | [], src => src
  | name :: rest, src =>
    if src = -1 then -1 else lookup_chain c img rest (directory_lookup c img src name)

/-- Every inode that the lookup of the components from `src` visits is
allocated, so that no `get_inode` on the way fails. -/
def chain_allocated (c : Config) (img : Image) : List CString → Int → Prop
  | [], _ => True
  | name :: rest, src =>
    src = -1 ∨ (get_inode img src = some src ∧
      chain_allocated c img rest (directory_lookup c img src name))

/-! ## Concrete images

Images reached from a new backing file by the storage operations, under the
constants of `stdConfig`. -/

/-- The image after `storage_init` on a new backing file. -/
def image_fresh : Image := (storage_init stdConfig blocks_init).getD blocks_init

/-- A fresh image in which `mknod("/a", 0100644)` has run. -/
def image_a : Image := after_mknod stdConfig image_fresh (cstr "/a") 33188

/-- The image `image_a` after `write("/a", "hello", 5, 0)`. -/
def image_hello : Image :=
  after_write stdConfig image_a (cstr "/a") (strcpy_src (cstr "hello")) 5 0

/-- The path `/aaa...a` whose basename has exactly `DIR_NAME_LENGTH = 48`
characters. -/
def path_a48 : CString := SLASH :: List.replicate 48 97

/-- The path `/bbb...b` whose basename has 49 characters. -/
def path_b49 : CString := SLASH :: List.replicate 49 98

/-- An empty `struct stat`. -/
def stat_zero : stat := { st_size := 0, st_mode := 0, st_uid := 0, st_ino := 0, st_nlink := 0 }

/-- The directory `/d`, made by `mknod("/d", 040755)` on a fresh image. -/
def image_d : Image := after_mknod stdConfig image_fresh (cstr "/d") 16877

/-- The image `image_d` after `unlink("/d/.")` and `mknod("/d/f", 0100644)`. -/
def image_d_f : Image :=
  after_mknod stdConfig (after_unlink stdConfig image_d (cstr "/d/.")) (cstr "/d/f") 33188

/-- The requests `mknod("/d", 040755)` and `unlink("/d/.")`. -/
def requests_unlink_dot : List request :=
  [request.mknod (cstr "/d") 16877, request.unlink (cstr "/d/.")]

/-- The image these two requests leave behind on a freshly initialised
image. -/
def image_d_nodot : Image :=
  (serve_all stdConfig image_fresh requests_unlink_dot).getD image_fresh

/-- The requests `mknod("/a", 0100644)` and `write("/a", buf, 8192, -8192)`
with a buffer of NUL bytes. -/
def requests_overwrite : List request :=
  [request.mknod (cstr "/a") 33188, request.write (cstr "/a") (fun _ => 0) 8192 (-8192)]

/-- The image these two requests leave behind on a freshly initialised
image. -/
def image_overwritten : Image :=
  (serve_all stdConfig image_fresh requests_overwrite).getD image_fresh

/-- Small constants: 8 blocks of 64 bytes, 16-byte entries with an 8-byte
name field, two blocks of inodes with `64 / sizeof(inode_t) = 4` inodes
each. -/
def tinyConfig : Config :=
  { BLOCK_SIZE := 64, BLOCK_COUNT := 8, NUM_INODE_BLOCKS := 2,
    INODE_BLOCK_BEGIN := 1, DIR_NAME_LENGTH := 8, SIZE_DIRENT := 16,
    INODES_PER_BLOCK := 4 }

/-- The image after `storage_init` on a new backing file, under
`tinyConfig`. -/
def tiny_fresh : Image := (storage_init tinyConfig blocks_init).getD blocks_init

/-- The image `tiny_fresh` after `mknod("/d", 040755)`. -/
def tiny_d : Image := after_mknod tinyConfig tiny_fresh (cstr "/d") 16877

/-- The path `/bbb...b` whose basename has 28 characters. -/
def path_b28 : CString := SLASH :: List.replicate 28 98

/-- The image `tiny_d` after `link("/d", "/bbb...b")`. -/
def tiny_over : Image := after_link tinyConfig tiny_d (cstr "/d") path_b28

/-- A fresh image in which `mknod("/a", 0100200)` has made a file without
read permission and `write("/a", "hello", 5, 0)` has run. -/
def image_wo : Image :=
  after_write stdConfig (after_mknod stdConfig image_fresh (cstr "/a") 32896) (cstr "/a")
    (strcpy_src (cstr "hello")) 5 0

/-- The image `image_wo` after `link("/a", "/b")` and `unlink("/a")`. -/
def image_wo_b : Image :=
  after_unlink stdConfig (after_link stdConfig image_wo (cstr "/a") (cstr "/b")) (cstr "/a")

/-- The image `tiny_fresh` after `mknod("/a", 0100644)` and
`write("/a", "hello", 5, 0)`. -/
def tiny_hello : Image :=
  after_write tinyConfig (after_mknod tinyConfig tiny_fresh (cstr "/a") 33188) (cstr "/a")
    (strcpy_src (cstr "hello")) 5 0
/-! # Theorems -/

set_option maxRecDepth 100000

/-! ## Integer arithmetic -/

theorem and_bits_zero (n : Nat) (x : Int) : and_bits n x 0 = 0 := by
  induction n generalizing x with
  | zero => rfl
  | succ n ih => simp [and_bits, ih]

theorem to_int_of_range (x : Int) (h1 : -2147483648 ≤ x) (h2 : x < 2147483648) :
    to_int x = x := by
  unfold to_int; omega

theorem c_and_two (x : Int) : c_and x 2 = 2 ↔ (x / 2) % 2 = 1 := by
  unfold c_and
  simp only [and_bits]
  norm_num [and_bits_zero]
  split_ifs with h <;> simp [to_int, h]

theorem c_and_four (x : Int) : c_and x 4 = 4 ↔ (x / 4) % 2 = 1 := by
  unfold c_and
  simp only [and_bits]
  norm_num [and_bits_zero]
  have e : x / 2 / 2 = x / 4 := by omega
  rw [e]
  split_ifs with h <;> simp [to_int, h]

theorem c_and_0200 (x : Int) : c_and x 128 = 128 ↔ (x / 128) % 2 = 1 := by
  unfold c_and
  simp only [and_bits]
  norm_num [and_bits_zero]
  have e : x / 2 / 2 / 2 / 2 / 2 / 2 / 2 = x / 128 := by omega
  rw [e]
  split_ifs with h <;> simp [to_int, h]

theorem c_and_0400 (x : Int) : c_and x 256 = 256 ↔ (x / 256) % 2 = 1 := by
  unfold c_and
  simp only [and_bits]
  norm_num [and_bits_zero]
  have e : x / 2 / 2 / 2 / 2 / 2 / 2 / 2 / 2 = x / 256 := by omega
  rw [e]
  split_ifs with h <;> simp [to_int, h]

theorem tdiv_of_nonneg (a : Int) (b : Nat) (h : 0 ≤ a) : Int.tdiv a b = a / b :=
  Int.tdiv_eq_ediv h (Int.ofNat_nonneg b)

/-- With a type digit in the mode (`m ≥ 010000`) the two permission tests of
`storage_read`, `storage_write` and `storage_truncate` read exactly the owner
bits `0400` and `0200`. -/
theorem perm_checks_with_type_digit (m : Int) (h : 4096 ≤ m) :
    (read_check m = true ↔ c_and m 256 = 256) ∧ (write_check m = true ↔ c_and m 128 = 128) := by
  have e : Int.tdiv (m - 4096) 64 = (m - 4096) / 64 :=
    Int.tdiv_eq_ediv (by omega) (by omega)
  unfold read_check write_check
  rw [decide_eq_true_iff, decide_eq_true_iff, e, c_and_four, c_and_two, c_and_0400, c_and_0200]
  omega

theorem perm_checks_with_type_digit_witness :
    (4096 : Int) ≤ 33188 ∧ ((read_check 33188 = true ↔ c_and 33188 256 = 256) ∧
      (write_check 33188 = true ↔ c_and 33188 128 = 128)) :=
  ⟨by decide, perm_checks_with_type_digit 33188 (by decide)⟩

/-- C5: the mode `0177` has no type digit and its owner-write bit `0200` is
clear, yet the write test of `storage_write` and `storage_truncate` holds for
it; the mode `0377` has its owner-read bit `0400` clear, yet the read test of
`storage_read` holds.  After `mknod("/a", 0177)` a write to `/a` is carried out
and returns its size instead of `-EACCES`. -/
theorem perm_check_without_type_digit :
    Int.tdiv 127 4096 ≠ 4 ∧ c_and 127 128 = 0 ∧ write_check 127 = true ∧
    Int.tdiv 255 4096 ≠ 4 ∧ c_and 255 256 = 0 ∧ read_check 255 = true ∧
    (storage_mknod stdConfig image_fresh (cstr "/a") 127).map Prod.fst = some 0 ∧
    (storage_write stdConfig (after_mknod stdConfig image_fresh (cstr "/a") 127) (cstr "/a")
      (strcpy_src (cstr "x")) 1 0).map Prod.fst = some 1 := by
  decide

/-! ## `storage_read` -/

theorem get_inode_eq_some (img : Image) (inum : Int) (h0 : 0 ≤ inum)
    (hb : img.inode_bitmap inum = true) : get_inode img inum = some inum := by
  simp [get_inode, h0, hb]

theorem get_inode_some_iff (img : Image) (inum node : Int) :
    get_inode img inum = some node ↔ 0 ≤ inum ∧ img.inode_bitmap inum = true ∧ node = inum := by
  unfold get_inode
  split_ifs with h
  · simp only [Option.some.injEq]
    constructor
    · intro e; exact ⟨h.1, h.2, e.symm⟩
    · intro e; exact e.2.2.symm
  · simp only [false_iff, reduceCtorEq]
    intro e; exact h ⟨e.1, e.2.1⟩

/-- C1: `/a` is a regular file of size 5 that passes the read and the write
test.  `storage_write("/a", "hi", 2, 0)` does not return 2: after the copy,
`grow_inode(node, 2)` fails its assertion `size >= node->size` and the call
does not return at all. -/
theorem write_at_zero_shorter_than_file :
    tree_lookup stdConfig image_hello (cstr "/a") = some 1 ∧
    image_hello.inode_bitmap 1 = true ∧
    is_directory (image_hello.inodes 1) = false ∧
    read_check (image_hello.inodes 1).mode = true ∧
    write_check (image_hello.inodes 1).mode = true ∧
    (image_hello.inodes 1).size = 5 ∧
    (grow_inode stdConfig (memcpy image_hello
      (blocks_get_block stdConfig (image_hello.inodes 1).block + 0)
      (strcpy_src (cstr "hi")) 2) 1 2).isNone = true ∧
    (storage_write stdConfig image_hello (cstr "/a") (strcpy_src (cstr "hi")) 2 0).isNone
      = true := by
  decide

/-- C2: `/a` is a writable regular file of size 5.  `storage_write("/a", "X",
1, 1)` lies inside the file (`offset + size = 2`); it does not return 1 and
does not keep the size at 5: `grow_inode(node, 2)` fails its assertion
`size >= node->size`.  A write that ends at or behind the end of the file
(`offset + size = 6`) returns its size and grows the file. -/
theorem write_inside_file :
    write_check (image_hello.inodes 1).mode = true ∧
    (image_hello.inodes 1).size = 5 ∧
    (storage_write stdConfig image_hello (cstr "/a") (strcpy_src (cstr "X")) 1 1).isNone
      = true ∧
    (storage_write stdConfig image_hello (cstr "/a") (strcpy_src (cstr "X")) 1 5).map
      (fun r => (r.1, (r.2.inodes 1).size)) = some (1, 6) := by
  decide

/-- C4: `/a` is a writable regular file of size 5.  `storage_truncate("/a",
8)` does not leave the size at 8 with zeroed bytes: `shrink_inode(node, 8)`
fails its assertion `size <= node->size`, so the call does not return and the
`memset` is never reached.  `storage_truncate("/a", 2)` sets the size to 2. -/
theorem truncate_to_larger_size :
    write_check (image_hello.inodes 1).mode = true ∧
    (image_hello.inodes 1).size = 5 ∧
    (shrink_inode image_hello 1 8).isNone = true ∧
    (storage_truncate stdConfig image_hello (cstr "/a") 8).isNone = true ∧
    (storage_truncate stdConfig image_hello (cstr "/a") 2).map
      (fun r => (r.2.inodes 1).size) = some 2 := by
  decide

/-! ## `storage_rename` -/

/-- C10: in `image_a` the path `/a` resolves to inode 1 and `/b` does not
resolve.  `storage_link("/a", "/b")` ends without a `return` statement, and so
does the `storage_unlink` that follows: `storage_rename("/a", "/b")` hands
back no value, whatever non-negative value it read from `storage_link`.  When
the value it read is negative it returns that value and unlinks nothing,
although `storage_link` reported no error. -/
theorem rename_return_value :
    tree_lookup stdConfig image_a (cstr "/a") = some 1 ∧
    tree_lookup stdConfig image_a (cstr "/b") = some (-1) ∧
    (storage_link stdConfig image_a (cstr "/a") (cstr "/b")).map Prod.fst
      = some retval.no_return ∧
    (storage_rename stdConfig image_a 0 (cstr "/a") (cstr "/b")).map Prod.fst
      = some retval.no_return ∧
    ((storage_rename stdConfig image_a 0 (cstr "/a") (cstr "/b")).bind
      (fun r => tree_lookup stdConfig r.2 (cstr "/a"))) = some (-1) ∧
    (storage_rename stdConfig image_a (-1) (cstr "/a") (cstr "/b")).map Prod.fst
      = some (retval.ret (-1)) ∧
    ((storage_rename stdConfig image_a (-1) (cstr "/a") (cstr "/b")).bind
      (fun r => tree_lookup stdConfig r.2 (cstr "/a"))) = some 1 := by
  decide

/-! ## Names that do not fit the name field -/

/-- C7: on a fresh image `storage_mknod` succeeds for a path whose basename
has exactly `DIR_NAME_LENGTH` characters (the test is `strlen(child) >
DIR_NAME_LENGTH`) and gives the new inode 1 `refs = 1`.  The terminator that
`strcpy` writes behind the name field is overwritten by `inum`, so the
following `storage_unlink` of the same path finds no entry: inode 1 and its
block 3 stay allocated, while both were free before the `mknod`. -/
theorem mknod_unlink_full_length_name :
    image_fresh.inode_bitmap 1 = false ∧ image_fresh.blocks_bitmap 3 = false ∧
    (storage_mknod stdConfig image_fresh path_a48 33188).map Prod.fst = some 0 ∧
    ((after_mknod stdConfig image_fresh path_a48 33188).inodes 1).refs = 1 ∧
    ((after_mknod stdConfig image_fresh path_a48 33188).inodes 1).block = 3 ∧
    (storage_unlink stdConfig (after_mknod stdConfig image_fresh path_a48 33188) path_a48).map Prod.fst
      = some retval.no_return ∧
    (after_unlink stdConfig (after_mknod stdConfig image_fresh path_a48 33188) path_a48).inode_bitmap 1 = true ∧
    (after_unlink stdConfig (after_mknod stdConfig image_fresh path_a48 33188) path_a48).blocks_bitmap 3 = true := by
  decide

/-- C8: in `image_a` the path `/a` resolves to inode 1, the 49-character path
`/bbb...b` does not resolve, and its parent `/` is a writable directory with
room.  `storage_link` checks no name length: it runs to its end, raises the
`refs` of inode 1 to 2, and afterwards the new path still does not resolve, so
`storage_stat` of it returns `-ENOENT`. -/
theorem link_long_name :
    tree_lookup stdConfig image_a (cstr "/a") = some 1 ∧
    tree_lookup stdConfig image_a path_b49 = some (-1) ∧
    get_parent path_b49 = some (cstr "/") ∧
    tree_lookup stdConfig image_a (cstr "/") = some 0 ∧
    is_directory (image_a.inodes 0) = true ∧
    dir_write_check (image_a.inodes 0).mode = true ∧
    (image_a.inodes 0).size + 64 ≤ 4096 ∧
    (image_a.inodes 1).refs = 1 ∧
    (storage_link stdConfig image_a (cstr "/a") path_b49).map Prod.fst
      = some retval.no_return ∧
    ((after_link stdConfig image_a (cstr "/a") path_b49).inodes 1).refs = 2 ∧
    tree_lookup stdConfig (after_link stdConfig image_a (cstr "/a") path_b49) (cstr "/a") = some 1 ∧
    tree_lookup stdConfig (after_link stdConfig image_a (cstr "/a") path_b49) path_b49 = some (-1) ∧
    (storage_stat stdConfig (after_link stdConfig image_a (cstr "/a") path_b49) 0 path_b49
      stat_zero).map Prod.fst = some (-ENOENT) := by
  decide

/-! ## `storage_rmdir` -/

/-- C11: on a fresh image, `storage_rmdir` of a caller's string that holds
`"/"` (at an address other than that of the literal in `storage.c`) does not
return `-EPERM`: the pointer comparison fails, the root passes the size test,
its entries `.` and `..` are deleted, and 0 is returned.  Afterwards the root
has size 0 and `refs` 1 instead of size 128 and `refs` 3. -/
theorem rmdir_root_by_contents :
    (image_fresh.inodes 0).size = 128 ∧ (image_fresh.inodes 0).refs = 3 ∧
    storage_list stdConfig image_fresh (cstr "/") = some [cstr "..", cstr "."] ∧
    (storage_rmdir stdConfig image_fresh false (cstr "/")).map Prod.fst = some 0 ∧
    ((after_rmdir stdConfig image_fresh (cstr "/")).inodes 0).size = 0 ∧
    ((after_rmdir stdConfig image_fresh (cstr "/")).inodes 0).refs = 1 ∧
    storage_list stdConfig (after_rmdir stdConfig image_fresh (cstr "/")) (cstr "/") = some [] ∧
    (storage_rmdir stdConfig image_fresh true (cstr "/")).map Prod.fst = some (-EPERM) := by
  decide

/-- C12: after `mknod("/d", 040755)`, `unlink("/d/.")` and
`mknod("/d/f", 0100644)` the directory `/d` (inode 1) holds the two entries
`..` and `f`.  Its size is `2 * SIZE_DIRENT`, so `storage_rmdir("/d")` passes
the test `size > 2 * SIZE_DIRENT`, returns 0 and frees inode 1, although the
directory held the file `f`, whose inode 2 stays allocated. -/
theorem rmdir_directory_with_file :
    (storage_unlink stdConfig image_d (cstr "/d/.")).map Prod.fst = some retval.no_return ∧
    (storage_mknod stdConfig (after_unlink stdConfig image_d (cstr "/d/.")) (cstr "/d/f")
      33188).map Prod.fst = some 0 ∧
    tree_lookup stdConfig image_d_f (cstr "/d") = some 1 ∧
    is_directory (image_d_f.inodes 1) = true ∧
    storage_list stdConfig image_d_f (cstr "/d") = some [cstr "f", cstr ".."] ∧
    tree_lookup stdConfig image_d_f (cstr "/d/f") = some 2 ∧
    (storage_rmdir stdConfig image_d_f false (cstr "/d")).map Prod.fst = some 0 ∧
    (after_rmdir stdConfig image_d_f (cstr "/d")).inode_bitmap 1 = false ∧
    (after_rmdir stdConfig image_d_f (cstr "/d")).inode_bitmap 2 = true ∧
    tree_lookup stdConfig (after_rmdir stdConfig image_d_f (cstr "/d")) (cstr "/d")
      = some (-1) := by
  decide

/-- C13: on a fresh image `storage_mknod` of a path whose basename has
exactly `DIR_NAME_LENGTH` characters, with mode `040755`, returns 0 and makes
inode 1 a directory with the entries `..` and `.`, size `2 * SIZE_DIRENT` and
`refs` 2, the root's `refs` going from 3 to 4.  The path does not resolve
afterwards, so the following `storage_rmdir` of it calls `get_inode(-1)`,
whose assertion fails: it does not return 0, and inode 1 stays allocated. -/
theorem mknod_rmdir_full_length_name :
    (image_fresh.inodes 0).refs = 3 ∧ image_fresh.inode_bitmap 1 = false ∧
    (storage_mknod stdConfig image_fresh path_a48 16877).map Prod.fst = some 0 ∧
    ((after_mknod stdConfig image_fresh path_a48 16877).inodes 1).size = 128 ∧
    ((after_mknod stdConfig image_fresh path_a48 16877).inodes 1).refs = 2 ∧
    ((after_mknod stdConfig image_fresh path_a48 16877).inodes 0).refs = 4 ∧
    directory_list stdConfig (after_mknod stdConfig image_fresh path_a48 16877) 1
      = [cstr ".", cstr ".."] ∧
    tree_lookup stdConfig (after_mknod stdConfig image_fresh path_a48 16877) path_a48
      = some (-1) ∧
    (storage_rmdir stdConfig (after_mknod stdConfig image_fresh path_a48 16877) false
      path_a48).isNone = true ∧
    (after_rmdir stdConfig (after_mknod stdConfig image_fresh path_a48 16877)
      path_a48).inode_bitmap 1 = true := by
  decide

/-! ## Names passed to `directory_put` -/

/-- C20: the basename of `path_a48` has 48 characters, one more than fits the
48-byte name field with its terminator.  `storage_mknod` does not return
`-EINVAL` for it: it returns 0 and stores the entry (the root grows by one
entry), and the byte behind the name field, where `strcpy` put the
terminator, holds the low byte of `inum`.  `storage_link` to the
49-character `path_b49` does not fail either and stores an entry, while
`storage_mknod` of `path_b49` returns `-EINVAL`. -/
theorem long_names_reach_directory_put :
    (path_a48.drop 1).length = 48 ∧ stdConfig.DIR_NAME_LENGTH = 48 ∧
    (image_fresh.inodes 0).size = 128 ∧
    (storage_mknod stdConfig image_fresh path_a48 33188).map Prod.fst = some 0 ∧
    ((after_mknod stdConfig image_fresh path_a48 33188).inodes 0).size = 192 ∧
    (after_mknod stdConfig image_fresh path_a48 33188).data
      (blocks_get_block stdConfig (image_fresh.inodes 0).block + 128 + 48) = 1 ∧
    (path_b49.drop 1).length = 49 ∧
    (storage_mknod stdConfig image_a path_b49 33188).map Prod.fst = some (-EINVAL) ∧
    (image_a.inodes 0).size = 192 ∧
    (storage_link stdConfig image_a (cstr "/a") path_b49).map Prod.fst
      = some retval.no_return ∧
    ((after_link stdConfig image_a (cstr "/a") path_b49).inodes 0).size = 256 := by
  decide

/-! ## Entries that dangle -/

/-- C17: under `tinyConfig` (64-byte blocks, 16-byte entries), after
`mknod("/d", 040755)` the directory `/d` is inode 1 with block 4, right
behind the root's block 3, and its first entry `..` holds `inum` 0.
`storage_link("/d", "/bbb...b")` with a 28-character basename runs to
completion; `strcpy` in `directory_put` copies the name over the end of the
root's block into block 4.  Afterwards the first entry of the allocated
directory inode 1 holds the `inum` 1650614882, whose bit in the inode bitmap
is clear. -/
theorem link_overflow_dangling_entry :
    serve_all tinyConfig tiny_fresh [request.mknod (cstr "/d") 16877] = some tiny_d ∧
    storage_init tinyConfig blocks_init = some tiny_fresh ∧
    (tiny_d.inodes 0).block = 3 ∧ (tiny_d.inodes 1).block = 4 ∧
    load_int tiny_d (blocks_get_block tinyConfig 4 + 0 * 16 + INUM_OFFSET tinyConfig) = 0 ∧
    (storage_link tinyConfig tiny_d (cstr "/d") path_b28).map Prod.fst
      = some retval.no_return ∧
    serve_all tinyConfig tiny_d [request.link (cstr "/d") path_b28] = some tiny_over ∧
    tiny_over.inode_bitmap 1 = true ∧ is_directory (tiny_over.inodes 1) = true ∧
    (tiny_over.inodes 1).size = 32 ∧ (tiny_over.inodes 1).block = 4 ∧
    load_int tiny_over (blocks_get_block tinyConfig 4 + 0 * 16 + INUM_OFFSET tinyConfig)
      = 1650614882 ∧
    tiny_over.inode_bitmap 1650614882 = false := by
  refine ⟨rfl, rfl, ?_⟩
  refine ⟨by decide, by decide, by decide, by decide, rfl, ?_⟩
  decide

/-! ## Paths: `get_parent`, `s_explode`, `tree_walk` -/

theorem child_length_spec (r : List Nat) (n : Nat) (h : child_length r = some n) :
    ∃ t pre, r = t ++ SLASH :: pre ∧ t.length = n ∧ SLASH ∉ t := by
  induction r generalizing n with
  | nil => simp [child_length] at h
  | cons ch before ih =>
    unfold child_length at h
    split_ifs at h with hs
    · cases h
      exact ⟨[], before, by simp [hs], rfl, by simp⟩
    · cases hb : child_length before with
      | none => simp [hb] at h
      | some m =>
        simp only [hb, Option.map_some', Option.some.injEq] at h
        obtain ⟨t, pre, e, hl, hn⟩ := ih m hb
        refine ⟨ch :: t, pre, by simp [e], by simp [hl, h], ?_⟩
        simp only [List.mem_cons, not_or]
        exact ⟨fun e' => hs e'.symm, hn⟩

/-- `get_parent` cuts the path behind its last `'/'`: the parent ends with
that `'/'`, and what `path + strlen(parent)` points at holds no `'/'`. -/
theorem get_parent_spec (path parent : CString) (h : get_parent path = some parent) :
    ∃ pre child, path = pre ++ SLASH :: child ∧ parent = pre ++ [SLASH] ∧ SLASH ∉ child ∧
      path.drop parent.length = child := by
  unfold get_parent at h
  cases hc : child_length path.reverse with
  | none => simp [hc] at h
  | some n =>
    simp only [hc, Option.some.injEq] at h
    obtain ⟨t, pre, e, hl, hn⟩ := child_length_spec _ _ hc
    have hp : path = pre.reverse ++ SLASH :: t.reverse := by
      have := congrArg List.reverse e
      simpa using this
    have hlen : path.length - n = (pre.reverse ++ [SLASH]).length := by
      rw [hp]; simp; omega
    have hp2 : path = (pre.reverse ++ [SLASH]) ++ t.reverse := by rw [hp]; simp
    refine ⟨pre.reverse, t.reverse, hp, ?_, by simpa using hn, ?_⟩
    · rw [← h, hlen, hp2, List.take_left']
      rfl
    · rw [← h, hlen]
      conv_lhs => rw [hp2]
      rw [List.take_left' rfl, List.drop_left' rfl]

theorem s_explode_eq_nil (xs : CString) (d : Nat) : s_explode xs d = [] ↔ xs = [] := by
  cases xs with
  | nil => simp [s_explode]
  | cons ch rest =>
    simp only [s_explode, reduceCtorEq, iff_false]
    split_ifs
    · simp
    · cases s_explode rest d <;> simp

theorem s_explode_no_delim (xs : CString) (d : Nat) (hne : xs ≠ []) (hd : d ∉ xs) :
    s_explode xs d = [xs] := by
  induction xs with
  | nil => exact absurd rfl hne
  | cons ch rest ih =>
    simp only [List.mem_cons, not_or] at hd
    have h1 : ¬ ch = d := fun e => hd.1 e.symm
    simp only [s_explode, h1, if_false]
    cases rest with
    | nil => simp [s_explode]
    | cons c2 r2 =>
      rw [ih (by simp) hd.2]

theorem s_explode_append_child (q child : CString) (d : Nat)
    (hq : q = [] ∨ ∃ pre, q = pre ++ [d]) (hne : child ≠ []) (hd : d ∉ child) :
    s_explode (q ++ child) d = s_explode q d ++ [child] := by
  induction q with
  | nil => simp [s_explode, s_explode_no_delim child d hne hd]
  | cons ch q ih =>
    have hq' : q = [] ∨ ∃ pre, q = pre ++ [d] := by
      rcases hq with h | ⟨pre, h⟩
      · cases h
      · cases pre with
        | nil => left; simpa using (List.cons.inj h).2
        | cons p pre => right; exact ⟨pre, (List.cons.inj h).2⟩
    have ih' := ih hq'
    simp only [List.cons_append, s_explode, List.append_eq]
    split_ifs with hch
    · rw [ih']; simp
    · rw [ih']
      cases hs : s_explode q d with
      | nil =>
        have hqn := (s_explode_eq_nil q d).1 hs
        subst hqn
        rcases hq with h | ⟨pre, h⟩
        · cases h
        · cases pre with
          | nil => simp at h; exact absurd h hch
          | cons p pre => simp at h
      | cons part parts => simp

theorem s_explode_mem (xs : CString) (d : Nat) :
    ∀ comp ∈ s_explode xs d, ∀ ch ∈ comp, ch ∈ xs := by
  induction xs with
  | nil => simp [s_explode]
  | cons c rest ih =>
    intro comp hcomp ch hch
    simp only [s_explode] at hcomp
    split_ifs at hcomp with h
    · simp only [List.mem_cons] at hcomp
      rcases hcomp with e | e
      · subst e; simp at hch
      · exact List.mem_cons_of_mem _ (ih comp e ch hch)
    · cases hs : s_explode rest d with
      | nil =>
        simp only [hs, List.mem_singleton] at hcomp
        subst hcomp
        simp only [List.mem_singleton] at hch
        simp [hch]
      | cons part parts =>
        simp only [hs, List.mem_cons] at hcomp
        rcases hcomp with e | e
        · subst e
          simp only [List.mem_cons] at hch
          rcases hch with e2 | e2
          · simp [e2]
          · exact List.mem_cons_of_mem _ (ih part (by simp [hs]) ch e2)
        · exact List.mem_cons_of_mem _ (ih comp (by simp [hs, e]) ch hch)

theorem tree_walk_neg_one (c : Config) (img : Image) (comps : List CString) :
    tree_walk c img comps (-1) = some (-1) := by
  cases comps <;> simp [tree_walk]

theorem tree_walk_append (c : Config) (img : Image) (xs ys : List CString) (src : Int) :
    tree_walk c img (xs ++ ys) src = (tree_walk c img xs src).bind (tree_walk c img ys) := by
  induction xs generalizing src with
  | nil => simp [tree_walk]
  | cons x xs ih =>
    simp only [List.cons_append, tree_walk]
    split_ifs with h
    · subst h; simp [tree_walk_neg_one]
    · cases get_inode img src with
      | none => simp
      | some dd => simp [ih]

/-- Resolving a path whose basename is not empty: resolve the parent, then
look the basename up in it. -/
theorem tree_lookup_split (c : Config) (img : Image) (path parent : CString)
    (hp : get_parent path = some parent) (hne : path.drop parent.length ≠ []) :
    tree_lookup c img path =
      (tree_lookup c img parent).bind (tree_walk c img [path.drop parent.length]) := by
  obtain ⟨pre, child, e1, e2, hs, e3⟩ := get_parent_spec path parent hp
  rw [e3] at hne ⊢
  subst e1 e2
  cases pre with
  | nil =>
    simp only [List.nil_append, tree_lookup, s_explode, Option.some_bind]
    rw [s_explode_no_delim child SLASH hne hs]
    rfl
  | cons p pre =>
    simp only [List.cons_append, tree_lookup]
    have e : pre ++ SLASH :: child = (pre ++ [SLASH]) ++ child := by simp
    rw [e, s_explode_append_child (pre ++ [SLASH]) child SLASH (Or.inr ⟨pre, rfl⟩) hne hs,
      tree_walk_append]

/-! ## `directory_list` -/

theorem directory_list_from_eq (c : Config) (img : Image) (entry : Int) (n : Nat) (i : Int)
    (entries : List CString) :
    directory_list_from c img entry n i entries =
      ((List.range n).map (fun k : Nat =>
        load_cstr img (c.BLOCK_COUNT * c.BLOCK_SIZE) (entry + (i + k) * c.SIZE_DIRENT))).reverse
        ++ entries := by
  induction n generalizing i entries with
  | zero => simp [directory_list_from]
  | succ n ih =>
    rw [directory_list_from, ih, List.range_succ_eq_map]
    simp only [s_cons, List.map_cons, List.map_map, List.reverse_cons, List.append_assoc,
      List.singleton_append, Nat.cast_zero, add_zero]
    congr 2
    apply List.map_congr_left
    intro k _
    simp only [Function.comp, Nat.cast_succ]
    congr 2
    ring

/-- C15, as the code has it: `directory_list` returns one name per entry,
`dd.size / SIZE_DIRENT` of them, the last entry first: the `k`-th name of the
result is the name of entry `n - 1 - k`; and `storage_list` of a path that
resolves to the directory `dd` returns that list. -/
theorem directory_list_reversed (c : Config) (img : Image) (dd : Int) :
    directory_list c img dd =
      ((List.range (Int.tdiv (img.inodes dd).size c.SIZE_DIRENT).toNat).map (fun k : Nat =>
        load_cstr img (c.BLOCK_COUNT * c.BLOCK_SIZE)
          (blocks_get_block c (img.inodes dd).block + k * c.SIZE_DIRENT))).reverse ∧
    (directory_list c img dd).length = (Int.tdiv (img.inodes dd).size c.SIZE_DIRENT).toNat ∧
    (∀ path, tree_lookup c img path = some dd → 0 ≤ dd → img.inode_bitmap dd = true →
      is_directory (img.inodes dd) = true →
      storage_list c img path = some (directory_list c img dd)) := by
  have h : directory_list c img dd =
      ((List.range (Int.tdiv (img.inodes dd).size c.SIZE_DIRENT).toNat).map (fun k : Nat =>
        load_cstr img (c.BLOCK_COUNT * c.BLOCK_SIZE)
          (blocks_get_block c (img.inodes dd).block + k * c.SIZE_DIRENT))).reverse := by
    unfold directory_list
    rw [directory_list_from_eq]
    simp
  refine ⟨h, ?_, ?_⟩
  · rw [h]
    simp
  · intro path hp h0 ha hd
    unfold storage_list
    rw [hp]
    simp only [get_inode_eq_some img dd h0 ha, hd, Bool.true_eq_false, if_false]

theorem directory_list_reversed_witness :
    tree_lookup stdConfig image_d (cstr "/d") = some 1 ∧
    storage_list stdConfig image_d (cstr "/d") = some (directory_list stdConfig image_d 1) ∧
    (directory_list stdConfig image_d 1).length = 2 :=
  ⟨by decide,
   (directory_list_reversed stdConfig image_d 1).2.2 (cstr "/d") (by decide) (by decide)
     (by decide) (by decide),
   by rw [(directory_list_reversed stdConfig image_d 1).2.1]; decide⟩

/-- C15 as stated fails: on a fresh image the root's entries are `.` and `..`
in this order, and `storage_list("/")` returns `["..", "."]`. -/
theorem storage_list_root_fresh :
    strcmp_eq image_fresh (blocks_get_block stdConfig (image_fresh.inodes 0).block + 0 * 64)
      (cstr ".") = true ∧
    strcmp_eq image_fresh (blocks_get_block stdConfig (image_fresh.inodes 0).block + 1 * 64)
      (cstr "..") = true ∧
    storage_list stdConfig image_fresh (cstr "/") = some [cstr "..", cstr "."] ∧
    storage_list stdConfig image_fresh (cstr "/") ≠ some [cstr ".", cstr ".."] := by
  decide

/-! ## Failures of `storage_mknod` -/

theorem first_clear_nonneg (bm : Int → Bool) (n : Nat) (i k : Int) (h0 : 0 ≤ i)
    (h : first_clear bm n i = some k) : 0 ≤ k := by
  induction n generalizing i with
  | zero => simp [first_clear] at h
  | succ n ih =>
    unfold first_clear at h
    split_ifs at h with hb
    · cases h; exact h0
    · exact ih (i + 1) (by omega) h

/-- `alloc_block` returns `-1` only when it has changed nothing. -/
theorem alloc_block_fail (c : Config) (img : Image) (h : (alloc_block c img).1 = -1) :
    (alloc_block c img).2 = img ∧ first_clear img.blocks_bitmap c.BLOCK_COUNT 0 = none := by
  unfold alloc_block at h ⊢
  cases hf : first_clear img.blocks_bitmap c.BLOCK_COUNT 0 with
  | none => simp
  | some b =>
    rw [hf] at h
    have := first_clear_nonneg _ _ _ _ (le_refl _) hf
    simp only at h
    omega

theorem alloc_inode_from_fail (c : Config) (img : Image) (n : Nat) (i : Int) (h0 : 0 ≤ i)
    (a : Int × Image) (h : alloc_inode_from c img n i = some a) (ha : a.1 = -1) :
    a.2 = img ∧ (first_clear img.inode_bitmap n i = none ∨
      first_clear img.blocks_bitmap c.BLOCK_COUNT 0 = none) := by
  induction n generalizing i with
  | zero =>
    simp only [alloc_inode_from, Option.some.injEq] at h
    subst h
    exact ⟨rfl, Or.inl rfl⟩
  | succ n ih =>
    have hfc : first_clear img.inode_bitmap (n + 1) i =
        if img.inode_bitmap i = false then some i
        else first_clear img.inode_bitmap n (i + 1) := rfl
    rw [hfc]
    rw [alloc_inode_from] at h
    by_cases hb : img.inode_bitmap i = false
    · simp only [hb, if_true] at h
      by_cases hblk : (alloc_block c img).1 = -1
      · simp only [hblk, if_true, Option.some.injEq] at h
        subst h
        exact ⟨(alloc_block_fail c img hblk).1, Or.inr (alloc_block_fail c img hblk).2⟩
      · exfalso
        simp only [hblk, if_false] at h
        cases hg : get_inode (inode_bitmap_put (alloc_block c img).2 i true) i with
        | none => rw [hg] at h; simp at h
        | some node =>
          rw [hg] at h
          simp only [Option.some.injEq] at h
          subst h
          simp only at ha
          omega
    · simp only [hb, if_false] at h ⊢
      exact ih (i + 1) (by omega) h

/-- `alloc_inode` returns `-1` only when it has changed nothing: no inode
was free, or no block was. -/
theorem alloc_inode_fail (c : Config) (img : Image) (a : Int × Image)
    (h : alloc_inode c img = some a) (ha : a.1 = -1) :
    a.2 = img ∧ (first_clear img.inode_bitmap c.BLOCK_COUNT 0 = none ∨
      first_clear img.blocks_bitmap c.BLOCK_COUNT 0 = none) :=
  alloc_inode_from_fail c img _ 0 (le_refl _) a h ha

theorem same_allocation_refl (img : Image) : same_allocation img img :=
  ⟨rfl, rfl, fun _ => ⟨rfl, le_refl _⟩⟩

theorem same_allocation_trans {a b d : Image} (h1 : same_allocation a b)
    (h2 : same_allocation b d) : same_allocation a d :=
  ⟨h2.1.trans h1.1, h2.2.1.trans h1.2.1,
    fun i => ⟨((h2.2.2 i).1).trans (h1.2.2 i).1, le_trans (h1.2.2 i).2 (h2.2.2 i).2⟩⟩

theorem same_allocation_memcpy (img : Image) (dst : Int) (src : Nat → Nat) (n : Nat) :
    same_allocation img (memcpy img dst src n) :=
  ⟨rfl, rfl, fun _ => ⟨rfl, le_refl _⟩⟩

theorem same_allocation_set_inode (img : Image) (node : Int) (n : inode_t)
    (hb : n.block = (img.inodes node).block) (hr : (img.inodes node).refs ≤ n.refs) :
    same_allocation img (img.set_inode node n) := by
  refine ⟨rfl, rfl, fun i => ?_⟩
  show ((if i = node then n else img.inodes i).block = (img.inodes i).block) ∧
    (img.inodes i).refs ≤ (if i = node then n else img.inodes i).refs
  split_ifs with h
  · subst h; exact ⟨hb, hr⟩
  · exact ⟨rfl, le_refl _⟩

theorem refs_blocks_ok_iff (img : Image) :
    refs_blocks_ok img ↔ blocks_owned img ∧ ∀ i, img.inode_bitmap i = true → (img.inodes i).refs > 0 := by
  constructor
  · intro h
    exact ⟨fun i hi => (h i hi).2, fun i hi => (h i hi).1⟩
  · intro h i hi
    exact ⟨h.2 i hi, h.1 i hi⟩

theorem blocks_owned_same (img img' : Image) (hs : same_allocation img img')
    (h : blocks_owned img) : blocks_owned img' := by
  intro i hi
  rw [hs.1] at hi
  obtain ⟨h1, h2⟩ := h i hi
  refine ⟨by rw [hs.2.1, (hs.2.2 i).1]; exact h1, fun j hj hja => ?_⟩
  rw [hs.1] at hja
  rw [(hs.2.2 i).1, (hs.2.2 j).1]
  exact h2 j hj hja

theorem refs_positive_except_same (img img' : Image) (x : Int) (hs : same_allocation img img')
    (h : refs_positive_except img x) : refs_positive_except img' x := by
  intro i hne hi
  rw [hs.1] at hi
  have := h i hne hi
  have := (hs.2.2 i).2
  omega

theorem refs_blocks_ok_same (img img' : Image) (hs : same_allocation img img')
    (h : refs_blocks_ok img) : refs_blocks_ok img' := by
  rw [refs_blocks_ok_iff] at h ⊢
  refine ⟨blocks_owned_same img img' hs h.1, fun i hi => ?_⟩
  rw [hs.1] at hi
  have := h.2 i hi
  have := (hs.2.2 i).2
  omega

theorem grow_inode_same (c : Config) (img img' : Image) (node size : Int)
    (h : grow_inode c img node size = some img') : same_allocation img img' := by
  unfold grow_inode at h
  split_ifs at h
  cases h
  exact same_allocation_set_inode img node _ rfl (le_refl _)

theorem shrink_inode_same (img img' : Image) (node size : Int)
    (h : shrink_inode img node size = some img') : same_allocation img img' := by
  unfold shrink_inode at h
  split_ifs at h
  cases h
  exact same_allocation_set_inode img node _ rfl (le_refl _)

theorem same_allocation_store_int (img : Image) (p v : Int) :
    same_allocation img (store_int img p v) :=
  ⟨rfl, rfl, fun _ => ⟨rfl, le_refl _⟩⟩


theorem same_allocation_add_refs (img : Image) (node d : Int) (hd : 0 ≤ d) :
    same_allocation img (add_refs img node d) :=
  same_allocation_set_inode img node
    { img.inodes node with refs := (img.inodes node).refs + d } rfl
    (show (img.inodes node).refs ≤ (img.inodes node).refs + d by omega)

/-- `directory_put` changes no bitmap and no `block`, and lowers no `refs`. -/
theorem directory_put_same (c : Config) (img : Image) (dd : Int) (name : CString) (inum : Int)
    (p : Int × Image) (h : directory_put c img dd name inum = some p) :
    same_allocation img p.2 := by
  unfold directory_put at h
  by_cases hroom : (img.inodes dd).size + c.SIZE_DIRENT > c.BLOCK_SIZE
  · rw [if_pos hroom] at h; cases h; exact same_allocation_refl img
  · rw [if_neg hroom] at h
    dsimp only at h
    cases hg : get_inode _ _ with
    | none => rw [hg] at h; exact absurd h (by simp)
    | some node =>
      rw [hg] at h
      dsimp only at h
      cases hgr : grow_inode _ _ _ _ with
      | none => rw [hgr] at h; exact absurd h (by simp)
      | some img4 =>
        rw [hgr] at h
        cases h
        refine same_allocation_trans (same_allocation_trans
          (same_allocation_trans (same_allocation_memcpy _ _ _ _) (same_allocation_store_int _ _ _))
          (same_allocation_add_refs _ node 1 (by omega))) (grow_inode_same c _ _ _ _ hgr)
/-- `decrement_references` keeps the reference counts positive and the blocks
owned: the inode is released exactly when its count reaches 0. -/
theorem decrement_references_ok (img img' : Image) (inum : Int) (hinv : refs_blocks_ok img)
    (h : decrement_references img inum = some img') : refs_blocks_ok img' := by
  unfold decrement_references at h
  cases hg : get_inode img inum with
  | none => rw [hg] at h; exact absurd h (by simp)
  | some node =>
    rw [hg] at h
    obtain ⟨_, hbit, hnode⟩ := (get_inode_some_iff img inum node).1 hg
    have hnode' := hnode.symm
    subst hnode'
    dsimp only at h
    by_cases hz : (img.inodes inum).refs - 1 = 0
    · have hz' : ((img.set_inode inum
          { img.inodes inum with refs := (img.inodes inum).refs - 1 }).inodes inum).refs = 0 := by
        simp [Image.set_inode, hz]
      rw [if_pos hz'] at h
      unfold free_inode at h
      have hg' : get_inode (img.set_inode inum
          { img.inodes inum with refs := (img.inodes inum).refs - 1 }) inum = some inum := by
        unfold get_inode at hg ⊢
        exact hg
      rw [hg'] at h
      cases h
      intro i hi
      have hne : i ≠ inum := by
        intro e; subst e
        simp [inode_bitmap_put, free_block, Image.set_inode] at hi
      have hi' : img.inode_bitmap i = true := by
        simpa [inode_bitmap_put, free_block, Image.set_inode, hne] using hi
      obtain ⟨h1, h2, h3⟩ := hinv i hi'
      have hb : (img.inodes i).block ≠ (img.inodes inum).block := h3 inum (Ne.symm hne) hbit |> Ne.symm
      refine ⟨by simpa [inode_bitmap_put, free_block, Image.set_inode, hne] using h1, ?_, ?_⟩
      · simpa [inode_bitmap_put, free_block, Image.set_inode, hne, hb] using h2
      · intro j hj hjb
        have hjne : j ≠ inum := by
          intro e; subst e
          simp [inode_bitmap_put, free_block, Image.set_inode] at hjb
        have hjb' : img.inode_bitmap j = true := by
          simpa [inode_bitmap_put, free_block, Image.set_inode, hjne] using hjb
        simpa [inode_bitmap_put, free_block, Image.set_inode, hne, hjne] using h3 j hj hjb'
    · have hz' : ¬ ((img.set_inode inum
          { img.inodes inum with refs := (img.inodes inum).refs - 1 }).inodes inum).refs = 0 := by
        simp [Image.set_inode, hz]
      rw [if_neg hz'] at h
      cases h
      intro i hi
      have hi' : img.inode_bitmap i = true := hi
      obtain ⟨h1, h2, h3⟩ := hinv i hi'
      refine ⟨?_, ?_, ?_⟩
      · by_cases e : i = inum
        · subst e
          simp only [Image.set_inode, if_true]
          omega
        · simpa [Image.set_inode, e] using h1
      · by_cases e : i = inum
        · subst e; simpa [Image.set_inode] using h2
        · simpa [Image.set_inode, e] using h2
      · intro j hj hjb
        have hjb' : img.inode_bitmap j = true := hjb
        have := h3 j hj hjb'
        by_cases e : i = inum <;> by_cases e' : j = inum
        · exact absurd (e'.trans e.symm) hj
        · subst e; simpa [Image.set_inode, e'] using this
        · subst e'; simpa [Image.set_inode, e] using this
        · simpa [Image.set_inode, e, e'] using this

theorem refs_blocks_ok_kept : kept_by_steps refs_blocks_ok :=
  ⟨fun a b hs h => refs_blocks_ok_same a b hs h,
   fun a b i h hd => decrement_references_ok a b i h hd⟩

theorem storage_link_keeps (P : Image → Prop) (hk : kept_by_steps P) (c : Config) (img : Image)
    (from_path to_path : CString) (r : retval × Image) (hinv : P img)
    (h : storage_link c img from_path to_path = some r) : P r.2 := by
  unfold storage_link at h
  dsimp only at h
  repeat' split at h
  all_goals first
    | (cases h; done)
    | (cases h; exact hinv)
    | (cases h; rename_i hp; exact hk.1 _ _ (directory_put_same _ _ _ _ _ _ hp) hinv)

theorem directory_delete_from_keeps (P : Image → Prop) (hk : kept_by_steps P) (c : Config)
    (dd : Int) (name : CString) (n : Nat) :
    ∀ (img : Image) (i : Int) (r : Int × Image), P img →
      directory_delete_from c img dd name n i = some r → P r.2 := by
  induction n with
  | zero =>
    intro img i r hinv h
    unfold directory_delete_from at h
    cases h
    exact hinv
  | succ n ih =>
    intro img i r hinv h
    unfold directory_delete_from at h
    dsimp only at h
    split at h
    · split at h
      · cases h
      · rename_i img1 hd
        split at h
        · cases h
        · rename_i img3 hs
          cases h
          exact hk.1 _ _
            (same_allocation_trans (same_allocation_memcpy _ _ _ _) (shrink_inode_same _ _ _ _ hs))
            (hk.2 _ _ _ hinv hd)
    · exact ih img (i + 1) r hinv h

theorem directory_delete_keeps (P : Image → Prop) (hk : kept_by_steps P) (c : Config)
    (img : Image) (dd : Int) (name : CString) (r : Int × Image) (hinv : P img)
    (h : directory_delete c img dd name = some r) : P r.2 :=
  directory_delete_from_keeps P hk c dd name _ img 0 r hinv h

theorem storage_unlink_keeps (P : Image → Prop) (hk : kept_by_steps P) (c : Config)
    (img : Image) (path : CString) (r : retval × Image) (hinv : P img)
    (h : storage_unlink c img path = some r) : P r.2 := by
  unfold storage_unlink at h
  dsimp only at h
  repeat' split at h
  all_goals first
    | (cases h; done)
    | (cases h; exact hinv)
    | (cases h; rename_i hp; exact directory_delete_keeps P hk _ _ _ _ _ hinv hp)

theorem storage_rename_keeps (P : Image → Prop) (hk : kept_by_steps P) (c : Config)
    (img : Image) (rv : Int) (from_path to_path : CString) (r : retval × Image) (hinv : P img)
    (h : storage_rename c img rv from_path to_path = some r) : P r.2 := by
  unfold storage_rename at h
  split at h
  · cases h
  · rename_i l hl
    have hl2 := storage_link_keeps P hk c img from_path to_path l hinv hl
    dsimp only at h
    split at h
    · cases h; exact hl2
    · exact storage_unlink_keeps P hk c l.2 from_path r hl2 h

theorem storage_rmdir_keeps (P : Image → Prop) (hk : kept_by_steps P) (c : Config)
    (img : Image) (same_pointer : Bool) (path : CString) (r : Int × Image) (hinv : P img)
    (h : storage_rmdir c img same_pointer path = some r) : P r.2 := by
  unfold storage_rmdir at h
  dsimp only at h
  repeat' split at h
  all_goals first
    | (cases h; done)
    | (cases h; exact hinv)
    | (cases h; rename_i h1 _ _ h2 _ _ h3
       have h4 := directory_delete_keeps P hk _ _ _ _ _
         (directory_delete_keeps P hk _ _ _ _ _
           (directory_delete_keeps P hk _ _ _ _ _ hinv h1) h2) h3
       exact h4)

theorem storage_truncate_keeps (P : Image → Prop) (hk : kept_by_steps P) (c : Config)
    (img : Image) (path : CString) (size : Int) (r : retval × Image) (hinv : P img)
    (h : storage_truncate c img path size = some r) : P r.2 := by
  unfold storage_truncate at h
  try dsimp only at h
  repeat' split at h
  all_goals first
    | (cases h; done)
    | (cases h; exact hinv)
    | (cases h; rename_i hp _
       exact hk.1 _ _
         (same_allocation_trans (shrink_inode_same _ _ _ _ hp) (same_allocation_memcpy _ _ _ _))
         hinv)
    | (cases h; rename_i hp _
       exact hk.1 _ _ (shrink_inode_same _ _ _ _ hp) hinv)

/-! ## Allocation hands out the first free inode and block -/

theorem first_clear_eq_some (bm : Int → Bool) (n : Nat) (i k : Int) :
    first_clear bm n i = some k ↔
      (i ≤ k ∧ k < i + n ∧ bm k = false ∧ ∀ k', i ≤ k' → k' < k → bm k' = true) := by
  induction n generalizing i with
  | zero =>
    simp only [first_clear, reduceCtorEq, Nat.cast_zero, add_zero, false_iff]
    intro h; omega
  | succ n ih =>
    unfold first_clear
    split_ifs with h
    · simp only [Option.some.injEq]
      constructor
      · intro e; subst e
        exact ⟨le_refl _, by push_cast; omega, h, fun k' h1 h2 => by omega⟩
      · rintro ⟨h1, _, h3, h4⟩
        by_contra hne
        have := h4 i (le_refl _) (by omega)
        rw [h] at this
        exact absurd this (by simp)
    · rw [ih (i + 1)]
      have hi : bm i = true := by simpa using h
      constructor
      · rintro ⟨h1, h2, h3, h4⟩
        refine ⟨by omega, by push_cast; omega, h3, fun k' a b => ?_⟩
        by_cases e : k' = i
        · subst e; exact hi
        · exact h4 k' (by omega) b
      · rintro ⟨h1, h2, h3, h4⟩
        have hik : i ≠ k := by
          intro e; subst e; rw [hi] at h3; exact absurd h3 (by simp)
        refine ⟨by omega, by push_cast at h2; omega, h3, fun k' a b => h4 k' (by omega) b⟩

/-- A bitmap with a clear bit among the first `n` has a first clear bit. -/
theorem first_clear_exists (bm : Int → Bool) (n : Nat) (i : Int)
    (h : ∃ k : Int, i ≤ k ∧ k < i + n ∧ bm k = false) : ∃ k, first_clear bm n i = some k := by
  induction n generalizing i with
  | zero => obtain ⟨k, h1, h2, _⟩ := h; simp at h2; omega
  | succ n ih =>
    unfold first_clear
    split_ifs with hb
    · exact ⟨i, rfl⟩
    · obtain ⟨k, h1, h2, h3⟩ := h
      apply ih
      refine ⟨k, ?_, by push_cast at h2; omega, h3⟩
      by_contra hlt
      have : k = i := by omega
      subst this
      exact hb h3

theorem alloc_inode_from_eq (c : Config) (img : Image) (n : Nat) (i k b : Int)
    (hi : first_clear img.inode_bitmap n i = some k) (h0 : 0 ≤ i)
    (hb : first_clear img.blocks_bitmap c.BLOCK_COUNT 0 = some b) :
    alloc_inode_from c img n i = some (k, alloc_image img k b) := by
  induction n generalizing i with
  | zero => simp [first_clear] at hi
  | succ n ih =>
    unfold first_clear at hi
    unfold alloc_inode_from
    split_ifs at hi with h
    · cases hi
      have hb0 := ((first_clear_eq_some _ _ _ _).1 hb).1
      have hne : b ≠ -1 := by omega
      simp only [h, if_true, alloc_block, hb, hne, if_false]
      rw [get_inode_eq_some _ k h0 (by simp [inode_bitmap_put])]
      rfl
    · simp only [h, if_false]
      exact ih (i + 1) hi (by omega)

/-- `alloc_inode` hands out the first free inode together with the first free
block. -/
theorem alloc_inode_eq (c : Config) (img : Image) (i b : Int)
    (hi : first_clear img.inode_bitmap c.BLOCK_COUNT 0 = some i)
    (hb : first_clear img.blocks_bitmap c.BLOCK_COUNT 0 = some b) :
    alloc_inode c img = some (i, alloc_image img i b) :=
  alloc_inode_from_eq c img _ 0 i b hi (le_refl _) hb

@[simp] theorem alloc_image_inode_bitmap (img : Image) (i b j : Int) :
    (alloc_image img i b).inode_bitmap j = if j = i then true else img.inode_bitmap j := rfl

@[simp] theorem alloc_image_blocks_bitmap (img : Image) (i b j : Int) :
    (alloc_image img i b).blocks_bitmap j = if j = b then true else img.blocks_bitmap j := rfl

@[simp] theorem alloc_image_data (img : Image) (i b : Int) :
    (alloc_image img i b).data = img.data := rfl

theorem alloc_image_inodes (img : Image) (i b j : Int) :
    (alloc_image img i b).inodes j =
      if j = i then { img.inodes i with block := b } else img.inodes j := rfl

theorem alloc_image_inodes_other (img : Image) (i b j : Int) (h : j ≠ i) :
    (alloc_image img i b).inodes j = img.inodes j := by
  simp [alloc_image_inodes, h]


/-- The result of `alloc_inode` when it hands out an inode. -/
theorem alloc_inode_from_some (c : Config) (img : Image) (n : Nat) (i : Int) (h0 : 0 ≤ i)
    (a : Int × Image) (h : alloc_inode_from c img n i = some a) (ha : a.1 ≠ -1) :
    ∃ b, first_clear img.inode_bitmap n i = some a.1 ∧
      first_clear img.blocks_bitmap c.BLOCK_COUNT 0 = some b ∧ a.2 = alloc_image img a.1 b := by
  induction n generalizing i with
  | zero =>
    unfold alloc_inode_from at h
    cases h
    exact absurd rfl ha
  | succ n ih =>
    have hfc : first_clear img.inode_bitmap (n + 1) i =
        if img.inode_bitmap i = false then some i
        else first_clear img.inode_bitmap n (i + 1) := rfl
    rw [hfc]
    unfold alloc_inode_from at h
    by_cases hbit : img.inode_bitmap i = false
    · rw [if_pos hbit] at h ⊢
      dsimp only at h
      by_cases hr : (alloc_block c img).1 = -1
      · rw [if_pos hr] at h
        cases h
        exact absurd rfl ha
      · rw [if_neg hr] at h
        cases hf : first_clear img.blocks_bitmap c.BLOCK_COUNT 0 with
        | none =>
          exfalso
          apply hr
          unfold alloc_block
          rw [hf]
        | some b =>
          have hab : alloc_block c img =
              (b, { img with blocks_bitmap := fun j => if j = b then true else img.blocks_bitmap j }) := by
            unfold alloc_block
            rw [hf]
          rw [hab] at h
          dsimp only at h
          rw [get_inode_eq_some _ i h0 (by simp [inode_bitmap_put])] at h
          dsimp only at h
          cases h
          exact ⟨b, rfl, rfl, rfl⟩
    · rw [if_neg hbit] at h ⊢
      exact ih (i + 1) (by omega) h

/-- After `alloc_inode` has handed out inode `a.1`, every allocated inode owns
its block and every one other than `a.1` has `refs > 0`. -/
theorem alloc_inode_ok (c : Config) (img : Image) (a : Int × Image)
    (hinv : refs_blocks_ok img) (h : alloc_inode c img = some a) (ha : a.1 ≠ -1) :
    blocks_owned a.2 ∧ refs_positive_except a.2 a.1 := by
  obtain ⟨b, hi, hb, e⟩ := alloc_inode_from_some c img _ 0 (le_refl _) a h ha
  obtain ⟨_, _, hib, _⟩ := (first_clear_eq_some _ _ _ _).1 hi
  obtain ⟨_, _, hbb, _⟩ := (first_clear_eq_some _ _ _ _).1 hb
  rw [e]
  have hblock : ∀ j, img.inode_bitmap j = true → (img.inodes j).block ≠ b := by
    intro j hj e'
    have := (hinv j hj).2.1
    rw [e', hbb] at this
    exact absurd this (by simp)
  constructor
  · intro i hi'
    rw [alloc_image_inode_bitmap] at hi'
    by_cases e1 : i = a.1
    · subst e1
      refine ⟨by simp [alloc_image_inodes], fun j hj hjb => ?_⟩
      rw [alloc_image_inode_bitmap, if_neg hj] at hjb
      rw [alloc_image_inodes_other _ _ _ _ hj]
      simpa [alloc_image_inodes] using hblock j hjb
    · rw [if_neg e1] at hi'
      obtain ⟨_, h2, h3⟩ := hinv i hi'
      rw [alloc_image_inodes_other _ _ _ _ e1]
      refine ⟨by simp [h2], fun j hj hjb => ?_⟩
      by_cases e2 : j = a.1
      · subst e2
        have := hblock i hi'
        simpa [alloc_image_inodes] using Ne.symm this
      · rw [alloc_image_inode_bitmap, if_neg e2] at hjb
        rw [alloc_image_inodes_other _ _ _ _ e2]
        exact h3 j hj hjb
  · intro i hne hi'
    rw [alloc_image_inode_bitmap, if_neg hne] at hi'
    rw [alloc_image_inodes_other _ _ _ _ hne]
    exact (hinv i hi').1

theorem init_child_ok (img : Image) (x mode : Int) (hb : blocks_owned img)
    (hr : refs_positive_except img x) : refs_blocks_ok (init_child img x mode) := by
  have hs : ∀ i, ((init_child img x mode).inodes i).block = (img.inodes i).block := by
    intro i
    by_cases e : i = x
    · subst e; simp [init_child, Image.set_inode]
    · simp [init_child, Image.set_inode, e]
  intro i hi
  have hi' : img.inode_bitmap i = true := hi
  obtain ⟨h1, h2⟩ := hb i hi'
  refine ⟨?_, ?_, fun j hj hjb => ?_⟩
  · by_cases e : i = x
    · subst e; simp [init_child, Image.set_inode]
    · have := hr i e hi'
      simpa [init_child, Image.set_inode, e] using this
  · rw [hs i]; exact h1
  · rw [hs i, hs j]; exact h2 j hj hjb

theorem storage_mknod_ok (c : Config) (img : Image) (path : CString) (mode : Int)
    (r : Int × Image) (hinv : refs_blocks_ok img)
    (h : storage_mknod c img path mode = some r) : refs_blocks_ok r.2 := by
  unfold storage_mknod at h
  dsimp only at h
  repeat' split at h
  all_goals try (cases h; done)
  all_goals try (cases h; exact hinv)
  · rename_i _ a ha h1
    cases h
    rw [(alloc_inode_fail c img a ha h1).1]
    exact hinv
  · rename_i _ a ha hne _ p hp _ node hg hm _ p1 hp1 _ p2 hp2
    cases h
    obtain ⟨hb, hr⟩ := alloc_inode_ok c img a hinv ha hne
    have e := ((get_inode_some_iff _ _ _).1 hg).2.2
    subst e
    have hs := directory_put_same _ _ _ _ _ _ hp
    have h3 := init_child_ok p.2 a.1 mode (blocks_owned_same _ _ hs hb)
      (refs_positive_except_same _ _ _ hs hr)
    have h4 := refs_blocks_ok_same _ _ (directory_put_same _ _ _ _ _ _ hp2)
      (refs_blocks_ok_same _ _ (directory_put_same _ _ _ _ _ _ hp1) h3)
    exact h4
  · rename_i _ a ha hne _ p hp _ node hg hm
    cases h
    obtain ⟨hb, hr⟩ := alloc_inode_ok c img a hinv ha hne
    have e := ((get_inode_some_iff _ _ _).1 hg).2.2
    subst e
    have hs := directory_put_same _ _ _ _ _ _ hp
    exact init_child_ok p.2 a.1 mode (blocks_owned_same _ _ hs hb)
      (refs_positive_except_same _ _ _ hs hr)

theorem storage_init_alloc_inodes (c : Config) (n : Nat) :
    ∀ (img img' : Image) (i : Int), storage_init_alloc c img n i = some img' →
      img'.inode_bitmap = img.inode_bitmap := by
  induction n with
  | zero =>
    intro img img' i h
    unfold storage_init_alloc at h
    cases h; rfl
  | succ n ih =>
    intro img img' i h
    unfold storage_init_alloc at h
    dsimp only at h
    split at h
    · rw [ih _ _ _ h]
      unfold alloc_block
      split <;> rfl
    · cases h

theorem directory_init_ok (c : Config) (img img' : Image)
    (hno : ∀ i, img.inode_bitmap i = false)
    (h : directory_init c img = some img') : refs_blocks_ok img' := by
  unfold directory_init at h
  split at h
  · have hg : get_inode (inode_bitmap_put img ROOT_INODE true) ROOT_INODE = some ROOT_INODE :=
      get_inode_eq_some _ _ (by decide) (by simp [inode_bitmap_put])
    dsimp only at h
    rw [hg] at h
    dsimp only at h
    split at h
    · rename_i hblock
      split at h
      · cases h
      · rename_i r1 h1
        split at h
        · cases h
        · rename_i r2 h2
          cases h
          refine refs_blocks_ok_same _ _ (directory_put_same _ _ _ _ _ _ h2)
            (refs_blocks_ok_same _ _ (directory_put_same _ _ _ _ _ _ h1) ?_)
          cases hf : first_clear img.blocks_bitmap c.BLOCK_COUNT 0 with
          | none =>
            exfalso
            apply hblock
            simp [alloc_block, hf, Image.set_inode, inode_bitmap_put]
          | some b =>
            intro i hi
            have hi0 : i = ROOT_INODE := by
              by_contra hne
              have : img.inode_bitmap i = true := by
                simpa [Image.set_inode, alloc_block, hf, inode_bitmap_put, hne] using hi
              rw [hno i] at this
              exact absurd this (by simp)
            subst hi0
            refine ⟨by simp [Image.set_inode], by simp [Image.set_inode, alloc_block, hf, inode_bitmap_put], ?_⟩
            intro j hj hjb
            exfalso
            have : img.inode_bitmap j = true := by
              simpa [Image.set_inode, alloc_block, hf, inode_bitmap_put, hj] using hjb
            rw [hno j] at this
            exact absurd this (by simp)
    · cases h
  · cases h

theorem storage_init_ok (c : Config) (img0 : Image)
    (h : storage_init c blocks_init = some img0) : refs_blocks_ok img0 := by
  unfold storage_init at h
  have h1 : blocks_init.blocks_bitmap 1 = false := by decide
  rw [if_pos h1] at h
  split at h
  · cases h
  · rename_i img1 ha
    refine directory_init_ok c img1 img0 (fun i => ?_) h
    rw [storage_init_alloc_inodes c _ _ _ _ ha]
    rfl

theorem storage_read_image (c : Config) (img : Image) (path : CString) (buf : Nat → Nat)
    (size : Nat) (offset : Int) (r : Int × (Nat → Nat) × Image)
    (h : storage_read c img path buf size offset = some r) : r.2.2 = img := by
  unfold storage_read at h
  try dsimp only at h
  repeat' split at h
  all_goals first
    | (cases h; done)
    | (cases h; rfl)

theorem storage_stat_image (c : Config) (img : Image) (uid : Int) (path : CString) (st : stat)
    (r : Int × stat × Image)
    (h : storage_stat c img uid path st = some r) : r.2.2 = img := by
  unfold storage_stat at h
  try dsimp only at h
  repeat' split at h
  all_goals first
    | (cases h; done)
    | (cases h; rfl)



/-! ## `tree_lookup` follows the components of the path -/

theorem s_explode_cons_component (x y : CString) (d : Nat) (hd : d ∉ x) :
    s_explode (x ++ d :: y) d = x :: s_explode y d := by
  induction x with
  | nil => simp [s_explode]
  | cons ch x ih =>
    simp only [List.mem_cons, not_or] at hd
    have h1 : ¬ ch = d := fun e => hd.1 e.symm
    simp only [List.cons_append, s_explode, if_neg h1, List.append_eq, ih hd.2]

theorem s_explode_path_of (comp : CString) (rest : List CString)
    (hc : ∀ x ∈ comp :: rest, x ≠ [] ∧ SLASH ∉ x) :
    s_explode (comp ++ path_of rest) SLASH = comp :: rest := by
  induction rest generalizing comp with
  | nil =>
    have := hc comp (List.mem_cons_self _ _)
    simpa [path_of] using s_explode_no_delim comp SLASH this.1 this.2
  | cons y rest ih =>
    have h1 := hc comp (List.mem_cons_self _ _)
    have h2 : ∀ x ∈ y :: rest, x ≠ [] ∧ SLASH ∉ x :=
      fun x hx => hc x (List.mem_cons_of_mem _ hx)
    show s_explode (comp ++ SLASH :: (y ++ path_of rest)) SLASH = comp :: y :: rest
    rw [s_explode_cons_component comp _ SLASH h1.2, ih y h2]

theorem tree_walk_eq_chain (c : Config) (img : Image) (comps : List CString) :
    ∀ (src r : Int), tree_walk c img comps src = some r → r = lookup_chain c img comps src := by
  induction comps with
  | nil =>
    intro src r h
    unfold tree_walk at h
    cases h; rfl
  | cons name rest ih =>
    intro src r h
    unfold tree_walk at h
    unfold lookup_chain
    split at h
    · rename_i hs
      cases h
      rw [if_pos hs]; exact hs
    · rename_i hs
      rw [if_neg hs]
      split at h
      · cases h
      · rename_i dd hg
        have e := ((get_inode_some_iff _ _ _).1 hg).2.2
        subst e
        exact ih _ r h

theorem tree_walk_of_allocated (c : Config) (img : Image) (comps : List CString) :
    ∀ (src : Int), chain_allocated c img comps src →
      tree_walk c img comps src = some (lookup_chain c img comps src) := by
  induction comps with
  | nil => intro src _; rfl
  | cons name rest ih =>
    intro src h
    unfold chain_allocated at h
    unfold tree_walk lookup_chain
    by_cases hs : src = -1
    · rw [if_pos hs, if_pos hs, hs]
    · rw [if_neg hs, if_neg hs]
      rcases h with h | ⟨hg, h⟩
      · exact absurd h hs
      · rw [hg]
        exact ih _ h

theorem lookup_chain_neg_one (c : Config) (img : Image) (comps : List CString) :
    lookup_chain c img comps (-1) = -1 := by
  cases comps <;> simp [lookup_chain]

theorem lookup_chain_append (c : Config) (img : Image) (xs ys : List CString) :
    ∀ src, lookup_chain c img (xs ++ ys) src = lookup_chain c img ys (lookup_chain c img xs src) := by
  induction xs with
  | nil => intro src; rfl
  | cons x xs ih =>
    intro src
    simp only [List.cons_append, lookup_chain]
    split_ifs with h
    · rw [lookup_chain_neg_one]
    · exact ih _

/-- C21, for the paths that begin with `'/'`: `tree_lookup` of `"/"` is the
root, and for the path `"/c1/.../cn"` with `n ≥ 1` non-empty components it
returns, whenever it returns, the last of `x_0 = 0`,
`x_k = directory_lookup(inode x_(k-1), c_k)`; it does return when every inode
it visits is allocated, the result is `-1` as soon as a component is not an
entry of the current directory or the current inode is not a directory, and
from `-1` on no inode is fetched. -/
theorem tree_lookup_components (c : Config) (img : Image) (comps : List CString)
    (hne : comps ≠ []) (hc : ∀ x ∈ comps, x ≠ [] ∧ SLASH ∉ x) :
    tree_lookup c img (cstr "/") = some ROOT_INODE ∧
    (∀ r, tree_lookup c img (path_of comps) = some r →
      r = lookup_chain c img comps ROOT_INODE) ∧
    (chain_allocated c img comps ROOT_INODE →
      tree_lookup c img (path_of comps) = some (lookup_chain c img comps ROOT_INODE)) ∧
    (∀ pre name post, comps = pre ++ name :: post →
      directory_lookup c img (lookup_chain c img pre ROOT_INODE) name = -1 →
      lookup_chain c img comps ROOT_INODE = -1) ∧
    (∀ dd name, is_directory (img.inodes dd) = false → directory_lookup c img dd name = -1) ∧
    (∀ rest, tree_walk c img rest (-1) = some (-1)) := by
  cases comps with
  | nil => exact absurd rfl hne
  | cons comp rest =>
    have hp : tree_lookup c img (path_of (comp :: rest)) =
        tree_walk c img (comp :: rest) ROOT_INODE := by
      show tree_walk c img (s_explode (comp ++ path_of rest) SLASH) ROOT_INODE = _
      rw [s_explode_path_of comp rest hc]
    refine ⟨rfl, ?_, ?_, ?_, ?_, fun rest => tree_walk_neg_one c img rest⟩
    · intro r h
      rw [hp] at h
      exact tree_walk_eq_chain c img _ _ r h
    · intro h
      rw [hp]
      exact tree_walk_of_allocated c img _ _ h
    · intro pre name post e h
      rw [e, lookup_chain_append]
      unfold lookup_chain
      split_ifs with h1
      · rfl
      · rw [h, lookup_chain_neg_one]
    · intro dd name h
      unfold directory_lookup
      simp [h]

theorem tree_lookup_components_witness :
    [cstr "a"] ≠ [] ∧ (∀ x ∈ [cstr "a"], x ≠ [] ∧ SLASH ∉ x) ∧
    tree_lookup stdConfig image_a (cstr "/") = some ROOT_INODE ∧
    (∀ r, tree_lookup stdConfig image_a (path_of [cstr "a"]) = some r →
      r = lookup_chain stdConfig image_a [cstr "a"] ROOT_INODE) :=
  ⟨by decide, by decide,
   (tree_lookup_components stdConfig image_a [cstr "a"] (by decide) (by decide)).1,
   (tree_lookup_components stdConfig image_a [cstr "a"] (by decide) (by decide)).2.1⟩

/-- C21, the empty path: `tree_lookup` takes the components from `path + 1`,
which for the empty string lies behind its terminator; the call does not
return the root. -/
theorem tree_lookup_empty_path :
    tree_lookup stdConfig image_fresh (cstr "") = none ∧
    tree_lookup stdConfig image_fresh (cstr "") ≠ some ROOT_INODE := by
  constructor
  · rfl
  · intro h
    cases h

/-! ## The parent and the child name of a path -/

theorem child_length_append (t pre : List Nat) (hs : SLASH ∉ t) :
    child_length (t ++ SLASH :: pre) = some t.length := by
  induction t with
  | nil => simp [child_length]
  | cons ch t ih =>
    simp only [List.mem_cons, not_or] at hs
    have h1 : ¬ ch = SLASH := fun e => hs.1 e.symm
    simp [child_length, h1, ih hs.2]

theorem get_parent_eq (d child : CString) (hs : SLASH ∉ child) :
    get_parent (d ++ SLASH :: child) = some (d ++ [SLASH]) := by
  unfold get_parent
  have hr : (d ++ SLASH :: child).reverse = child.reverse ++ SLASH :: d.reverse := by simp
  rw [hr, child_length_append _ _ (by simpa using hs)]
  have e : d ++ SLASH :: child = (d ++ [SLASH]) ++ child := by simp
  simp only [List.length_reverse]
  rw [e]
  have hl : ((d ++ [SLASH]) ++ child).length - child.length = (d ++ [SLASH]).length := by
    simp only [List.length_append, List.length_cons, List.length_nil]
    omega
  rw [hl, List.take_left]

theorem s_explode_trailing (xs : CString) (y d : Nat) (hy : y ≠ d) :
    s_explode (xs ++ [y] ++ [d]) d = s_explode (xs ++ [y]) d := by
  induction xs with
  | nil => simp [s_explode, hy]
  | cons a xs ih =>
    have e1 : a :: xs ++ [y] ++ [d] = a :: (xs ++ [y] ++ [d]) := by simp
    have e2 : a :: xs ++ [y] = a :: (xs ++ [y]) := by simp
    rw [e1, e2]
    unfold s_explode
    rw [ih]

theorem find_entry_bounds (c : Config) (img : Image) (entry : Int) (name : CString) (n : Nat) :
    ∀ (j k : Int), find_entry c img entry name n j = some k → j ≤ k ∧ k < j + n := by
  induction n with
  | zero => intro j k h; simp [find_entry] at h
  | succ n ih =>
    intro j k h
    unfold find_entry at h
    split at h
    · cases h
      exact ⟨le_refl _, by push_cast; omega⟩
    · have := ih (j + 1) k h
      exact ⟨by omega, by push_cast; omega⟩

/-- The loop of `directory_delete` returns `-ENOENT` and changes nothing when
no entry has the name. -/
theorem directory_delete_from_none (c : Config) (img : Image) (dd : Int) (name : CString)
    (n : Nat) : ∀ (j : Int),
      find_entry c img (blocks_get_block c (img.inodes dd).block) name n j = none →
      directory_delete_from c img dd name n j = some (-ENOENT, img) := by
  induction n with
  | zero => intro j _; rfl
  | succ n ih =>
    intro j h
    unfold find_entry at h
    unfold directory_delete_from
    dsimp only
    split at h
    · cases h
    · rename_i hs
      rw [if_neg hs]
      exact ih (j + 1) h

/-- The loop of `directory_delete` stops at the first entry with the name and
runs the body of its `if` there. -/
theorem directory_delete_from_found (c : Config) (img : Image) (dd : Int) (name : CString)
    (i : Int) (res : Option (Int × Image)) (n : Nat) : ∀ (j : Int),
      find_entry c img (blocks_get_block c (img.inodes dd).block) name n j = some i →
      directory_delete_from c img dd name 1 i = res →
      directory_delete_from c img dd name n j = res := by
  induction n with
  | zero => intro j h; simp [find_entry] at h
  | succ n ih =>
    intro j h hres
    unfold find_entry at h
    split at h
    · rename_i hs
      cases h
      rw [← hres]
      unfold directory_delete_from
      dsimp only
      rw [if_pos hs, if_pos hs]
    · rename_i hs
      unfold directory_delete_from
      dsimp only
      rw [if_neg hs]
      exact ih (j + 1) h hres

theorem find_entry_match (c : Config) (img : Image) (entry : Int) (name : CString) (n : Nat) :
    ∀ (j k : Int), find_entry c img entry name n j = some k →
      strcmp_eq img (entry + k * c.SIZE_DIRENT) name = true := by
  induction n with
  | zero => intro j k h; simp [find_entry] at h
  | succ n ih =>
    intro j k h
    unfold find_entry at h
    split at h
    · rename_i hs
      cases h
      exact hs
    · exact ih (j + 1) k h

/-- What `decrement_references` does to an allocated inode: the count goes
down by one, and the inode and its block are released when it reaches 0. -/
theorem decrement_references_spec (img : Image) (inum : Int)
    (hg : get_inode img inum = some inum) :
    ∃ img1, decrement_references img inum = some img1 ∧
      img1.data = img.data ∧
      (img1.inodes inum).refs = (img.inodes inum).refs - 1 ∧
      (∀ k, (img1.inodes k).size = (img.inodes k).size ∧
        (img1.inodes k).mode = (img.inodes k).mode ∧
        (img1.inodes k).block = (img.inodes k).block) ∧
      (∀ k, k ≠ inum → img1.inodes k = img.inodes k) ∧
      (∀ k, k ≠ inum → img1.inode_bitmap k = img.inode_bitmap k) ∧
      (∀ b, b ≠ (img.inodes inum).block → img1.blocks_bitmap b = img.blocks_bitmap b) ∧
      ((img.inodes inum).refs - 1 = 0 →
        img1.inode_bitmap inum = false ∧ img1.blocks_bitmap (img.inodes inum).block = false) ∧
      ((img.inodes inum).refs - 1 ≠ 0 →
        img1.inode_bitmap = img.inode_bitmap ∧ img1.blocks_bitmap = img.blocks_bitmap) := by
  unfold decrement_references
  rw [hg]
  dsimp only
  have hinodes : ∀ k, ((img.set_inode inum
      { img.inodes inum with refs := (img.inodes inum).refs - 1 }).inodes k) =
      if k = inum then { img.inodes inum with refs := (img.inodes inum).refs - 1 }
      else img.inodes k := fun k => rfl
  by_cases hz : (img.inodes inum).refs - 1 = 0
  · have hz' : ((img.set_inode inum
        { img.inodes inum with refs := (img.inodes inum).refs - 1 }).inodes inum).refs = 0 := by
      simp [Image.set_inode, hz]
    rw [if_pos hz']
    unfold free_inode
    have hg' : get_inode (img.set_inode inum
        { img.inodes inum with refs := (img.inodes inum).refs - 1 }) inum = some inum := by
      unfold get_inode at hg ⊢
      exact hg
    rw [hg']
    refine ⟨_, rfl, rfl, ?_, ?_, ?_, ?_, ?_, ?_, ?_⟩
    · show (if inum = inum then _ else _ : inode_t).refs = _
      rw [if_pos rfl]
    · intro k
      show (if k = inum then _ else _ : inode_t).size = _ ∧
        (if k = inum then _ else _ : inode_t).mode = _ ∧
        (if k = inum then _ else _ : inode_t).block = _
      by_cases e : k = inum
      · subst e; simp
      · simp [e]
    · intro k hk
      show (if k = inum then _ else _ : inode_t) = _
      rw [if_neg hk]
    · intro k hk
      simp [inode_bitmap_put, free_block, Image.set_inode, hk]
    · intro b hb
      simp [inode_bitmap_put, free_block, Image.set_inode, hb]
    · intro _
      simp [inode_bitmap_put, free_block, Image.set_inode]
    · intro h; exact absurd hz h
  · have hz' : ¬ ((img.set_inode inum
        { img.inodes inum with refs := (img.inodes inum).refs - 1 }).inodes inum).refs = 0 := by
      simp [Image.set_inode, hz]
    rw [if_neg hz']
    refine ⟨_, rfl, rfl, ?_, ?_, ?_, ?_, ?_, ?_, ?_⟩
    · show (if inum = inum then _ else _ : inode_t).refs = _
      rw [if_pos rfl]
    · intro k
      show (if k = inum then _ else _ : inode_t).size = _ ∧
        (if k = inum then _ else _ : inode_t).mode = _ ∧
        (if k = inum then _ else _ : inode_t).block = _
      by_cases e : k = inum
      · subst e; simp
      · simp [e]
    · intro k hk
      show (if k = inum then _ else _ : inode_t) = _
      rw [if_neg hk]
    · intro k _; rfl
    · intro b _; rfl
    · intro h; exact absurd h hz
    · intro _; exact ⟨rfl, rfl⟩

theorem entry_fits (sd : Nat) (s i : Int) (hsd : 0 < sd) (h0 : 0 ≤ i)
    (hi : i < ((Int.tdiv s sd).toNat : Int)) : 0 ≤ s ∧ (i + 1) * sd ≤ s := by
  have hpos : 0 < Int.tdiv s sd := by omega
  have hs : 0 ≤ s := by
    by_contra hneg
    have h1 : 0 ≤ Int.tdiv (-s) sd := Int.tdiv_nonneg (by omega) (by omega)
    have h2 : Int.tdiv (-s) sd = -(Int.tdiv s sd) := Int.neg_tdiv s sd
    omega
  refine ⟨hs, ?_⟩
  rw [tdiv_of_nonneg s sd hs] at hi hpos
  have h1 : i + 1 ≤ s / sd := by omega
  have h2 : s / (sd : Int) * sd ≤ s := Int.ediv_mul_le s (by omega)
  have h3 : (i + 1) * (sd : Int) ≤ s / sd * sd :=
    Int.mul_le_mul_of_nonneg_right h1 (by omega)
  omega

theorem memcpy_inodes (img : Image) (dst : Int) (src : Nat → Nat) (n : Nat) :
    (memcpy img dst src n).inodes = img.inodes := rfl

theorem memcpy_inode_bitmap (img : Image) (dst : Int) (src : Nat → Nat) (n : Nat) :
    (memcpy img dst src n).inode_bitmap = img.inode_bitmap := rfl

theorem memcpy_blocks_bitmap (img : Image) (dst : Int) (src : Nat → Nat) (n : Nat) :
    (memcpy img dst src n).blocks_bitmap = img.blocks_bitmap := rfl

theorem data_blocks_ok_of_eq (c : Config) (img img' : Image)
    (h1 : img'.inode_bitmap = img.inode_bitmap) (h2 : img'.blocks_bitmap = img.blocks_bitmap)
    (h3 : ∀ i, (img'.inodes i).block = (img.inodes i).block)
    (h : data_blocks_ok c img) : data_blocks_ok c img' := by
  refine ⟨fun b hb0 hb => ?_, fun i hi => ?_⟩
  · rw [h2]; exact h.1 b hb0 hb
  · rw [h1] at hi
    rw [h3]; exact h.2 i hi

theorem data_blocks_ok_same (c : Config) (img img' : Image) (hs : same_allocation img img')
    (h : data_blocks_ok c img) : data_blocks_ok c img' :=
  data_blocks_ok_of_eq c img img' hs.1 hs.2.1 (fun i => (hs.2.2 i).1) h

theorem decrement_references_get (img img' : Image) (inum : Int)
    (h : decrement_references img inum = some img') : get_inode img inum = some inum := by
  unfold decrement_references at h
  split at h
  · cases h
  · rename_i node hg
    have e := ((get_inode_some_iff _ _ _).1 hg).2.2
    rw [hg, e]

theorem decrement_references_data (c : Config) (img img' : Image) (inum : Int)
    (h : data_blocks_ok c img) (hd : decrement_references img inum = some img') :
    data_blocks_ok c img' := by
  have hg := decrement_references_get img img' inum hd
  have halloc := ((get_inode_some_iff _ _ _).1 hg).2.1
  obtain ⟨img1, hdec, _, _, hflds, _, hib, hbb, hz, hnz⟩ := decrement_references_spec img inum hg
  rw [hd] at hdec
  cases hdec
  have hhigh := h.2 inum halloc
  refine ⟨fun b hb0 hb => ?_, fun i hi => ?_⟩
  · rw [hbb b (by omega)]
    exact h.1 b hb0 hb
  · rw [(hflds i).2.2]
    by_cases e : i = inum
    · subst e; exact hhigh
    · rw [hib i e] at hi
      exact h.2 i hi

theorem storage_invariant_kept (c : Config) : kept_by_steps (storage_invariant c) :=
  ⟨fun a b hs h => ⟨refs_blocks_ok_same a b hs h.1, data_blocks_ok_same c a b hs h.2⟩,
   fun a b i h hd => ⟨decrement_references_ok a b i h.1 hd, decrement_references_data c a b i h.2 hd⟩⟩

theorem alloc_inode_data (c : Config) (img : Image) (a : Int × Image)
    (hd : data_blocks_ok c img) (h : alloc_inode c img = some a) (ha : a.1 ≠ -1) :
    data_blocks_ok c a.2 := by
  obtain ⟨b, _, hb, e⟩ := alloc_inode_from_some c img _ 0 (le_refl _) a h ha
  obtain ⟨hb0, _, hbb, _⟩ := (first_clear_eq_some _ _ _ _).1 hb
  rw [e]
  have hbhigh : (c.INODE_BLOCK_BEGIN + c.NUM_INODE_BLOCKS : Int) ≤ b := by
    by_contra hlt
    have := hd.1 b hb0 (by omega)
    rw [hbb] at this
    exact absurd this (by simp)
  refine ⟨fun b' hb0' hb' => ?_, fun i hi => ?_⟩
  · rw [alloc_image_blocks_bitmap]
    split_ifs
    · rfl
    · exact hd.1 b' hb0' hb'
  · rw [alloc_image_inode_bitmap] at hi
    by_cases e1 : i = a.1
    · subst e1
      simpa [alloc_image_inodes] using hbhigh
    · rw [if_neg e1] at hi
      rw [alloc_image_inodes_other _ _ _ _ e1]
      exact hd.2 i hi

theorem init_child_data (c : Config) (img : Image) (x mode : Int) (h : data_blocks_ok c img) :
    data_blocks_ok c (init_child img x mode) := by
  refine data_blocks_ok_of_eq c img _ rfl rfl (fun i => ?_) h
  by_cases e : i = x
  · subst e; simp [init_child, Image.set_inode]
  · simp [init_child, Image.set_inode, e]

theorem storage_mknod_data (c : Config) (img : Image) (path : CString) (mode : Int)
    (r : Int × Image) (hd : data_blocks_ok c img)
    (h : storage_mknod c img path mode = some r) : data_blocks_ok c r.2 := by
  unfold storage_mknod at h
  dsimp only at h
  repeat' split at h
  all_goals try (cases h; done)
  all_goals try (cases h; exact hd)
  · rename_i _ a ha h1
    cases h
    rw [(alloc_inode_fail c img a ha h1).1]
    exact hd
  · rename_i _ a ha hne _ p hp _ node hg hm _ p1 hp1 _ p2 hp2
    cases h
    have h1 := alloc_inode_data c img a hd ha hne
    have h2 := init_child_data c p.2 node mode
      (data_blocks_ok_same c _ _ (directory_put_same _ _ _ _ _ _ hp) h1)
    have h4 := data_blocks_ok_same c _ _ (directory_put_same _ _ _ _ _ _ hp2)
      (data_blocks_ok_same c _ _ (directory_put_same _ _ _ _ _ _ hp1) h2)
    exact h4
  · rename_i _ a ha hne _ p hp _ node hg hm
    cases h
    have h1 := alloc_inode_data c img a hd ha hne
    exact init_child_data c p.2 node mode
      (data_blocks_ok_same c _ _ (directory_put_same _ _ _ _ _ _ hp) h1)

theorem alloc_block_marks (c : Config) (img : Image) :
    (∀ b, img.blocks_bitmap b = true → (alloc_block c img).2.blocks_bitmap b = true) ∧
    ((alloc_block c img).1 ≠ -1 →
      (alloc_block c img).2.blocks_bitmap (alloc_block c img).1 = true) ∧
    (alloc_block c img).2.inode_bitmap = img.inode_bitmap := by
  unfold alloc_block
  cases hf : first_clear img.blocks_bitmap c.BLOCK_COUNT 0 with
  | none => exact ⟨fun b hb => hb, fun h => absurd rfl h, rfl⟩
  | some k =>
    refine ⟨fun b hb => ?_, fun _ => ?_, rfl⟩
    · show (if b = k then true else img.blocks_bitmap b) = true
      split_ifs
      · rfl
      · exact hb
    · show (if k = k then true else img.blocks_bitmap k) = true
      rw [if_pos rfl]

theorem storage_init_alloc_marks (c : Config) (n : Nat) :
    ∀ (img img' : Image) (i : Int), 0 ≤ i → storage_init_alloc c img n i = some img' →
      (∀ b, img.blocks_bitmap b = true → img'.blocks_bitmap b = true) ∧
      ∀ t : Int, i ≤ t → t < i + n → img'.blocks_bitmap (t + c.INODE_BLOCK_BEGIN) = true := by
  induction n with
  | zero =>
    intro img img' i _ h
    unfold storage_init_alloc at h
    cases h
    exact ⟨fun b hb => hb, fun t h1 h2 => by simp at h2; omega⟩
  | succ n ih =>
    intro img img' i hi h
    unfold storage_init_alloc at h
    dsimp only at h
    split at h
    · rename_i he
      obtain ⟨h1, h2⟩ := ih _ _ (i + 1) (by omega) h
      obtain ⟨m1, m2, _⟩ := alloc_block_marks c img
      refine ⟨fun b hb => h1 b (m1 b hb), fun t ht1 ht2 => ?_⟩
      by_cases e : t = i
      · subst e
        rw [he]
        exact h1 _ (m2 (by rw [← he]; omega))
      · exact h2 t (by omega) (by push_cast at ht2; omega)
    · cases h

theorem directory_init_data (c : Config) (img img' : Image)
    (hno : ∀ i, img.inode_bitmap i = false)
    (hlow : ∀ b : Int, 0 ≤ b → b < c.INODE_BLOCK_BEGIN + c.NUM_INODE_BLOCKS →
      img.blocks_bitmap b = true)
    (h : directory_init c img = some img') : data_blocks_ok c img' := by
  unfold directory_init at h
  split at h
  · have hg : get_inode (inode_bitmap_put img ROOT_INODE true) ROOT_INODE = some ROOT_INODE :=
      get_inode_eq_some _ _ (by decide) (by simp [inode_bitmap_put])
    dsimp only at h
    rw [hg] at h
    dsimp only at h
    split at h
    · rename_i hblock
      split at h
      · cases h
      · rename_i r1 h1
        split at h
        · cases h
        · rename_i r2 h2
          cases h
          refine data_blocks_ok_same c _ _ (directory_put_same _ _ _ _ _ _ h2)
            (data_blocks_ok_same c _ _ (directory_put_same _ _ _ _ _ _ h1) ?_)
          cases hf : first_clear img.blocks_bitmap c.BLOCK_COUNT 0 with
          | none =>
            exfalso
            apply hblock
            simp [alloc_block, hf, Image.set_inode, inode_bitmap_put]
          | some b =>
            obtain ⟨hb0, _, hbb, _⟩ := (first_clear_eq_some _ _ _ _).1 hf
            have hbhigh : (c.INODE_BLOCK_BEGIN + c.NUM_INODE_BLOCKS : Int) ≤ b := by
              by_contra hlt
              have := hlow b hb0 (by omega)
              rw [hbb] at this
              exact absurd this (by simp)
            refine ⟨fun b' hb0' hb' => ?_, fun i hi => ?_⟩
            · have := hlow b' hb0' hb'
              simp [Image.set_inode, alloc_block, hf, inode_bitmap_put, this]
            · have hi0 : i = ROOT_INODE := by
                by_contra hne
                have : img.inode_bitmap i = true := by
                  simpa [Image.set_inode, alloc_block, hf, inode_bitmap_put, hne] using hi
                rw [hno i] at this
                exact absurd this (by simp)
              subst hi0
              simpa [Image.set_inode, alloc_block, hf, inode_bitmap_put] using hbhigh
    · cases h
  · cases h

theorem storage_init_data (c : Config) (img0 : Image) (hl : layout_ok c)
    (h : storage_init c blocks_init = some img0) : data_blocks_ok c img0 := by
  unfold storage_init at h
  have h1 : blocks_init.blocks_bitmap 1 = false := by decide
  rw [if_pos h1] at h
  split at h
  · cases h
  · rename_i img1 ha
    obtain ⟨m1, m2⟩ := storage_init_alloc_marks c _ _ _ 0 (le_refl _) ha
    refine directory_init_data c img1 img0 (fun i => ?_) (fun b hb0 hb => ?_) h
    · rw [storage_init_alloc_inodes c _ _ _ _ ha]
      rfl
    · have hb1 : (c.INODE_BLOCK_BEGIN : Int) = 1 := by rw [hl.1]; rfl
      by_cases e : b = 0
      · subst e
        exact m1 0 (by decide)
      · have := m2 (b - 1) (by omega) (by omega)
        rw [hb1] at this
        simpa using this

/-! ## A copy that begins in a data block leaves the bitmaps and the inode table -/

theorem copied_int_behind (dst : Int) (src : Nat → Nat) (n : Nat) (p v : Int)
    (h : p + 4 ≤ dst) : copied_int dst src n p v = v := by
  unfold copied_int
  rw [if_neg (by omega)]

theorem copied_bit_behind (dst : Int) (src : Nat → Nat) (n : Nat) (p j : Int) (b : Bool)
    (h : p + j / 8 < dst) : copied_bit dst src n p j b = b := by
  unfold copied_bit
  rw [if_neg (by omega)]

theorem inode_address_bound (c : Config) (hl : layout_ok c) (i : Int) (h0 : 0 ≤ i)
    (hi : i < c.NUM_INODE_BLOCKS * c.INODES_PER_BLOCK) :
    inode_address c i + 16 ≤
      (c.INODE_BLOCK_BEGIN + c.NUM_INODE_BLOCKS : Int) * c.BLOCK_SIZE := by
  obtain ⟨hb, hrec, _⟩ := hl
  have hipb : (0 : Int) < c.INODES_PER_BLOCK := by
    by_contra hz
    have : (c.INODES_PER_BLOCK : Int) = 0 := by omega
    rw [this] at hi
    simp at hi
    omega
  unfold inode_address blocks_get_block
  rw [Int.tdiv_eq_ediv h0 (by omega), Int.tmod_eq_emod h0 (by omega)]
  have hq : i / (c.INODES_PER_BLOCK : Int) < c.NUM_INODE_BLOCKS :=
    Int.ediv_lt_of_lt_mul hipb hi
  have hq0 : 0 ≤ i / (c.INODES_PER_BLOCK : Int) := Int.ediv_nonneg h0 (by omega)
  have hr : i % (c.INODES_PER_BLOCK : Int) < c.INODES_PER_BLOCK := Int.emod_lt_of_pos i hipb
  have hr0 : 0 ≤ i % (c.INODES_PER_BLOCK : Int) := Int.emod_nonneg i (by omega)
  have hrec' : (c.INODES_PER_BLOCK : Int) * 16 ≤ c.BLOCK_SIZE := by exact_mod_cast hrec
  have hmul : ((c.INODE_BLOCK_BEGIN : Int) + i / (c.INODES_PER_BLOCK : Int) + 1) * c.BLOCK_SIZE ≤
      ((c.INODE_BLOCK_BEGIN : Int) + c.NUM_INODE_BLOCKS) * c.BLOCK_SIZE :=
    Int.mul_le_mul_of_nonneg_right (by omega) (by omega)
  nlinarith

/-- A copy whose destination is a data block changes no bitmap and no inode
record. -/
theorem memcpy_mapping_same (c : Config) (hl : layout_ok c) (img : Image) (dst : Int)
    (src : Nat → Nat) (n : Nat)
    (hdst : (c.INODE_BLOCK_BEGIN + c.NUM_INODE_BLOCKS : Int) * c.BLOCK_SIZE ≤ dst) :
    same_allocation img (memcpy_mapping c img dst src n) := by
  have hb : (c.INODE_BLOCK_BEGIN : Int) = 1 := by rw [hl.1]; rfl
  have hbs : (c.BLOCK_SIZE : Int) ≤ dst := by
    have : (1 : Int) * c.BLOCK_SIZE ≤ (c.INODE_BLOCK_BEGIN + c.NUM_INODE_BLOCKS : Int) * c.BLOCK_SIZE :=
      Int.mul_le_mul_of_nonneg_right (by omega) (by omega)
    omega
  have hmap : 2 * (((c.BLOCK_COUNT + 7) / 8 : Nat) : Int) ≤ c.BLOCK_SIZE := by
    exact_mod_cast hl.2.2
  have hbit : ∀ j : Int, 0 ≤ j → j < c.BLOCK_COUNT → j / 8 < (((c.BLOCK_COUNT + 7) / 8 : Nat) : Int) := by
    intro j h0 h1
    push_cast
    omega
  have hrec : ∀ i, (memcpy_mapping c img dst src n).inodes i = img.inodes i := by
    intro i
    show (if 0 ≤ i ∧ i < c.NUM_INODE_BLOCKS * c.INODES_PER_BLOCK then _ else img.inodes i) = _
    split_ifs with hi
    · have := inode_address_bound c hl i hi.1 hi.2
      rw [copied_int_behind _ _ _ _ _ (by omega), copied_int_behind _ _ _ _ _ (by omega),
        copied_int_behind _ _ _ _ _ (by omega), copied_int_behind _ _ _ _ _ (by omega)]
    · rfl
  refine ⟨?_, ?_, fun i => ?_⟩
  · funext j
    show (if 0 ≤ j ∧ j < c.BLOCK_COUNT then _ else img.inode_bitmap j) = _
    split_ifs with hj
    · have := hbit j hj.1 hj.2
      exact copied_bit_behind _ _ _ _ _ _ (by unfold inode_bitmap_address; omega)
    · rfl
  · funext j
    show (if 0 ≤ j ∧ j < c.BLOCK_COUNT then _ else img.blocks_bitmap j) = _
    split_ifs with hj
    · have := hbit j hj.1 hj.2
      exact copied_bit_behind _ _ _ _ _ _ (by omega)
    · rfl
  · rw [hrec i]
    exact ⟨rfl, le_refl _⟩

theorem storage_write_keeps (c : Config) (hl : layout_ok c) (img : Image) (path : CString)
    (buf : Nat → Nat) (size : Nat) (offset : Int) (hoff : 0 ≤ offset) (r : Int × Image)
    (hinv : storage_invariant c img)
    (h : storage_write c img path buf size offset = some r) : storage_invariant c r.2 := by
  unfold storage_write at h
  try dsimp only at h
  repeat' split at h
  all_goals first
    | (cases h; done)
    | (cases h; exact hinv)
    | (cases h; rename_i _ node hg _ _ _ _ hp
       have e := ((get_inode_some_iff _ _ _).1 hg).2.2
       subst e
       have hhigh := hinv.2.2 _ ((get_inode_some_iff _ _ _).1 hg).2.1
       have hmul : (c.INODE_BLOCK_BEGIN + c.NUM_INODE_BLOCKS : Int) * c.BLOCK_SIZE ≤
           (img.inodes node).block * c.BLOCK_SIZE :=
         Int.mul_le_mul_of_nonneg_right hhigh (by omega)
       exact (storage_invariant_kept c).1 _ _
         (same_allocation_trans
           (memcpy_mapping_same c hl img _ buf size (by unfold blocks_get_block; omega))
           (grow_inode_same _ _ _ _ _ hp))
         hinv)

/-- Every request that runs to completion, other than a `write` at a negative
offset, keeps the reference counts positive and the blocks owned. -/
theorem serve_keeps (c : Config) (hl : layout_ok c) (img img' : Image) (q : request)
    (hq : write_in_block q = true) (hinv : storage_invariant c img)
    (h : serve c img q = some img') : storage_invariant c img' := by
  have hk := storage_invariant_kept c
  cases q with
  | mknod path mode =>
    obtain ⟨r, hr, e⟩ := Option.map_eq_some'.1 h
    subst e
    exact ⟨storage_mknod_ok c img path mode r hinv.1 hr,
      storage_mknod_data c img path mode r hinv.2 hr⟩
  | unlink path =>
    obtain ⟨r, hr, e⟩ := Option.map_eq_some'.1 h
    subst e; exact storage_unlink_keeps _ hk c img path r hinv hr
  | link from_path to_path =>
    obtain ⟨r, hr, e⟩ := Option.map_eq_some'.1 h
    subst e; exact storage_link_keeps _ hk c img from_path to_path r hinv hr
  | rename rv from_path to_path =>
    obtain ⟨r, hr, e⟩ := Option.map_eq_some'.1 h
    subst e; exact storage_rename_keeps _ hk c img rv from_path to_path r hinv hr
  | rmdir same_pointer path =>
    obtain ⟨r, hr, e⟩ := Option.map_eq_some'.1 h
    subst e; exact storage_rmdir_keeps _ hk c img same_pointer path r hinv hr
  | write path buf size offset =>
    obtain ⟨r, hr, e⟩ := Option.map_eq_some'.1 h
    subst e
    have hoff : 0 ≤ offset := by simpa [write_in_block] using hq
    exact storage_write_keeps c hl img path buf size offset hoff r hinv hr
  | truncate path size =>
    obtain ⟨r, hr, e⟩ := Option.map_eq_some'.1 h
    subst e; exact storage_truncate_keeps _ hk c img path size r hinv hr
  | read path buf size offset =>
    obtain ⟨r, hr, e⟩ := Option.map_eq_some'.1 h
    subst e
    rw [storage_read_image c img path buf size offset r hr]; exact hinv
  | stat uid path st =>
    obtain ⟨r, hr, e⟩ := Option.map_eq_some'.1 h
    subst e
    rw [storage_stat_image c img uid path st r hr]; exact hinv
  | list path =>
    obtain ⟨r, hr, e⟩ := Option.map_eq_some'.1 h
    subst e; exact hinv

theorem serve_all_keeps (c : Config) (hl : layout_ok c) (requests : List request) :
    ∀ (img img' : Image), requests.all write_in_block = true → storage_invariant c img →
      serve_all c img requests = some img' → storage_invariant c img' := by
  induction requests with
  | nil =>
    intro img img' _ hinv h
    unfold serve_all at h
    cases h; exact hinv
  | cons q rest ih =>
    intro img img' hq hinv h
    rw [List.all_cons, Bool.and_eq_true] at hq
    unfold serve_all at h
    split at h
    · cases h
    · rename_i img1 h1
      exact ih img1 img' hq.2 (serve_keeps c hl img img1 q hq.1 hinv h1) h

/-- In every image that a finite sequence of storage operations without a
`write` at a negative offset, each run to completion, reaches from a freshly
initialised image, every inode whose inode-bitmap bit is set has `refs > 0`,
its `block` is an index whose block-bitmap bit is set, and no other allocated
inode has the same block. -/
theorem refs_and_blocks_kept_in_block (c : Config) (hl : layout_ok c) (img0 img : Image)
    (requests : List request) (h0 : storage_init c blocks_init = some img0)
    (hq : requests.all write_in_block = true)
    (h1 : serve_all c img0 requests = some img) :
    ∀ i, img.inode_bitmap i = true →
      (img.inodes i).refs > 0 ∧ img.blocks_bitmap (img.inodes i).block = true ∧
      ∀ j, j ≠ i → img.inode_bitmap j = true → (img.inodes j).block ≠ (img.inodes i).block :=
  (serve_all_keeps c hl requests img0 img hq
    ⟨storage_init_ok c img0 h0, storage_init_data c img0 hl h0⟩ h1).1

theorem refs_and_blocks_kept_in_block_witness :
    layout_ok tinyConfig ∧ storage_init tinyConfig blocks_init = some tiny_fresh ∧
    [request.mknod (cstr "/d") 16877].all write_in_block = true ∧
    serve_all tinyConfig tiny_fresh [request.mknod (cstr "/d") 16877] = some tiny_d ∧
    ∀ i, tiny_d.inode_bitmap i = true →
      (tiny_d.inodes i).refs > 0 ∧ tiny_d.blocks_bitmap (tiny_d.inodes i).block = true ∧
      ∀ j, j ≠ i → tiny_d.inode_bitmap j = true →
        (tiny_d.inodes j).block ≠ (tiny_d.inodes i).block :=
  ⟨by decide, rfl, by decide, rfl,
   refs_and_blocks_kept_in_block tinyConfig (by decide) tiny_fresh tiny_d
     [request.mknod (cstr "/d") 16877] rfl (by decide) rfl⟩

/-- C18: the sequence `mknod("/a", 0100644)`, `write("/a", buf, 8192, -8192)`
with a buffer of NUL bytes runs to completion on a freshly initialised image:
the `write` returns 8192.  Its copy begins 8192 bytes in front of the block
of the file (block 3), at the inode table (block 1), and overwrites the inode
records.  Afterwards the inodes 0 and 1 are still marked allocated, inode 0
has `refs = 0`, its `block` 0 is not the block it owned, and both inodes have
the same `block`. -/
theorem write_before_block_overwrites_inode_table :
    reachable stdConfig image_overwritten ∧
    (storage_write stdConfig image_a (cstr "/a") (fun _ => 0) 8192 (-8192)).map Prod.fst
      = some 8192 ∧
    image_a.inode_bitmap 0 = true ∧ (image_a.inodes 0).refs = 3 ∧
    (image_a.inodes 0).block = 2 ∧ (image_a.inodes 1).block = 3 ∧
    image_overwritten.inode_bitmap 0 = true ∧ image_overwritten.inode_bitmap 1 = true ∧
    (image_overwritten.inodes 0).refs = 0 ∧ (image_overwritten.inodes 0).block = 0 ∧
    (image_overwritten.inodes 1).block = (image_overwritten.inodes 0).block := by
  have hrun : (serve_all stdConfig image_fresh requests_overwrite).isSome = true := by decide
  obtain ⟨img, himg⟩ := Option.isSome_iff_exists.1 hrun
  have himage : image_overwritten = img := by
    unfold image_overwritten
    rw [himg]
    rfl
  refine ⟨⟨image_fresh, requests_overwrite, rfl, by rw [himage]; exact himg⟩,
    ?_, ?_, ?_, ?_, ?_, ?_, ?_, ?_, ?_, ?_⟩ <;> decide

/-! ## Bytes: `memcpy`, `strcpy`, `strcmp`, stored integers -/

theorem memcpy_data (img : Image) (dst : Int) (src : Nat → Nat) (n : Nat) (a : Int) :
    (memcpy img dst src n).data a =
      if dst ≤ a ∧ a < dst + n then src (a - dst).toNat else img.data a := rfl

theorem memcpy_data_other (img : Image) (dst : Int) (src : Nat → Nat) (n : Nat) (a : Int)
    (h : a < dst ∨ dst + n ≤ a) : (memcpy img dst src n).data a = img.data a := by
  rw [memcpy_data]
  split_ifs with hc
  · omega
  · rfl

theorem memcpy_data_inside (img : Image) (dst : Int) (src : Nat → Nat) (n k : Nat)
    (h : k < n) : (memcpy img dst src n).data (dst + k) = src k := by
  rw [memcpy_data]
  have : (dst + (k : Int) - dst).toNat = k := by omega
  split_ifs with hc
  · rw [this]
  · omega

theorem store_int_inodes (img : Image) (p v : Int) : (store_int img p v).inodes = img.inodes := rfl

theorem store_int_inode_bitmap (img : Image) (p v : Int) :
    (store_int img p v).inode_bitmap = img.inode_bitmap := rfl

theorem store_int_blocks_bitmap (img : Image) (p v : Int) :
    (store_int img p v).blocks_bitmap = img.blocks_bitmap := rfl

theorem store_int_data_other (img : Image) (p v : Int) (a : Int) (h : a < p ∨ p + 4 ≤ a) :
    (store_int img p v).data a = img.data a :=
  memcpy_data_other img p _ 4 a (by omega)

theorem set_inode_data (img : Image) (node : Int) (n : inode_t) :
    (img.set_inode node n).data = img.data := rfl

theorem set_inode_inode_bitmap (img : Image) (node : Int) (n : inode_t) :
    (img.set_inode node n).inode_bitmap = img.inode_bitmap := rfl

theorem set_inode_blocks_bitmap (img : Image) (node : Int) (n : inode_t) :
    (img.set_inode node n).blocks_bitmap = img.blocks_bitmap := rfl

theorem set_inode_inodes (img : Image) (node : Int) (n : inode_t) (j : Int) :
    (img.set_inode node n).inodes j = if j = node then n else img.inodes j := rfl

theorem set_inode_inodes_same (img : Image) (node : Int) (n : inode_t) :
    (img.set_inode node n).inodes node = n := by simp [set_inode_inodes]

theorem set_inode_inodes_other (img : Image) (node : Int) (n : inode_t) (j : Int)
    (h : j ≠ node) : (img.set_inode node n).inodes j = img.inodes j := by
  simp [set_inode_inodes, h]

theorem int_byte_sum (v : Int) :
    (int_byte v 0 : Int) + 256 * (int_byte v 1 : Int) + 65536 * (int_byte v 2 : Int)
      + 16777216 * (int_byte v 3 : Int) = v % 4294967296 := by
  unfold int_byte
  norm_num
  omega

/-- An `int` stored at an address is read back unchanged. -/
theorem load_store_int (img : Image) (p v : Int) (h1 : -2147483648 ≤ v)
    (h2 : v < 2147483648) : load_int (store_int img p v) p = v := by
  unfold load_int store_int
  have e0 := memcpy_data_inside img p (int_byte v) 4 0 (by omega)
  have e1 := memcpy_data_inside img p (int_byte v) 4 1 (by omega)
  have e2 := memcpy_data_inside img p (int_byte v) 4 2 (by omega)
  have e3 := memcpy_data_inside img p (int_byte v) 4 3 (by omega)
  simp only [Nat.cast_zero, add_zero, Nat.cast_one, Nat.cast_ofNat] at e0 e1 e2 e3
  rw [e0, e1, e2, e3, int_byte_sum]
  unfold to_int
  omega

/-- `load_int` depends on the four bytes it reads. -/
theorem load_int_congr (img img' : Image) (p p' : Int)
    (h : ∀ j : Int, 0 ≤ j → j < 4 → img'.data (p' + j) = img.data (p + j)) :
    load_int img' p' = load_int img p := by
  unfold load_int
  have e0 := h 0 (by omega) (by omega)
  have e1 := h 1 (by omega) (by omega)
  have e2 := h 2 (by omega) (by omega)
  have e3 := h 3 (by omega) (by omega)
  simp only [add_zero] at e0
  rw [e0, e1, e2, e3]

theorem getD_append_nul (name : CString) (j : Nat) :
    (name ++ [0]).getD j 0 = name.getD j 0 := by
  by_cases h : j < name.length
  · simp [List.getD_eq_getElem?_getD, List.getElem?_append_left h]
  · have h' : name.length ≤ j := by omega
    simp [List.getD_eq_getElem?_getD, List.getElem?_append_right h', List.getElem?_eq_none h']

theorem strcmp_eq_iff (img : Image) (p : Int) (name : CString) :
    strcmp_eq img p name = true ↔
      ∀ j : Nat, j ≤ name.length → img.data (p + j) = name.getD j 0 := by
  unfold strcmp_eq
  simp only [List.all_eq_true, List.mem_range, decide_eq_true_eq, getD_append_nul]
  constructor
  · intro h j hj; exact h j (by omega)
  · intro h j hj; exact h j (by omega)

theorem getD_ne_zero (name : CString) (hok : cstring_ok name) (j : Nat) (hj : j < name.length) :
    name.getD j 0 ≠ 0 := by
  rw [List.getD_eq_getElem _ _ hj]
  exact hok _ (List.getElem_mem hj)

/-- `strcmp` reads no further than the first NUL: on a name field that holds
a NUL, its outcome depends on the bytes of the name field only. -/
theorem strcmp_eq_congr (c : Config) (img img' : Image) (p p' : Int)
    (name : CString) (hok : cstring_ok name)
    (hterm : ∃ j, j < c.DIR_NAME_LENGTH ∧ img.data (p + j) = 0)
    (h : ∀ j : Nat, j < c.DIR_NAME_LENGTH → img'.data (p' + j) = img.data (p + j)) :
    strcmp_eq img' p' name = strcmp_eq img p name := by
  obtain ⟨z, hz, hz0⟩ := hterm
  rw [Bool.eq_iff_iff, strcmp_eq_iff, strcmp_eq_iff]
  by_cases hlen : name.length < c.DIR_NAME_LENGTH
  · constructor
    · intro hh j hj; rw [← h j (by omega)]; exact hh j hj
    · intro hh j hj; rw [h j (by omega)]; exact hh j hj
  · have hzl : z < name.length := by omega
    have hne := getD_ne_zero name hok z hzl
    constructor
    · intro hh
      have := hh z (by omega)
      rw [h z hz, hz0] at this
      exact absurd this.symm hne
    · intro hh
      have := hh z (by omega)
      rw [hz0] at this
      exact absurd this.symm hne

/-- Two C strings that both compare equal to the same bytes are the same. -/
theorem strcmp_eq_unique (img : Image) (p : Int) (n1 n2 : CString)
    (h1 : cstring_ok n1) (h2 : cstring_ok n2)
    (e1 : strcmp_eq img p n1 = true) (e2 : strcmp_eq img p n2 = true) : n1 = n2 := by
  rw [strcmp_eq_iff] at e1 e2
  have hlen : n1.length = n2.length := by
    rcases Nat.lt_trichotomy n1.length n2.length with h | h | h
    · have a := e1 n1.length (le_refl _)
      have b := e2 n1.length (by omega)
      rw [a] at b
      have hz : n1.getD n1.length 0 = 0 := by simp [List.getD_eq_getElem?_getD]
      rw [hz] at b
      exact absurd b.symm (getD_ne_zero n2 h2 _ h)
    · exact h
    · have a := e2 n2.length (le_refl _)
      have b := e1 n2.length (by omega)
      rw [a] at b
      have hz : n2.getD n2.length 0 = 0 := by simp [List.getD_eq_getElem?_getD]
      rw [hz] at b
      exact absurd b.symm (getD_ne_zero n1 h1 _ h)
  apply List.ext_getElem hlen
  intro j hj1 hj2
  have a := e1 j (by omega)
  have b := e2 j (by omega)
  rw [a, List.getD_eq_getElem _ _ hj1, List.getD_eq_getElem _ _ hj2] at b
  exact b

/-- After `strcpy(dst, name)` the bytes at `dst` compare equal to `name`. -/
theorem strcmp_eq_after_strcpy (img : Image) (p : Int) (name : CString) :
    strcmp_eq (memcpy img p (strcpy_src name) (name.length + 1)) p name = true := by
  rw [strcmp_eq_iff]
  intro j hj
  rw [memcpy_data_inside _ _ _ _ _ (by omega)]
  unfold strcpy_src
  rw [getD_append_nul]

/-- `strcmp` depends on the bytes it reads. -/
theorem strcmp_eq_same (img img' : Image) (p : Int) (name : CString)
    (h : ∀ j : Nat, j ≤ name.length → img'.data (p + j) = img.data (p + j)) :
    strcmp_eq img' p name = strcmp_eq img p name := by
  rw [Bool.eq_iff_iff, strcmp_eq_iff, strcmp_eq_iff]
  constructor
  · intro hh j hj; rw [← h j hj]; exact hh j hj
  · intro hh j hj; rw [h j hj]; exact hh j hj

/-! ## `directory_put` -/

theorem put_size_aux (img : Image) (inum dd : Int) (n : inode_t)
    (h : n.size = (img.inodes inum).size) :
    ((img.set_inode inum n).inodes dd).size = (img.inodes dd).size := by
  rw [set_inode_inodes]
  split_ifs with e
  · subst e; exact h
  · rfl

/-- `directory_put` with room in the directory and an allocated target
inode: it stores the entry and returns 0. -/
theorem directory_put_eq (c : Config) (img : Image) (dd : Int) (name : CString) (inum : Int)
    (hroom : (img.inodes dd).size + c.SIZE_DIRENT ≤ c.BLOCK_SIZE)
    (h0 : 0 ≤ inum) (h1 : inum < 2147483648) (ha : img.inode_bitmap inum = true) :
    directory_put c img dd name inum = some (0, put_image c img dd name inum) := by
  have hn : ¬ ((img.inodes dd).size + c.SIZE_DIRENT > c.BLOCK_SIZE) := by omega
  unfold directory_put
  rw [if_neg hn]
  dsimp only
  rw [load_store_int _ _ _ (by omega) h1]
  rw [get_inode_eq_some _ inum h0 (by exact ha)]
  dsimp only
  have hsz : (((store_int (memcpy img (blocks_get_block c (img.inodes dd).block +
      (img.inodes dd).size) (strcpy_src name) (name.length + 1))
      (blocks_get_block c (img.inodes dd).block + (img.inodes dd).size + INUM_OFFSET c)
      inum).set_inode inum
      { (store_int (memcpy img (blocks_get_block c (img.inodes dd).block +
          (img.inodes dd).size) (strcpy_src name) (name.length + 1))
          (blocks_get_block c (img.inodes dd).block + (img.inodes dd).size + INUM_OFFSET c)
          inum).inodes inum with
        refs := ((store_int (memcpy img (blocks_get_block c (img.inodes dd).block +
          (img.inodes dd).size) (strcpy_src name) (name.length + 1))
          (blocks_get_block c (img.inodes dd).block + (img.inodes dd).size + INUM_OFFSET c)
          inum).inodes inum).refs + 1 }).inodes dd).size = (img.inodes dd).size :=
    put_size_aux _ inum dd _ rfl
  unfold grow_inode
  rw [if_pos (by rw [hsz]; omega), hsz]
  rfl

theorem put_image_inode_bitmap (c : Config) (img : Image) (dd : Int) (name : CString)
    (inum : Int) : (put_image c img dd name inum).inode_bitmap = img.inode_bitmap := rfl

theorem put_image_blocks_bitmap (c : Config) (img : Image) (dd : Int) (name : CString)
    (inum : Int) : (put_image c img dd name inum).blocks_bitmap = img.blocks_bitmap := rfl

theorem put_image_inodes (c : Config) (img : Image) (dd : Int) (name : CString)
    (inum : Int) (j : Int) :
    (put_image c img dd name inum).inodes j =
      if j = dd then
        { (if dd = inum then { img.inodes inum with refs := (img.inodes inum).refs + 1 }
            else img.inodes dd) with size := (img.inodes dd).size + c.SIZE_DIRENT }
      else if j = inum then { img.inodes inum with refs := (img.inodes inum).refs + 1 }
      else img.inodes j := by
  unfold put_image set_size add_refs
  simp only [set_inode_inodes, store_int_inodes, memcpy_inodes]

theorem put_image_block (c : Config) (img : Image) (dd : Int) (name : CString)
    (inum : Int) (j : Int) :
    ((put_image c img dd name inum).inodes j).block = (img.inodes j).block := by
  rw [put_image_inodes]
  by_cases h1 : j = dd
  · subst h1
    by_cases h2 : j = inum
    · subst h2; simp
    · simp [h2]
  · by_cases h2 : j = inum
    · subst h2; simp [h1]
    · simp [h1, h2]

theorem put_image_mode (c : Config) (img : Image) (dd : Int) (name : CString)
    (inum : Int) (j : Int) :
    ((put_image c img dd name inum).inodes j).mode = (img.inodes j).mode := by
  rw [put_image_inodes]
  by_cases h1 : j = dd
  · subst h1
    by_cases h2 : j = inum
    · subst h2; simp
    · simp [h2]
  · by_cases h2 : j = inum
    · subst h2; simp [h1]
    · simp [h1, h2]

theorem put_image_size (c : Config) (img : Image) (dd : Int) (name : CString)
    (inum : Int) (j : Int) :
    ((put_image c img dd name inum).inodes j).size =
      if j = dd then (img.inodes dd).size + c.SIZE_DIRENT else (img.inodes j).size := by
  rw [put_image_inodes]
  by_cases h1 : j = dd
  · subst h1; simp
  · by_cases h2 : j = inum
    · subst h2; simp [h1]
    · simp [h1, h2]

theorem put_image_refs (c : Config) (img : Image) (dd : Int) (name : CString)
    (inum : Int) (j : Int) :
    ((put_image c img dd name inum).inodes j).refs =
      if j = inum then (img.inodes j).refs + 1 else (img.inodes j).refs := by
  rw [put_image_inodes]
  by_cases h1 : j = dd
  · subst h1
    by_cases h2 : j = inum
    · subst h2; simp
    · simp [h2]
  · by_cases h2 : j = inum
    · subst h2; simp [h1]
    · simp [h1, h2]

theorem put_image_data (c : Config) (img : Image) (dd : Int) (name : CString)
    (inum : Int) (a : Int) :
    (put_image c img dd name inum).data a =
      if new_entry c img dd + INUM_OFFSET c ≤ a ∧ a < new_entry c img dd + INUM_OFFSET c + 4 then
        int_byte inum (a - (new_entry c img dd + INUM_OFFSET c)).toNat
      else if new_entry c img dd ≤ a ∧ a < new_entry c img dd + ((name.length + 1 : Nat) : Int) then
        strcpy_src name (a - new_entry c img dd).toNat
      else img.data a := rfl

/-- Outside the name and the `inum` it stores, `directory_put` leaves the
bytes as they are. -/
theorem put_image_data_other (c : Config) (img : Image) (dd : Int) (name : CString)
    (inum : Int) (a : Int)
    (h1 : a < new_entry c img dd ∨ new_entry c img dd + (name.length + 1 : Nat) ≤ a)
    (h2 : a < new_entry c img dd + INUM_OFFSET c ∨ new_entry c img dd + INUM_OFFSET c + 4 ≤ a) :
    (put_image c img dd name inum).data a = img.data a := by
  rw [put_image_data, if_neg (by omega), if_neg (by omega)]

/-- The entry that `directory_put` has stored carries the name. -/
theorem put_image_strcmp (c : Config) (img : Image) (dd : Int) (name : CString) (inum : Int)
    (hlen : ((name.length + 1 : Nat) : Int) ≤ INUM_OFFSET c) :
    strcmp_eq (put_image c img dd name inum) (new_entry c img dd) name = true := by
  rw [strcmp_eq_iff]
  intro j hj
  rw [put_image_data, if_neg (by omega), if_pos (by constructor <;> omega)]
  have : (new_entry c img dd + (j : Int) - new_entry c img dd).toNat = j := by omega
  rw [this]
  unfold strcpy_src
  rw [getD_append_nul]

/-- The entry that `directory_put` has stored carries the inode number. -/
theorem put_image_load_int (c : Config) (img : Image) (dd : Int) (name : CString) (inum : Int)
    (h1 : -2147483648 ≤ inum) (h2 : inum < 2147483648) :
    load_int (put_image c img dd name inum) (new_entry c img dd + INUM_OFFSET c) = inum := by
  have e : load_int (put_image c img dd name inum) (new_entry c img dd + INUM_OFFSET c) =
      load_int (store_int (memcpy img (new_entry c img dd) (strcpy_src name) (name.length + 1))
        (new_entry c img dd + INUM_OFFSET c) inum) (new_entry c img dd + INUM_OFFSET c) := rfl
  rw [e, load_store_int _ _ _ h1 h2]

/-! ## `storage_init` on a new backing file -/

theorem alloc_block_next (c : Config) (img : Image) (k : Int) (hk0 : 0 ≤ k)
    (hk : k + 1 < c.BLOCK_COUNT) (hbm : ∀ j, img.blocks_bitmap j = decide (0 ≤ j ∧ j ≤ k)) :
    alloc_block c img = (k + 1,
      { img with blocks_bitmap := fun j => if j = k + 1 then true else img.blocks_bitmap j }) := by
  have hf : first_clear img.blocks_bitmap c.BLOCK_COUNT 0 = some (k + 1) := by
    rw [first_clear_eq_some]
    refine ⟨by omega, by omega, ?_, fun k' h1 h2 => ?_⟩
    · rw [hbm]; simp
    · rw [hbm]; simp; omega
  unfold alloc_block
  rw [hf]

theorem storage_init_alloc_eq (c : Config) (hb : c.INODE_BLOCK_BEGIN = 1) (n : Nat) :
    ∀ (img : Image) (i : Int), 0 ≤ i → i + n < c.BLOCK_COUNT →
      (∀ j, img.blocks_bitmap j = decide (0 ≤ j ∧ j ≤ i)) →
      ∃ img', storage_init_alloc c img n i = some img' ∧
        (∀ j, img'.blocks_bitmap j = decide (0 ≤ j ∧ j ≤ i + n)) ∧
        img'.inode_bitmap = img.inode_bitmap ∧ img'.inodes = img.inodes ∧
        img'.data = img.data := by
  induction n with
  | zero =>
    intro img i _ _ hbm
    exact ⟨img, rfl, by simpa using hbm, rfl, rfl, rfl⟩
  | succ n ih =>
    intro img i hi hlt hbm
    push_cast at hlt
    unfold storage_init_alloc
    dsimp only
    rw [alloc_block_next c img i hi (by omega) hbm]
    dsimp only
    rw [if_pos (by rw [hb]; push_cast; ring)]
    obtain ⟨img', h1, h2, h3, h4, h5⟩ := ih
      { img with blocks_bitmap := fun j => if j = i + 1 then true else img.blocks_bitmap j }
      (i + 1) (by omega) (by omega) (by
        intro j
        show (if j = i + 1 then true else img.blocks_bitmap j) = _
        rw [hbm]
        by_cases e : j = i + 1
        · subst e; simp; omega
        · rw [if_neg e]
          exact decide_eq_decide.2 ⟨fun h => ⟨h.1, by omega⟩, fun h => ⟨h.1, by omega⟩⟩)
    refine ⟨img', h1, ?_, h3, h4, h5⟩
    intro j
    rw [h2]
    push_cast
    congr 1
    apply propext
    constructor <;> (intro h; omega)

theorem directory_init_eq (c : Config) (img1 : Image)
    (hib : ∀ j, img1.inode_bitmap j = false)
    (hbm : ∀ j, img1.blocks_bitmap j = decide (0 ≤ j ∧ j ≤ (c.NUM_INODE_BLOCKS : Int)))
    (hcount : c.NUM_INODE_BLOCKS + 1 < c.BLOCK_COUNT)
    (hroom : 2 * c.SIZE_DIRENT ≤ c.BLOCK_SIZE) :
    ∃ img3, directory_init c img1 =
        some (put_image c (put_image c img3 ROOT_INODE (cstr ".") ROOT_INODE) ROOT_INODE
          (cstr "..") ROOT_INODE) ∧
      (∀ j, img3.inode_bitmap j = decide (j = 0)) ∧
      (∀ j, img3.blocks_bitmap j = decide (0 ≤ j ∧ j ≤ (c.NUM_INODE_BLOCKS : Int) + 1)) ∧
      img3.inodes ROOT_INODE =
        { refs := 1, mode := 16877, size := 0, block := (c.NUM_INODE_BLOCKS : Int) + 1 } ∧
      img3.data = img1.data := by
  have hg : get_inode (inode_bitmap_put img1 ROOT_INODE true) ROOT_INODE = some ROOT_INODE :=
    get_inode_eq_some _ _ (by decide) (by simp [inode_bitmap_put])
  have hab := alloc_block_next c (inode_bitmap_put img1 ROOT_INODE true) c.NUM_INODE_BLOCKS
    (by omega) (by exact_mod_cast hcount) hbm
  unfold directory_init
  rw [if_pos (hib ROOT_INODE)]
  try dsimp only
  rw [hg]
  try dsimp only
  rw [hab]
  try dsimp only
  have hne : ((({ inode_bitmap_put img1 ROOT_INODE true with
      blocks_bitmap := fun j => if j = (c.NUM_INODE_BLOCKS : Int) + 1 then true
        else (inode_bitmap_put img1 ROOT_INODE true).blocks_bitmap j } : Image).set_inode
      ROOT_INODE
      { ({ inode_bitmap_put img1 ROOT_INODE true with
          blocks_bitmap := fun j => if j = (c.NUM_INODE_BLOCKS : Int) + 1 then true
            else (inode_bitmap_put img1 ROOT_INODE true).blocks_bitmap j } : Image).inodes
          ROOT_INODE with block := (c.NUM_INODE_BLOCKS : Int) + 1 }).inodes ROOT_INODE).block
      ≠ -1 := by
    rw [set_inode_inodes_same]
    show (c.NUM_INODE_BLOCKS : Int) + 1 ≠ -1
    omega
  rw [if_pos hne]
  try dsimp only
  rw [directory_put_eq c _ ROOT_INODE (cstr ".") ROOT_INODE
    (by simp only [set_inode_inodes_same]; omega) (by decide) (by decide)
    (by simp [Image.set_inode, inode_bitmap_put])]
  try dsimp only
  rw [directory_put_eq c _ ROOT_INODE (cstr "..") ROOT_INODE
    (by rw [put_image_size, if_pos rfl]; simp only [set_inode_inodes_same]; omega)
    (by decide) (by decide)
    (by rw [put_image_inode_bitmap]; simp [Image.set_inode, inode_bitmap_put])]
  refine ⟨_, rfl, ?_, ?_, ?_, rfl⟩
  · intro j
    show (if j = ROOT_INODE then true else img1.inode_bitmap j) = _
    rw [hib]
    by_cases e : j = 0
    · simp [e, ROOT_INODE]
    · simp [e, ROOT_INODE]
  · intro j
    show (if j = (c.NUM_INODE_BLOCKS : Int) + 1 then true else img1.blocks_bitmap j) = _
    rw [hbm]
    by_cases e : j = (c.NUM_INODE_BLOCKS : Int) + 1
    · subst e; simp; omega
    · rw [if_neg e]
      exact decide_eq_decide.2 ⟨fun h => ⟨h.1, by omega⟩, fun h => ⟨h.1, by omega⟩⟩
  · simp [set_inode_inodes_same]

theorem cstr_dot : cstr "." = [46] := by decide

theorem cstr_dotdot : cstr ".." = [46, 46] := by decide

/-- The two entries that `directory_init` stores are found again: `"."` in the
first slot and `".."` in the second, both with the inode number of the
directory. -/
theorem lookup_after_two_puts (c : Config) (img3 : Image) (dd inum : Int)
    (hname : 3 ≤ c.DIR_NAME_LENGTH) (hent : INUM_OFFSET c + 4 ≤ c.SIZE_DIRENT)
    (hmode : is_directory (img3.inodes dd) = true) (hsize : (img3.inodes dd).size = 0)
    (h0 : -2147483648 ≤ inum) (h1 : inum < 2147483648) :
    directory_lookup c (put_image c (put_image c img3 dd (cstr ".") inum) dd (cstr "..") inum)
      dd (cstr ".") = inum ∧
    directory_lookup c (put_image c (put_image c img3 dd (cstr ".") inum) dd (cstr "..") inum)
      dd (cstr "..") = inum := by
  have hio : (c.DIR_NAME_LENGTH : Int) ≤ INUM_OFFSET c := by
    unfold INUM_OFFSET
    push_cast
    omega
  have hsd : (0 : Int) < c.SIZE_DIRENT := by omega
  have hblockP : ((put_image c img3 dd (cstr ".") inum).inodes dd).block = (img3.inodes dd).block :=
    put_image_block _ _ _ _ _ _
  have hblock : ((put_image c (put_image c img3 dd (cstr ".") inum) dd (cstr "..") inum).inodes
      dd).block = (img3.inodes dd).block := by
    rw [put_image_block, hblockP]
  have hsizeP : ((put_image c img3 dd (cstr ".") inum).inodes dd).size = c.SIZE_DIRENT := by
    rw [put_image_size, if_pos rfl, hsize]; ring
  have hsizeQ : ((put_image c (put_image c img3 dd (cstr ".") inum) dd (cstr "..") inum).inodes
      dd).size = 2 * c.SIZE_DIRENT := by
    rw [put_image_size, if_pos rfl, hsizeP]; ring
  have hmodeQ : is_directory ((put_image c (put_image c img3 dd (cstr ".") inum) dd (cstr "..")
      inum).inodes dd) = true := by
    unfold is_directory at hmode ⊢
    rw [put_image_mode, put_image_mode]
    exact hmode
  have hnew3 : new_entry c img3 dd = blocks_get_block c (img3.inodes dd).block := by
    unfold new_entry; rw [hsize]; ring
  have hnewP : new_entry c (put_image c img3 dd (cstr ".") inum) dd =
      blocks_get_block c (img3.inodes dd).block + c.SIZE_DIRENT := by
    unfold new_entry; rw [hsizeP, hblockP]
  have hlen1 : (cstr ".").length = 1 := by rw [cstr_dot]; rfl
  have hlen2 : (cstr "..").length = 2 := by rw [cstr_dotdot]; rfl
  -- the first entry
  have hbytes : ∀ j : Int, 0 ≤ j → j < c.SIZE_DIRENT →
      (put_image c (put_image c img3 dd (cstr ".") inum) dd (cstr "..") inum).data
        (blocks_get_block c (img3.inodes dd).block + j) =
      (put_image c img3 dd (cstr ".") inum).data (blocks_get_block c (img3.inodes dd).block + j) := by
    intro j hj0 hj
    exact put_image_data_other _ _ _ _ _ _ (by rw [hnewP]; omega) (by rw [hnewP]; omega)
  have f1 : strcmp_eq (put_image c (put_image c img3 dd (cstr ".") inum) dd (cstr "..") inum)
      (blocks_get_block c (img3.inodes dd).block) (cstr ".") = true := by
    rw [strcmp_eq_same (put_image c img3 dd (cstr ".") inum)
      (put_image c (put_image c img3 dd (cstr ".") inum) dd (cstr "..") inum)
      (blocks_get_block c (img3.inodes dd).block) (cstr ".")
      (fun j hj => hbytes j (by omega) (by rw [hlen1] at hj; omega))]
    have := put_image_strcmp c img3 dd (cstr ".") inum (by rw [hlen1]; push_cast; omega)
    rw [hnew3] at this
    exact this
  have f2 : load_int (put_image c (put_image c img3 dd (cstr ".") inum) dd (cstr "..") inum)
      (blocks_get_block c (img3.inodes dd).block + INUM_OFFSET c) = inum := by
    have hfour : ∀ j : Int, 0 ≤ j → j < 4 →
        (put_image c (put_image c img3 dd (cstr ".") inum) dd (cstr "..") inum).data
          (blocks_get_block c (img3.inodes dd).block + INUM_OFFSET c + j) =
        (put_image c img3 dd (cstr ".") inum).data
          (blocks_get_block c (img3.inodes dd).block + INUM_OFFSET c + j) := by
      intro j hj0 hj
      have e : blocks_get_block c (img3.inodes dd).block + INUM_OFFSET c + j =
          blocks_get_block c (img3.inodes dd).block + (INUM_OFFSET c + j) := by ring
      rw [e]
      exact hbytes (INUM_OFFSET c + j) (by omega) (by omega)
    rw [load_int_congr (put_image c img3 dd (cstr ".") inum)
      (put_image c (put_image c img3 dd (cstr ".") inum) dd (cstr "..") inum)
      (blocks_get_block c (img3.inodes dd).block + INUM_OFFSET c)
      (blocks_get_block c (img3.inodes dd).block + INUM_OFFSET c) hfour]
    have := put_image_load_int c img3 dd (cstr ".") inum h0 h1
    rw [hnew3] at this
    exact this
  have f3 : strcmp_eq (put_image c (put_image c img3 dd (cstr ".") inum) dd (cstr "..") inum)
      (blocks_get_block c (img3.inodes dd).block) (cstr "..") = false := by
    by_contra hcon
    have ht : strcmp_eq (put_image c (put_image c img3 dd (cstr ".") inum) dd (cstr "..") inum)
      (blocks_get_block c (img3.inodes dd).block) (cstr "..") = true := by simpa using hcon
    have a := (strcmp_eq_iff _ _ _).1 f1 1 (by rw [hlen1])
    have b := (strcmp_eq_iff _ _ _).1 ht 1 (by rw [hlen2]; omega)
    rw [a] at b
    rw [cstr_dot, cstr_dotdot] at b
    exact absurd b (by decide)
  -- the second entry
  have f4 : strcmp_eq (put_image c (put_image c img3 dd (cstr ".") inum) dd (cstr "..") inum)
      (blocks_get_block c (img3.inodes dd).block + c.SIZE_DIRENT) (cstr "..") = true := by
    have := put_image_strcmp c (put_image c img3 dd (cstr ".") inum) dd (cstr "..") inum
      (by rw [hlen2]; push_cast; omega)
    rw [hnewP] at this
    exact this
  have f5 : load_int (put_image c (put_image c img3 dd (cstr ".") inum) dd (cstr "..") inum)
      (blocks_get_block c (img3.inodes dd).block + c.SIZE_DIRENT + INUM_OFFSET c) = inum := by
    have := put_image_load_int c (put_image c img3 dd (cstr ".") inum) dd (cstr "..") inum h0 h1
    rw [hnewP] at this
    exact this
  have hn : (Int.tdiv (2 * (c.SIZE_DIRENT : Int)) c.SIZE_DIRENT).toNat = 2 := by
    rw [Int.tdiv_eq_ediv (by omega) (by omega), Int.mul_ediv_cancel _ (by omega)]
    rfl
  have e0 : blocks_get_block c (img3.inodes dd).block + (0 : Int) * c.SIZE_DIRENT =
      blocks_get_block c (img3.inodes dd).block := by ring
  have e1 : blocks_get_block c (img3.inodes dd).block + ((0 : Int) + 1) * c.SIZE_DIRENT =
      blocks_get_block c (img3.inodes dd).block + c.SIZE_DIRENT := by ring
  constructor
  · unfold directory_lookup
    rw [if_neg (by rw [hmodeQ]; simp), hblock, hsizeQ, hn]
    unfold directory_lookup_from
    rw [e0, if_pos f1, f2]
  · unfold directory_lookup
    rw [if_neg (by rw [hmodeQ]; simp), hblock, hsizeQ, hn]
    unfold directory_lookup_from
    rw [e0, if_neg (by rw [f3]; simp)]
    unfold directory_lookup_from
    rw [e1, if_pos f4, f5]

/-- C14: `storage_init` on a fresh image (block-bitmap bit 1 clear) runs to
completion.  Afterwards block 0, the inode-table blocks
`INODE_BLOCK_BEGIN .. INODE_BLOCK_BEGIN + NUM_INODE_BLOCKS - 1` and one data
block, the root's, are the blocks marked allocated; inode 0 is the only inode
marked allocated; `storage_stat("/")` returns 0 with inode number 0, mode
`040755`, size `2 * SIZE_DIRENT` and link count 3; and `directory_lookup` of
`"."` and of `".."` in the root both return 0. -/
theorem storage_init_fresh (c : Config) (hb : c.INODE_BLOCK_BEGIN = 1)
    (hcount : c.NUM_INODE_BLOCKS + 1 < c.BLOCK_COUNT) (hname : 3 ≤ c.DIR_NAME_LENGTH)
    (hent : INUM_OFFSET c + 4 ≤ c.SIZE_DIRENT) (hroom : 2 * c.SIZE_DIRENT ≤ c.BLOCK_SIZE)
    (uid : Int) (st : stat) :
    blocks_init.blocks_bitmap 1 = false ∧
    ∃ img, storage_init c blocks_init = some img ∧
      (∀ b : Int, (c.INODE_BLOCK_BEGIN : Int) ≤ b →
        b < c.INODE_BLOCK_BEGIN + c.NUM_INODE_BLOCKS → img.blocks_bitmap b = true) ∧
      (img.inodes ROOT_INODE).block = c.INODE_BLOCK_BEGIN + c.NUM_INODE_BLOCKS ∧
      img.blocks_bitmap (img.inodes ROOT_INODE).block = true ∧
      (∀ b, img.blocks_bitmap b = true ↔ 0 ≤ b ∧ b ≤ (img.inodes ROOT_INODE).block) ∧
      (∀ i, img.inode_bitmap i = true ↔ i = ROOT_INODE) ∧
      storage_stat c img uid (cstr "/") st =
        some (0, { st_size := 2 * c.SIZE_DIRENT, st_mode := 16877, st_uid := uid,
                   st_ino := ROOT_INODE, st_nlink := 3 }, img) ∧
      (img.inodes ROOT_INODE).refs ≥ 1 ∧
      directory_lookup c img ROOT_INODE (cstr ".") = ROOT_INODE ∧
      directory_lookup c img ROOT_INODE (cstr "..") = ROOT_INODE := by
  refine ⟨by decide, ?_⟩
  have hb1 : (c.INODE_BLOCK_BEGIN : Int) = 1 := by rw [hb]; rfl
  obtain ⟨img1, ha, hbm1, hib1, _, _⟩ := storage_init_alloc_eq c hb c.NUM_INODE_BLOCKS
    blocks_init 0 (le_refl _) (by omega) (fun j => by
      show decide (j = 0) = _
      exact decide_eq_decide.2 ⟨fun h => by omega, fun h => by omega⟩)
  obtain ⟨img3, hdi, hib3, hbm3, hin3, _⟩ := directory_init_eq c img1
    (fun j => by rw [hib1]; rfl)
    (fun j => by rw [hbm1]; exact decide_eq_decide.2 ⟨fun h => by omega, fun h => by omega⟩)
    hcount hroom
  have hinit : storage_init c blocks_init =
      some (put_image c (put_image c img3 ROOT_INODE (cstr ".") ROOT_INODE) ROOT_INODE
        (cstr "..") ROOT_INODE) := by
    unfold storage_init
    rw [if_pos (by decide), ha]
    exact hdi
  have hblock : ((put_image c (put_image c img3 ROOT_INODE (cstr ".") ROOT_INODE) ROOT_INODE
      (cstr "..") ROOT_INODE).inodes ROOT_INODE).block = (c.NUM_INODE_BLOCKS : Int) + 1 := by
    rw [put_image_block, put_image_block, hin3]
  have hsize : ((put_image c (put_image c img3 ROOT_INODE (cstr ".") ROOT_INODE) ROOT_INODE
      (cstr "..") ROOT_INODE).inodes ROOT_INODE).size = 2 * c.SIZE_DIRENT := by
    rw [put_image_size, if_pos rfl, put_image_size, if_pos rfl, hin3]
    ring
  have hmode : ((put_image c (put_image c img3 ROOT_INODE (cstr ".") ROOT_INODE) ROOT_INODE
      (cstr "..") ROOT_INODE).inodes ROOT_INODE).mode = 16877 := by
    rw [put_image_mode, put_image_mode, hin3]
  have hrefs : ((put_image c (put_image c img3 ROOT_INODE (cstr ".") ROOT_INODE) ROOT_INODE
      (cstr "..") ROOT_INODE).inodes ROOT_INODE).refs = 3 := by
    rw [put_image_refs, if_pos rfl, put_image_refs, if_pos rfl, hin3]
    rfl
  have hbits : ∀ b, (put_image c (put_image c img3 ROOT_INODE (cstr ".") ROOT_INODE) ROOT_INODE
      (cstr "..") ROOT_INODE).blocks_bitmap b = decide (0 ≤ b ∧ b ≤ (c.NUM_INODE_BLOCKS : Int) + 1) :=
    fun b => hbm3 b
  have hibits : ∀ i, (put_image c (put_image c img3 ROOT_INODE (cstr ".") ROOT_INODE) ROOT_INODE
      (cstr "..") ROOT_INODE).inode_bitmap i = decide (i = 0) := fun i => hib3 i
  have hlook := lookup_after_two_puts c img3 ROOT_INODE ROOT_INODE hname hent
    (by rw [hin3]; unfold is_directory
        show decide (Int.tdiv 16877 4096 = 4) = true
        decide) (by rw [hin3]) (by decide) (by decide)
  refine ⟨_, hinit, ?_, ?_, ?_, ?_, ?_, ?_, ?_, hlook.1, hlook.2⟩
  · intro b h1 h2
    rw [hbits]
    simp only [decide_eq_true_eq]
    omega
  · rw [hblock, hb1]; ring
  · rw [hbits, hblock]
    simp only [decide_eq_true_eq]
    omega
  · intro b
    rw [hbits, hblock]
    simp only [decide_eq_true_eq]
  · intro i
    rw [hibits]
    simp only [decide_eq_true_eq]
    rfl
  · unfold storage_stat
    have htl : tree_lookup c (put_image c (put_image c img3 ROOT_INODE (cstr ".") ROOT_INODE)
        ROOT_INODE (cstr "..") ROOT_INODE) (cstr "/") = some ROOT_INODE := rfl
    rw [htl]
    dsimp only
    rw [if_neg (by decide), get_inode_eq_some _ ROOT_INODE (by decide) (by rw [hibits]; rfl)]
    dsimp only
    rw [hsize, hmode, hrefs]
  · rw [hrefs]; decide

theorem storage_init_fresh_witness :
    stdConfig.INODE_BLOCK_BEGIN = 1 ∧ stdConfig.NUM_INODE_BLOCKS + 1 < stdConfig.BLOCK_COUNT ∧
    3 ≤ stdConfig.DIR_NAME_LENGTH ∧ INUM_OFFSET stdConfig + 4 ≤ stdConfig.SIZE_DIRENT ∧
    2 * stdConfig.SIZE_DIRENT ≤ stdConfig.BLOCK_SIZE ∧
    ∃ img, storage_init stdConfig blocks_init = some img ∧
      storage_stat stdConfig img 0 (cstr "/") stat_zero =
        some (0, { st_size := 2 * stdConfig.SIZE_DIRENT, st_mode := 16877, st_uid := 0,
                   st_ino := ROOT_INODE, st_nlink := 3 }, img) ∧
      directory_lookup stdConfig img ROOT_INODE (cstr ".") = ROOT_INODE ∧
      directory_lookup stdConfig img ROOT_INODE (cstr "..") = ROOT_INODE :=
  ⟨by decide, by decide, by decide, by decide, by decide,
   let ⟨img, h, _, _, _, _, _, hs, _, h1, h2⟩ :=
     (storage_init_fresh stdConfig (by decide) (by decide) (by decide) (by decide) (by decide)
       0 stat_zero).2
   ⟨img, h, hs, h1, h2⟩⟩

/-! ## The entries `.` and `..` -/

/-- C19: the sequence `mknod("/d", 040755)`, `unlink("/d/.")` runs to
completion on a freshly initialised image.  Before the `unlink` the directory
`/d` (inode 1) holds `"."` with its own number and `".."` with the root's;
`storage_unlink` deletes the entry `"."` like any other, and afterwards `/d`
is still a directory that `tree_lookup` reaches from the root, but it holds
no entry `"."`. -/
theorem unlink_dot_entry :
    reachable stdConfig image_d_nodot ∧
    directory_lookup stdConfig image_d 1 (cstr ".") = 1 ∧
    directory_lookup stdConfig image_d 1 (cstr "..") = 0 ∧
    (storage_unlink stdConfig image_d (cstr "/d/.")).map Prod.fst = some retval.no_return ∧
    tree_lookup stdConfig image_d_nodot (cstr "/d") = some 1 ∧
    image_d_nodot.inode_bitmap 1 = true ∧
    is_directory (image_d_nodot.inodes 1) = true ∧
    directory_lookup stdConfig image_d_nodot 1 (cstr ".") = -1 ∧
    storage_list stdConfig image_d_nodot (cstr "/d") = some [cstr ".."] := by
  have hrun : (serve_all stdConfig image_fresh requests_unlink_dot).isSome = true := by decide
  obtain ⟨img, himg⟩ := Option.isSome_iff_exists.1 hrun
  have himage : image_d_nodot = img := by
    unfold image_d_nodot
    rw [himg]
    rfl
  refine ⟨⟨image_fresh, requests_unlink_dot, rfl, by rw [himage]; exact himg⟩,
    ?_, ?_, ?_, ?_, ?_, ?_, ?_, ?_⟩ <;> decide

/-! ## The search for an entry -/

theorem find_entry_eq_some (c : Config) (img : Image) (entry : Int) (name : CString) (n : Nat)
    (i k : Int) :
    find_entry c img entry name n i = some k ↔
      (i ≤ k ∧ k < i + n ∧ strcmp_eq img (entry + k * c.SIZE_DIRENT) name = true ∧
        ∀ k', i ≤ k' → k' < k → strcmp_eq img (entry + k' * c.SIZE_DIRENT) name = false) := by
  induction n generalizing i with
  | zero =>
    simp only [find_entry, reduceCtorEq, Nat.cast_zero, add_zero, false_iff]
    intro h; omega
  | succ n ih =>
    unfold find_entry
    split_ifs with h
    · simp only [Option.some.injEq]
      constructor
      · intro e; subst e
        exact ⟨le_refl _, by push_cast; omega, h, fun k' h1 h2 => by omega⟩
      · rintro ⟨h1, _, h3, h4⟩
        by_contra hne
        have := h4 i (le_refl _) (by omega)
        rw [h] at this
        exact absurd this (by simp)
    · rw [ih (i + 1)]
      have hi : strcmp_eq img (entry + i * c.SIZE_DIRENT) name = false := by simpa using h
      constructor
      · rintro ⟨h1, h2, h3, h4⟩
        refine ⟨by omega, by push_cast; omega, h3, fun k' a b => ?_⟩
        by_cases e : k' = i
        · subst e; exact hi
        · exact h4 k' (by omega) b
      · rintro ⟨h1, h2, h3, h4⟩
        have hik : i ≠ k := by
          intro e; subst e; rw [hi] at h3; exact absurd h3 (by simp)
        refine ⟨by omega, by push_cast at h2; omega, h3, fun k' a b => h4 k' (by omega) b⟩

theorem find_entry_eq_none (c : Config) (img : Image) (entry : Int) (name : CString) (n : Nat)
    (i : Int) :
    find_entry c img entry name n i = none ↔
      ∀ k', i ≤ k' → k' < i + n → strcmp_eq img (entry + k' * c.SIZE_DIRENT) name = false := by
  induction n generalizing i with
  | zero =>
    simp only [find_entry, Nat.cast_zero, add_zero, true_iff]
    intro k' h1 h2; omega
  | succ n ih =>
    unfold find_entry
    split_ifs with h
    · simp only [reduceCtorEq, false_iff]
      intro hh
      have := hh i (le_refl _) (by push_cast; omega)
      rw [h] at this
      exact absurd this (by simp)
    · rw [ih (i + 1)]
      constructor
      · intro hh k' a b
        by_cases e : k' = i
        · subst e; simpa using h
        · exact hh k' (by omega) (by push_cast at b; omega)
      · intro hh k' a b
        exact hh k' (by omega) (by push_cast; omega)

theorem lookup_from_of_find_some (c : Config) (img : Image) (entry : Int) (name : CString)
    (k : Int) (n : Nat) : ∀ (i : Int), find_entry c img entry name n i = some k →
      directory_lookup_from c img entry name n i =
        load_int img (entry + k * c.SIZE_DIRENT + INUM_OFFSET c) := by
  induction n with
  | zero => intro i h; simp [find_entry] at h
  | succ n ih =>
    intro i h
    unfold find_entry at h
    unfold directory_lookup_from
    split at h
    · rename_i hs
      cases h
      rw [if_pos hs]
    · rename_i hs
      rw [if_neg hs]
      exact ih (i + 1) h

theorem lookup_from_of_find_none (c : Config) (img : Image) (entry : Int) (name : CString)
    (n : Nat) : ∀ (i : Int), find_entry c img entry name n i = none →
      directory_lookup_from c img entry name n i = -1 := by
  induction n with
  | zero => intro i _; rfl
  | succ n ih =>
    intro i h
    unfold find_entry at h
    unfold directory_lookup_from
    split at h
    · cases h
    · rename_i hs
      rw [if_neg hs]
      exact ih (i + 1) h

theorem directory_lookup_not_dir (c : Config) (img : Image) (dd : Int) (name : CString)
    (hd : is_directory (img.inodes dd) = false) : directory_lookup c img dd name = -1 := by
  unfold directory_lookup
  simp [hd]

theorem directory_lookup_dir (c : Config) (img : Image) (dd : Int) (name : CString)
    (hd : is_directory (img.inodes dd) = true) :
    directory_lookup c img dd name =
      directory_lookup_from c img (blocks_get_block c (img.inodes dd).block) name
        (Int.tdiv (img.inodes dd).size c.SIZE_DIRENT).toNat 0 := by
  unfold directory_lookup
  rw [if_neg (by rw [hd]; simp)]

theorem INUM_OFFSET_ge (c : Config) : (c.DIR_NAME_LENGTH : Int) ≤ INUM_OFFSET c := by
  unfold INUM_OFFSET
  have : c.DIR_NAME_LENGTH ≤ (c.DIR_NAME_LENGTH + 3) / 4 * 4 := by omega
  exact_mod_cast this

/-- Entry `k` of a directory lies inside the first `size` bytes of its
block. -/
theorem entry_bounds (c : Config) (size : Int) (k : Int) (h0 : 0 ≤ k)
    (hs : 0 ≤ size) (hk : k < ((size / c.SIZE_DIRENT).toNat : Int)) (hsd : 0 < c.SIZE_DIRENT) :
    0 ≤ k * c.SIZE_DIRENT ∧ k * c.SIZE_DIRENT + c.SIZE_DIRENT ≤ size := by
  have hpos : (0 : Int) < c.SIZE_DIRENT := by exact_mod_cast hsd
  have hq : 0 ≤ size / (c.SIZE_DIRENT : Int) := Int.ediv_nonneg hs (le_of_lt hpos)
  have hk' : k + 1 ≤ size / (c.SIZE_DIRENT : Int) := by omega
  have h1 : (k + 1) * (c.SIZE_DIRENT : Int) ≤ size / (c.SIZE_DIRENT : Int) * c.SIZE_DIRENT :=
    Int.mul_le_mul_of_nonneg_right hk' (le_of_lt hpos)
  have h2 : size / (c.SIZE_DIRENT : Int) * c.SIZE_DIRENT ≤ size := Int.ediv_mul_le size (ne_of_gt hpos)
  constructor
  · exact Int.mul_nonneg h0 (le_of_lt hpos)
  · nlinarith

/-! ## Well-formed images, read at `int` inode numbers -/

theorem WF.marked {c : Config} {img : Image} (h : WF c img) (i : Int) (h0 : 0 ≤ i)
    (h1 : i < c.BLOCK_COUNT) (ha : img.inode_bitmap i = true) :
    img.blocks_bitmap (img.inodes i).block = true := by
  have := h.1 i.toNat (by omega)
  rw [Int.toNat_of_nonneg h0] at this
  exact this ha

theorem WF.distinct {c : Config} {img : Image} (h : WF c img) (i j : Int) (hi0 : 0 ≤ i)
    (hi1 : i < c.BLOCK_COUNT) (hj0 : 0 ≤ j) (hj1 : j < c.BLOCK_COUNT)
    (hia : img.inode_bitmap i = true) (hja : img.inode_bitmap j = true) (hne : i ≠ j) :
    (img.inodes i).block ≠ (img.inodes j).block := by
  have := h.2.1 i.toNat (by omega) j.toNat (by omega)
  rw [Int.toNat_of_nonneg hi0, Int.toNat_of_nonneg hj0] at this
  exact this ⟨hia, hja, by omega⟩

theorem WF.dir {c : Config} {img : Image} (h : WF c img) (i : Int) (h0 : 0 ≤ i)
    (h1 : i < c.BLOCK_COUNT) (ha : img.inode_bitmap i = true)
    (hd : is_directory (img.inodes i) = true) : dir_ok c img i := by
  have := h.2.2 i.toNat (by omega)
  rw [Int.toNat_of_nonneg h0] at this
  exact this ha hd

/-- The entry `k` of a well-formed directory, read at an `int` index. -/
theorem dir_ok.entry {c : Config} {img : Image} {dd : Int} (h : dir_ok c img dd) (k : Int)
    (h0 : 0 ≤ k) (hk : k < (((img.inodes dd).size / c.SIZE_DIRENT).toNat : Int)) :
    entry_ok c img (blocks_get_block c (img.inodes dd).block + k * c.SIZE_DIRENT) := by
  have := h.2.2.2 k.toNat (by omega)
  rw [Int.toNat_of_nonneg h0] at this
  exact this

/-! ## Lookups in a directory whose live bytes are unchanged -/

theorem entry_count_mono (c : Config) (hsd : 0 < c.SIZE_DIRENT) (s s' : Int) (h0 : 0 ≤ s)
    (h : s ≤ s') :
    (Int.tdiv s c.SIZE_DIRENT).toNat ≤ (Int.tdiv s' c.SIZE_DIRENT).toNat := by
  rw [tdiv_of_nonneg s _ h0, tdiv_of_nonneg s' _ (by omega)]
  have hpos : (0 : Int) < c.SIZE_DIRENT := by exact_mod_cast hsd
  have := Int.ediv_le_ediv hpos h
  have h1 : 0 ≤ s / (c.SIZE_DIRENT : Int) := Int.ediv_nonneg h0 (Int.ofNat_nonneg _)
  omega

/-- A comparison with entry `k` of a well-formed directory gives the same
outcome in an image that agrees on the directory's first `size` bytes. -/
theorem entry_strcmp_congr (c : Config) (hc : valid_config c) (img img' : Image) (dd : Int)
    (hok : dir_ok c img dd)
    (hdata : ∀ a : Int, blocks_get_block c (img.inodes dd).block ≤ a →
      a < blocks_get_block c (img.inodes dd).block + (img.inodes dd).size →
      img'.data a = img.data a)
    (name : CString) (hname : cstring_ok name) (k : Int) (h0 : 0 ≤ k)
    (hk : k < (((img.inodes dd).size / c.SIZE_DIRENT).toNat : Int)) :
    strcmp_eq img' (blocks_get_block c (img.inodes dd).block + k * c.SIZE_DIRENT) name
      = strcmp_eq img (blocks_get_block c (img.inodes dd).block + k * c.SIZE_DIRENT) name := by
  obtain ⟨hterm, _, _⟩ := hok.entry k h0 hk
  have hb := entry_bounds c _ k h0 hok.1 hk hc.1
  have hio := INUM_OFFSET_ge c
  have hv := hc.2.1
  apply strcmp_eq_congr c img img' _ _ name hname hterm
  intro j hj
  apply hdata
  · omega
  · omega

theorem entry_inum_congr (c : Config) (hc : valid_config c) (img img' : Image) (dd : Int)
    (hok : dir_ok c img dd)
    (hdata : ∀ a : Int, blocks_get_block c (img.inodes dd).block ≤ a →
      a < blocks_get_block c (img.inodes dd).block + (img.inodes dd).size →
      img'.data a = img.data a)
    (k : Int) (h0 : 0 ≤ k)
    (hk : k < (((img.inodes dd).size / c.SIZE_DIRENT).toNat : Int)) :
    load_int img' (blocks_get_block c (img.inodes dd).block + k * c.SIZE_DIRENT + INUM_OFFSET c)
      = load_int img
          (blocks_get_block c (img.inodes dd).block + k * c.SIZE_DIRENT + INUM_OFFSET c) := by
  have hb := entry_bounds c _ k h0 hok.1 hk hc.1
  have hio := INUM_OFFSET_ge c
  have hv := hc.2.1
  apply load_int_congr
  intro j hj0 hj4
  apply hdata
  · omega
  · omega

/-- A lookup that finds its entry in a well-formed directory finds the same
entry in an image in which the mode and block of the inode and the live bytes
of the directory are unchanged and the directory has not shrunk. -/
theorem directory_lookup_kept (c : Config) (hc : valid_config c) (img img' : Image) (dd : Int)
    (hok : dir_ok c img dd)
    (hmode : (img'.inodes dd).mode = (img.inodes dd).mode)
    (hblock : (img'.inodes dd).block = (img.inodes dd).block)
    (hsize : (img.inodes dd).size ≤ (img'.inodes dd).size)
    (hdata : ∀ a : Int, blocks_get_block c (img.inodes dd).block ≤ a →
      a < blocks_get_block c (img.inodes dd).block + (img.inodes dd).size →
      img'.data a = img.data a)
    (name : CString) (hname : cstring_ok name)
    (hfound : directory_lookup c img dd name ≠ -1) :
    directory_lookup c img' dd name = directory_lookup c img dd name := by
  have hd : is_directory (img.inodes dd) = true := by
    cases h : is_directory (img.inodes dd) with
    | false => exact absurd (directory_lookup_not_dir c img dd name h) hfound
    | true => rfl
  have hd' : is_directory (img'.inodes dd) = true := by
    unfold is_directory at hd ⊢; rw [hmode]; exact hd
  rw [directory_lookup_dir c img dd name hd] at hfound ⊢
  rw [directory_lookup_dir c img' dd name hd', hblock]
  cases hf : find_entry c img (blocks_get_block c (img.inodes dd).block) name
      (Int.tdiv (img.inodes dd).size c.SIZE_DIRENT).toNat 0 with
  | none => exact absurd (lookup_from_of_find_none c img _ name _ 0 hf) hfound
  | some k =>
    obtain ⟨h0, hk, hm, hbefore⟩ := (find_entry_eq_some c img _ name _ 0 k).1 hf
    have hcount := entry_count_mono c hc.1 _ _ hok.1 hsize
    have hts : (Int.tdiv (img.inodes dd).size c.SIZE_DIRENT).toNat =
        ((img.inodes dd).size / c.SIZE_DIRENT).toNat := by rw [tdiv_of_nonneg _ _ hok.1]
    have hf' : find_entry c img' (blocks_get_block c (img.inodes dd).block) name
        (Int.tdiv (img'.inodes dd).size c.SIZE_DIRENT).toNat 0 = some k := by
      rw [find_entry_eq_some]
      refine ⟨h0, by omega, ?_, fun k' a b => ?_⟩
      · rw [entry_strcmp_congr c hc img img' dd hok hdata name hname k h0 (by omega)]
        exact hm
      · rw [entry_strcmp_congr c hc img img' dd hok hdata name hname k' a (by omega)]
        exact hbefore k' a b
    rw [lookup_from_of_find_some c img _ name k _ 0 hf,
      lookup_from_of_find_some c img' _ name k _ 0 hf']
    exact entry_inum_congr c hc img img' dd hok hdata k h0 (by omega)

/-- What `directory_lookup` returns from a well-formed directory is `-1` or
an inode number. -/
theorem directory_lookup_range (c : Config) (img : Image) (dd : Int) (name : CString)
    (hok : is_directory (img.inodes dd) = true → dir_ok c img dd)
    (hne : directory_lookup c img dd name ≠ -1) :
    is_directory (img.inodes dd) = true ∧ 0 ≤ directory_lookup c img dd name ∧
      directory_lookup c img dd name < c.BLOCK_COUNT := by
  cases hd : is_directory (img.inodes dd) with
  | false => exact absurd (directory_lookup_not_dir c img dd name hd) hne
  | true =>
    have hok' := hok hd
    rw [directory_lookup_dir c img dd name hd] at hne ⊢
    cases hf : find_entry c img (blocks_get_block c (img.inodes dd).block) name
        (Int.tdiv (img.inodes dd).size c.SIZE_DIRENT).toNat 0 with
    | none => exact absurd (lookup_from_of_find_none c img _ name _ 0 hf) hne
    | some k =>
      obtain ⟨h0, hk, _, _⟩ := (find_entry_eq_some c img _ name _ 0 k).1 hf
      rw [tdiv_of_nonneg _ _ hok'.1] at hk
      obtain ⟨_, h1, h2⟩ := hok'.entry k h0 (by omega)
      rw [lookup_from_of_find_some c img _ name k _ 0 hf]
      exact ⟨rfl, h1, h2⟩

/-- In a well-formed directory `directory_lookup` returns `-1` only when no
entry has the name. -/
theorem directory_lookup_eq_neg_one (c : Config) (img : Image) (dd : Int) (name : CString)
    (hd : is_directory (img.inodes dd) = true) (hok : dir_ok c img dd)
    (h : directory_lookup c img dd name = -1) :
    find_entry c img (blocks_get_block c (img.inodes dd).block) name
      (Int.tdiv (img.inodes dd).size c.SIZE_DIRENT).toNat 0 = none := by
  rw [directory_lookup_dir c img dd name hd] at h
  cases hf : find_entry c img (blocks_get_block c (img.inodes dd).block) name
      (Int.tdiv (img.inodes dd).size c.SIZE_DIRENT).toNat 0 with
  | none => rfl
  | some k =>
    obtain ⟨h0, hk, _, _⟩ := (find_entry_eq_some c img _ name _ 0 k).1 hf
    rw [tdiv_of_nonneg _ _ hok.1] at hk
    obtain ⟨_, h1, _⟩ := hok.entry k h0 (by omega)
    rw [lookup_from_of_find_some c img _ name k _ 0 hf] at h
    omega

/-! ## `storage_mknod` followed by `storage_stat` -/

/-- The blocks with different numbers have no byte in common. -/
theorem block_disjoint (c : Config) (b1 b2 : Int) (h : b1 ≠ b2) (a : Int)
    (h1 : blocks_get_block c b1 ≤ a) (h2 : a < blocks_get_block c b1 + c.BLOCK_SIZE) :
    a < blocks_get_block c b2 ∨ blocks_get_block c b2 + c.BLOCK_SIZE ≤ a := by
  unfold blocks_get_block at *
  have hbs : (0 : Int) ≤ c.BLOCK_SIZE := Int.ofNat_nonneg _
  rcases lt_or_gt_of_ne h with hlt | hgt
  · left
    have : (b1 + 1) * (c.BLOCK_SIZE : Int) ≤ b2 * c.BLOCK_SIZE :=
      Int.mul_le_mul_of_nonneg_right (by omega) hbs
    have e : (b1 + 1) * (c.BLOCK_SIZE : Int) = b1 * c.BLOCK_SIZE + c.BLOCK_SIZE := by ring
    omega
  · right
    have : (b2 + 1) * (c.BLOCK_SIZE : Int) ≤ b1 * c.BLOCK_SIZE :=
      Int.mul_le_mul_of_nonneg_right (by omega) hbs
    have e : (b2 + 1) * (c.BLOCK_SIZE : Int) = b2 * c.BLOCK_SIZE + c.BLOCK_SIZE := by ring
    omega

theorem mknod_image_inode_bitmap (c : Config) (img : Image) (pn : Int) (child : CString)
    (i b m j : Int) :
    (mknod_image c img pn child i b m).inode_bitmap j =
      if j = i then true else img.inode_bitmap j := rfl

theorem mknod_image_inodes_other (c : Config) (img : Image) (pn : Int) (child : CString)
    (i b m j : Int) (h1 : j ≠ i) (h2 : j ≠ pn) :
    (mknod_image c img pn child i b m).inodes j = img.inodes j := by
  unfold mknod_image init_child
  rw [set_inode_inodes_other _ _ _ _ h1, put_image_inodes, if_neg h2, if_neg h1,
    alloc_image_inodes_other _ _ _ _ h1]

theorem mknod_image_inodes_parent (c : Config) (img : Image) (pn : Int) (child : CString)
    (i b m : Int) (h : pn ≠ i) :
    (mknod_image c img pn child i b m).inodes pn =
      { img.inodes pn with size := (img.inodes pn).size + c.SIZE_DIRENT } := by
  unfold mknod_image init_child
  rw [set_inode_inodes_other _ _ _ _ h, put_image_inodes, if_pos rfl, if_neg h,
    alloc_image_inodes_other _ _ _ _ h]

theorem mknod_image_inodes_child (c : Config) (img : Image) (pn : Int) (child : CString)
    (i b m : Int) (h : pn ≠ i) :
    (mknod_image c img pn child i b m).inodes i =
      { size := 0, mode := m, refs := 1, block := b } := by
  unfold mknod_image init_child
  rw [set_inode_inodes_same, put_image_inodes, if_neg (Ne.symm h), if_pos rfl,
    alloc_image_inodes, if_pos rfl]

theorem mknod_image_new_entry (c : Config) (img : Image) (pn i b : Int) (h : pn ≠ i) :
    new_entry c (alloc_image img i b) pn = new_entry c img pn := by
  unfold new_entry
  rw [alloc_image_inodes_other _ _ _ _ h]

/-- Outside the entry it appends to the parent, `storage_mknod` leaves the
bytes of the data blocks as they are. -/
theorem mknod_image_data_other (c : Config) (hc : valid_config c) (img : Image) (pn : Int)
    (child : CString) (i b m : Int) (h : pn ≠ i) (hlen : child.length < c.DIR_NAME_LENGTH)
    (a : Int)
    (ha : a < new_entry c img pn ∨ new_entry c img pn + c.SIZE_DIRENT ≤ a) :
    (mknod_image c img pn child i b m).data a = img.data a := by
  have hio := INUM_OFFSET_ge c
  have hv := hc.2.1
  have e : (mknod_image c img pn child i b m).data a =
      (put_image c (alloc_image img i b) pn child i).data a := rfl
  rw [e, put_image_data_other _ _ _ _ _ _
    (by rw [mknod_image_new_entry c img pn i b h]; push_cast; omega)
    (by rw [mknod_image_new_entry c img pn i b h]; omega)]
  rfl

/-- A lookup that finds its entry in an allocated directory of a well-formed
image finds the same entry after `storage_mknod` has made a node. -/
theorem mknod_image_lookup_kept (c : Config) (hc : valid_config c) (img : Image)
    (hwf : WF c img) (pn : Int) (child : CString) (i b m : Int)
    (hp0 : 0 ≤ pn) (hp1 : pn < c.BLOCK_COUNT) (hpa : img.inode_bitmap pn = true)
    (hpd : is_directory (img.inodes pn) = true)
    (hroom : (img.inodes pn).size + c.SIZE_DIRENT ≤ c.BLOCK_SIZE)
    (hlen : child.length < c.DIR_NAME_LENGTH)
    (hfree : img.inode_bitmap i = false)
    (dd : Int) (hd0 : 0 ≤ dd) (hd1 : dd < c.BLOCK_COUNT) (hda : img.inode_bitmap dd = true)
    (name : CString) (hname : cstring_ok name)
    (hfound : directory_lookup c img dd name ≠ -1) :
    directory_lookup c (mknod_image c img pn child i b m) dd name =
      directory_lookup c img dd name := by
  have hpi : pn ≠ i := by intro e; rw [e, hfree] at hpa; cases hpa
  have hdi : dd ≠ i := by intro e; rw [e, hfree] at hda; cases hda
  have hdd : is_directory (img.inodes dd) = true := by
    cases h : is_directory (img.inodes dd) with
    | false => exact absurd (directory_lookup_not_dir c img dd name h) hfound
    | true => rfl
  have hok := hwf.dir dd hd0 hd1 hda hdd
  have hokp := hwf.dir pn hp0 hp1 hpa hpd
  have hsd : (0 : Int) < c.SIZE_DIRENT := by exact_mod_cast hc.1
  by_cases e : dd = pn
  · subst e
    apply directory_lookup_kept c hc img _ dd hok
    · rw [mknod_image_inodes_parent c img dd child i b m hpi]
    · rw [mknod_image_inodes_parent c img dd child i b m hpi]
    · rw [mknod_image_inodes_parent c img dd child i b m hpi]
      show (img.inodes dd).size ≤ (img.inodes dd).size + c.SIZE_DIRENT
      omega
    · intro a h1 h2
      apply mknod_image_data_other c hc img dd child i b m hpi hlen
      left
      unfold new_entry
      omega
    · exact hname
    · exact hfound
  · apply directory_lookup_kept c hc img _ dd hok
    · rw [mknod_image_inodes_other c img pn child i b m dd hdi e]
    · rw [mknod_image_inodes_other c img pn child i b m dd hdi e]
    · rw [mknod_image_inodes_other c img pn child i b m dd hdi e]
    · intro a h1 h2
      apply mknod_image_data_other c hc img pn child i b m hpi hlen
      have hne := hwf.distinct dd pn hd0 hd1 hp0 hp1 hda hpa e
      have := block_disjoint c _ _ hne a h1 (by have := hok.2.2.1; omega)
      have hs0 := hokp.1
      unfold new_entry
      omega
    · exact hname
    · exact hfound

/-- A walk along a path that resolves in a well-formed image resolves to the
same inode after `storage_mknod` has made a node. -/
theorem mknod_image_tree_walk (c : Config) (hc : valid_config c) (img : Image)
    (hwf : WF c img) (pn : Int) (child : CString) (i b m : Int)
    (hp0 : 0 ≤ pn) (hp1 : pn < c.BLOCK_COUNT) (hpa : img.inode_bitmap pn = true)
    (hpd : is_directory (img.inodes pn) = true)
    (hroom : (img.inodes pn).size + c.SIZE_DIRENT ≤ c.BLOCK_SIZE)
    (hlen : child.length < c.DIR_NAME_LENGTH)
    (hfree : img.inode_bitmap i = false)
    (comps : List CString) (hcomps : ∀ x ∈ comps, cstring_ok x) :
    ∀ (src r : Int), 0 ≤ src → src < c.BLOCK_COUNT →
      tree_walk c img comps src = some r → r ≠ -1 →
      tree_walk c (mknod_image c img pn child i b m) comps src = some r := by
  induction comps with
  | nil => intro src r _ _ h _; exact h
  | cons name next ih =>
    intro src r h0 h1 h hr
    unfold tree_walk at h ⊢
    have hs : src ≠ -1 := by omega
    rw [if_neg hs] at h ⊢
    cases hg : get_inode img src with
    | none => rw [hg] at h; cases h
    | some dd =>
      rw [hg] at h
      obtain ⟨_, hbit, hnode⟩ := (get_inode_some_iff img src dd).1 hg
      subst hnode
      have hg' : get_inode (mknod_image c img pn child i b m) dd = some dd := by
        apply get_inode_eq_some _ _ h0
        rw [mknod_image_inode_bitmap, hbit]
        simp
      rw [hg']
      dsimp only at h ⊢
      have hl : directory_lookup c img dd name ≠ -1 := by
        intro e
        rw [e, tree_walk_neg_one] at h
        cases h
        exact hr rfl
      have hrange := directory_lookup_range c img dd name
        (fun hd => hwf.dir dd h0 h1 hbit hd) hl
      rw [mknod_image_lookup_kept c hc img hwf pn child i b m hp0 hp1 hpa hpd hroom hlen hfree
        dd h0 h1 hbit name (hcomps name (List.mem_cons_self _ _)) hl]
      exact ih (fun x hx => hcomps x (List.mem_cons_of_mem _ hx)) _ r hrange.2.1 hrange.2.2 h hr

/-- The entry that `storage_mknod` has appended to the parent is the one a
lookup of the new name finds. -/
theorem mknod_image_lookup_child (c : Config) (hc : valid_config c) (img : Image)
    (hwf : WF c img) (pn : Int) (child : CString) (i b m : Int)
    (hp0 : 0 ≤ pn) (hp1 : pn < c.BLOCK_COUNT) (hpa : img.inode_bitmap pn = true)
    (hpd : is_directory (img.inodes pn) = true)
    (hlen : child.length < c.DIR_NAME_LENGTH) (hchild : cstring_ok child)
    (hfree : img.inode_bitmap i = false) (hi0 : 0 ≤ i) (hi1 : i < c.BLOCK_COUNT)
    (hnone : directory_lookup c img pn child = -1) :
    directory_lookup c (mknod_image c img pn child i b m) pn child = i := by
  have hpi : pn ≠ i := by intro e; rw [e, hfree] at hpa; cases hpa
  have hok := hwf.dir pn hp0 hp1 hpa hpd
  have hsd : (0 : Int) < c.SIZE_DIRENT := by exact_mod_cast hc.1
  have hio := INUM_OFFSET_ge c
  have hv := hc.2.1
  have hbc := hc.2.2.1
  have hd' : is_directory ((mknod_image c img pn child i b m).inodes pn) = true := by
    rw [mknod_image_inodes_parent c img pn child i b m hpi]
    exact hpd
  have hfn := directory_lookup_eq_neg_one c img pn child hpd hok hnone
  rw [find_entry_eq_none] at hfn
  rw [tdiv_of_nonneg _ _ hok.1] at hfn
  -- the number of entries before and after
  obtain ⟨q, hq⟩ : ∃ q : Int, (img.inodes pn).size = q * c.SIZE_DIRENT := by
    refine ⟨(img.inodes pn).size / c.SIZE_DIRENT, ?_⟩
    have := Int.ediv_add_emod (img.inodes pn).size c.SIZE_DIRENT
    rw [hok.2.1, add_zero, mul_comm] at this
    exact this.symm
  have hq0 : 0 ≤ q := by
    by_contra hneg
    have : q * (c.SIZE_DIRENT : Int) < 0 := Int.mul_neg_of_neg_of_pos (by omega) hsd
    have := hok.1
    omega
  have hdiv : (img.inodes pn).size / (c.SIZE_DIRENT : Int) = q := by
    rw [hq, Int.mul_ediv_cancel _ (ne_of_gt hsd)]
  have hdiv' : ((img.inodes pn).size + c.SIZE_DIRENT) / (c.SIZE_DIRENT : Int) = q + 1 := by
    rw [hq]
    have : q * (c.SIZE_DIRENT : Int) + c.SIZE_DIRENT = (q + 1) * c.SIZE_DIRENT := by ring
    rw [this, Int.mul_ediv_cancel _ (ne_of_gt hsd)]
  rw [hdiv] at hfn
  have hblock : ((mknod_image c img pn child i b m).inodes pn).block = (img.inodes pn).block := by
    rw [mknod_image_inodes_parent c img pn child i b m hpi]
  have hsize : ((mknod_image c img pn child i b m).inodes pn).size =
      (img.inodes pn).size + c.SIZE_DIRENT := by
    rw [mknod_image_inodes_parent c img pn child i b m hpi]
  have hnew : blocks_get_block c (img.inodes pn).block + q * c.SIZE_DIRENT =
      new_entry c (alloc_image img i b) pn := by
    rw [mknod_image_new_entry c img pn i b hpi]
    unfold new_entry
    rw [hq]
  have hf : find_entry c (mknod_image c img pn child i b m)
      (blocks_get_block c (img.inodes pn).block) child
      (Int.tdiv ((img.inodes pn).size + c.SIZE_DIRENT) c.SIZE_DIRENT).toNat 0 = some q := by
    rw [tdiv_of_nonneg _ _ (by have := hok.1; omega), hdiv', find_entry_eq_some]
    refine ⟨hq0, by omega, ?_, fun k' h1 h2 => ?_⟩
    · rw [hnew]
      exact put_image_strcmp c (alloc_image img i b) pn child i (by push_cast; omega)
    · have hk : k' < (((img.inodes pn).size / (c.SIZE_DIRENT : Int)).toNat : Int) := by
        rw [hdiv]; omega
      have hcong := entry_strcmp_congr c hc img (mknod_image c img pn child i b m) pn hok
        (fun a h1 h2 => mknod_image_data_other c hc img pn child i b m hpi hlen a
          (Or.inl (by unfold new_entry; omega))) child hchild k' h1 hk
      rw [hcong]
      exact hfn k' h1 (by omega)
  rw [directory_lookup_dir c _ pn child hd', hblock, hsize,
    lookup_from_of_find_some c _ _ child q _ 0 hf, hnew]
  exact put_image_load_int c (alloc_image img i b) pn child i (by omega) (by omega)

/-- What a walk over a well-formed image resolves to is `-1` or an inode
number. -/
theorem tree_walk_range (c : Config) (img : Image) (hwf : WF c img) (comps : List CString) :
    ∀ (src r : Int), 0 ≤ src → src < c.BLOCK_COUNT →
      tree_walk c img comps src = some r → r ≠ -1 → 0 ≤ r ∧ r < c.BLOCK_COUNT := by
  induction comps with
  | nil =>
    intro src r h0 h1 h _
    cases h
    exact ⟨h0, h1⟩
  | cons name next ih =>
    intro src r h0 h1 h hr
    unfold tree_walk at h
    have hs : src ≠ -1 := by omega
    rw [if_neg hs] at h
    cases hg : get_inode img src with
    | none => rw [hg] at h; cases h
    | some dd =>
      rw [hg] at h
      obtain ⟨_, hbit, hnode⟩ := (get_inode_some_iff img src dd).1 hg
      subst hnode
      dsimp only at h
      have hl : directory_lookup c img dd name ≠ -1 := by
        intro e
        rw [e, tree_walk_neg_one] at h
        cases h
        exact hr rfl
      have hrange := directory_lookup_range c img dd name
        (fun hd => hwf.dir dd h0 h1 hbit hd) hl
      exact ih _ r hrange.2.1 hrange.2.2 h hr

theorem put_image_inodes_other (c : Config) (img : Image) (dd : Int) (name : CString)
    (inum j : Int) (h1 : j ≠ dd) (h2 : j ≠ inum) :
    (put_image c img dd name inum).inodes j = img.inodes j := by
  rw [put_image_inodes, if_neg h1, if_neg h2]

theorem put_image_is_directory (c : Config) (img : Image) (dd : Int) (name : CString)
    (inum j : Int) :
    is_directory ((put_image c img dd name inum).inodes j) = is_directory (img.inodes j) := by
  unfold is_directory
  rw [put_image_mode]

/-- Outside the entry it appends, `directory_put` leaves the bytes as they
are. -/
theorem put_image_data_outside (c : Config) (hc : valid_config c) (img : Image) (dd : Int)
    (name : CString) (inum : Int) (hlen : name.length < c.DIR_NAME_LENGTH) (a : Int)
    (ha : a < new_entry c img dd ∨ new_entry c img dd + c.SIZE_DIRENT ≤ a) :
    (put_image c img dd name inum).data a = img.data a := by
  have hio := INUM_OFFSET_ge c
  have hv := hc.2.1
  exact put_image_data_other _ _ _ _ _ _ (by push_cast; omega) (by omega)

/-- The bytes of the block of an allocated inode other than `dd`, and the
live bytes of `dd`, are not touched by `directory_put(dd, ...)`. -/
theorem put_image_data_block (c : Config) (hc : valid_config c) (img : Image)
    (hwf : WF c img) (dd : Int) (name : CString) (inum : Int)
    (hp0 : 0 ≤ dd) (hp1 : dd < c.BLOCK_COUNT) (hpa : img.inode_bitmap dd = true)
    (hsz : 0 ≤ (img.inodes dd).size)
    (hroom : (img.inodes dd).size + c.SIZE_DIRENT ≤ c.BLOCK_SIZE)
    (hlen : name.length < c.DIR_NAME_LENGTH)
    (j : Int) (hj0 : 0 ≤ j) (hj1 : j < c.BLOCK_COUNT) (hja : img.inode_bitmap j = true)
    (hjs : (img.inodes j).size ≤ c.BLOCK_SIZE) (a : Int)
    (h1 : blocks_get_block c (img.inodes j).block ≤ a)
    (h2 : a < blocks_get_block c (img.inodes j).block + (img.inodes j).size) :
    (put_image c img dd name inum).data a = img.data a := by
  apply put_image_data_outside c hc img dd name inum hlen
  by_cases e : j = dd
  · subst e
    left
    unfold new_entry
    omega
  · have hne := hwf.distinct j dd hj0 hj1 hp0 hp1 hja hpa e
    have := block_disjoint c _ _ hne a h1 (by omega)
    unfold new_entry
    omega

/-- A lookup that finds its entry in an allocated directory of a well-formed
image finds the same entry after `directory_put` has appended an entry to a
directory. -/
theorem put_image_lookup_kept (c : Config) (hc : valid_config c) (img : Image)
    (hwf : WF c img) (pn : Int) (child : CString) (i : Int)
    (hp0 : 0 ≤ pn) (hp1 : pn < c.BLOCK_COUNT) (hpa : img.inode_bitmap pn = true)
    (hpd : is_directory (img.inodes pn) = true)
    (hroom : (img.inodes pn).size + c.SIZE_DIRENT ≤ c.BLOCK_SIZE)
    (hlen : child.length < c.DIR_NAME_LENGTH)
    (dd : Int) (hd0 : 0 ≤ dd) (hd1 : dd < c.BLOCK_COUNT) (hda : img.inode_bitmap dd = true)
    (name : CString) (hname : cstring_ok name)
    (hfound : directory_lookup c img dd name ≠ -1) :
    directory_lookup c (put_image c img pn child i) dd name =
      directory_lookup c img dd name := by
  have hdd : is_directory (img.inodes dd) = true := by
    cases h : is_directory (img.inodes dd) with
    | false => exact absurd (directory_lookup_not_dir c img dd name h) hfound
    | true => rfl
  have hok := hwf.dir dd hd0 hd1 hda hdd
  have hokp := hwf.dir pn hp0 hp1 hpa hpd
  have hsd : (0 : Int) < c.SIZE_DIRENT := by exact_mod_cast hc.1
  apply directory_lookup_kept c hc img _ dd hok
  · rw [put_image_mode]
  · rw [put_image_block]
  · rw [put_image_size]
    by_cases e : dd = pn
    · rw [if_pos e, e]; omega
    · rw [if_neg e]
  · intro a h1 h2
    exact put_image_data_block c hc img hwf pn child i hp0 hp1 hpa hokp.1 hroom hlen dd hd0 hd1
      hda hok.2.2.1 a h1 h2
  · exact hname
  · exact hfound

/-- A walk along a path that resolves in a well-formed image resolves to the
same inode after `directory_put` has appended an entry to a directory. -/
theorem put_image_tree_walk (c : Config) (hc : valid_config c) (img : Image)
    (hwf : WF c img) (pn : Int) (child : CString) (i : Int)
    (hp0 : 0 ≤ pn) (hp1 : pn < c.BLOCK_COUNT) (hpa : img.inode_bitmap pn = true)
    (hpd : is_directory (img.inodes pn) = true)
    (hroom : (img.inodes pn).size + c.SIZE_DIRENT ≤ c.BLOCK_SIZE)
    (hlen : child.length < c.DIR_NAME_LENGTH)
    (comps : List CString) (hcomps : ∀ x ∈ comps, cstring_ok x) :
    ∀ (src r : Int), 0 ≤ src → src < c.BLOCK_COUNT →
      tree_walk c img comps src = some r → r ≠ -1 →
      tree_walk c (put_image c img pn child i) comps src = some r := by
  induction comps with
  | nil => intro src r _ _ h _; exact h
  | cons name next ih =>
    intro src r h0 h1 h hr
    unfold tree_walk at h ⊢
    have hs : src ≠ -1 := by omega
    rw [if_neg hs] at h ⊢
    cases hg : get_inode img src with
    | none => rw [hg] at h; cases h
    | some dd =>
      rw [hg] at h
      obtain ⟨_, hbit, hnode⟩ := (get_inode_some_iff img src dd).1 hg
      subst hnode
      have hg' : get_inode (put_image c img pn child i) dd = some dd := by
        apply get_inode_eq_some _ _ h0
        rw [put_image_inode_bitmap, hbit]
      rw [hg']
      dsimp only at h ⊢
      have hl : directory_lookup c img dd name ≠ -1 := by
        intro e
        rw [e, tree_walk_neg_one] at h
        cases h
        exact hr rfl
      have hrange := directory_lookup_range c img dd name
        (fun hd => hwf.dir dd h0 h1 hbit hd) hl
      rw [put_image_lookup_kept c hc img hwf pn child i hp0 hp1 hpa hpd hroom hlen
        dd h0 h1 hbit name (hcomps name (List.mem_cons_self _ _)) hl]
      exact ih (fun x hx => hcomps x (List.mem_cons_of_mem _ hx)) _ r hrange.2.1 hrange.2.2 h hr

/-- The size of a well-formed directory is a whole number of entries. -/
theorem dir_ok.count {c : Config} {img : Image} {dd : Int} (hok : dir_ok c img dd)
    (hsd : 0 < c.SIZE_DIRENT) :
    ∃ q : Int, 0 ≤ q ∧ (img.inodes dd).size = q * c.SIZE_DIRENT ∧
      (img.inodes dd).size / (c.SIZE_DIRENT : Int) = q ∧
      ((img.inodes dd).size + c.SIZE_DIRENT) / (c.SIZE_DIRENT : Int) = q + 1 := by
  have hpos : (0 : Int) < c.SIZE_DIRENT := by exact_mod_cast hsd
  have hq : (img.inodes dd).size = (img.inodes dd).size / c.SIZE_DIRENT * c.SIZE_DIRENT := by
    have := Int.ediv_add_emod (img.inodes dd).size c.SIZE_DIRENT
    rw [hok.2.1, add_zero, mul_comm] at this
    exact this.symm
  refine ⟨(img.inodes dd).size / c.SIZE_DIRENT, Int.ediv_nonneg hok.1 (le_of_lt hpos), hq, rfl, ?_⟩
  have e : (img.inodes dd).size + (c.SIZE_DIRENT : Int) =
      ((img.inodes dd).size / c.SIZE_DIRENT + 1) * c.SIZE_DIRENT := by
    rw [add_mul, one_mul, ← hq]
  rw [e, Int.mul_ediv_cancel _ (ne_of_gt hpos)]

/-- The entry that `directory_put` has appended is the one a lookup of the
new name finds, when the directory held no entry of that name. -/
theorem put_image_lookup_child (c : Config) (hc : valid_config c) (img : Image)
    (hwf : WF c img) (pn : Int) (child : CString) (i : Int)
    (hp0 : 0 ≤ pn) (hp1 : pn < c.BLOCK_COUNT) (hpa : img.inode_bitmap pn = true)
    (hpd : is_directory (img.inodes pn) = true)
    (hlen : child.length < c.DIR_NAME_LENGTH) (hchild : cstring_ok child)
    (hi0 : 0 ≤ i) (hi1 : i < c.BLOCK_COUNT)
    (hnone : directory_lookup c img pn child = -1) :
    directory_lookup c (put_image c img pn child i) pn child = i := by
  have hok := hwf.dir pn hp0 hp1 hpa hpd
  have hsd : (0 : Int) < c.SIZE_DIRENT := by exact_mod_cast hc.1
  have hio := INUM_OFFSET_ge c
  have hv := hc.2.1
  have hbc := hc.2.2.1
  have hd' : is_directory ((put_image c img pn child i).inodes pn) = true := by
    rw [put_image_is_directory]; exact hpd
  have hfn := directory_lookup_eq_neg_one c img pn child hpd hok hnone
  rw [find_entry_eq_none, tdiv_of_nonneg _ _ hok.1] at hfn
  obtain ⟨q, hq0, hq, hdiv, hdiv'⟩ := hok.count hc.1
  rw [hdiv] at hfn
  have hsize : ((put_image c img pn child i).inodes pn).size =
      (img.inodes pn).size + c.SIZE_DIRENT := by
    rw [put_image_size, if_pos rfl]
  have hnew : blocks_get_block c (img.inodes pn).block + q * c.SIZE_DIRENT =
      new_entry c img pn := by
    unfold new_entry
    rw [hq]
  have hf : find_entry c (put_image c img pn child i)
      (blocks_get_block c (img.inodes pn).block) child
      (Int.tdiv ((img.inodes pn).size + c.SIZE_DIRENT) c.SIZE_DIRENT).toNat 0 = some q := by
    rw [tdiv_of_nonneg _ _ (by have := hok.1; omega), hdiv', find_entry_eq_some]
    refine ⟨hq0, by omega, ?_, fun k' h1 h2 => ?_⟩
    · rw [hnew]
      exact put_image_strcmp c img pn child i (by push_cast; omega)
    · have hk : k' < (((img.inodes pn).size / (c.SIZE_DIRENT : Int)).toNat : Int) := by
        rw [hdiv]; omega
      have hcong := entry_strcmp_congr c hc img (put_image c img pn child i) pn hok
        (fun a h1 h2 => put_image_data_outside c hc img pn child i hlen a
          (Or.inl (by unfold new_entry; omega))) child hchild k' h1 hk
      rw [hcong]
      exact hfn k' h1 (by omega)
  rw [directory_lookup_dir c _ pn child hd', put_image_block, hsize,
    lookup_from_of_find_some c _ _ child q _ 0 hf, hnew]
  exact put_image_load_int c img pn child i (by omega) (by omega)

/-- An entry whose bytes are unchanged stays well formed. -/
theorem entry_ok_congr (c : Config) (hc : valid_config c) (img img' : Image) (p : Int)
    (h : entry_ok c img p)
    (hdata : ∀ t : Int, 0 ≤ t → t < c.SIZE_DIRENT → img'.data (p + t) = img.data (p + t)) :
    entry_ok c img' p := by
  have hio := INUM_OFFSET_ge c
  have hv := hc.2.1
  obtain ⟨⟨j, hj, hz⟩, h1, h2⟩ := h
  have e : load_int img' (p + INUM_OFFSET c) = load_int img (p + INUM_OFFSET c) := by
    apply load_int_congr
    intro t ht0 ht4
    have := hdata (INUM_OFFSET c + t) (by omega) (by omega)
    rw [← add_assoc] at this
    exact this
  refine ⟨⟨j, hj, ?_⟩, ?_, ?_⟩
  · rw [hdata j (by omega) (by omega)]; exact hz
  · rw [e]; exact h1
  · rw [e]; exact h2

/-- The entry that `directory_put` has stored is well formed when the name is
shorter than the name field and `inum` is an inode number. -/
theorem put_image_entry_ok (c : Config) (hc : valid_config c) (img : Image) (pn : Int)
    (child : CString) (i : Int) (hlen : child.length < c.DIR_NAME_LENGTH)
    (hi0 : 0 ≤ i) (hi1 : i < c.BLOCK_COUNT) :
    entry_ok c (put_image c img pn child i) (new_entry c img pn) := by
  have hio := INUM_OFFSET_ge c
  have hbc := hc.2.2.1
  have hs := put_image_strcmp c img pn child i (by push_cast; omega)
  rw [strcmp_eq_iff] at hs
  have hz := hs child.length (le_refl _)
  have h0 : child.getD child.length 0 = 0 := by simp [List.getD_eq_getElem?_getD]
  rw [h0] at hz
  refine ⟨⟨child.length, hlen, hz⟩, ?_, ?_⟩
  · rw [put_image_load_int c img pn child i (by omega) (by omega)]; exact hi0
  · rw [put_image_load_int c img pn child i (by omega) (by omega)]; exact hi1

/-- The image stays well formed when `directory_put` appends an entry with a
name shorter than the name field to an allocated directory with room. -/
theorem put_image_WF (c : Config) (hc : valid_config c) (img : Image)
    (hwf : WF c img) (pn : Int) (child : CString) (i : Int)
    (hp0 : 0 ≤ pn) (hp1 : pn < c.BLOCK_COUNT) (hpa : img.inode_bitmap pn = true)
    (hpd : is_directory (img.inodes pn) = true)
    (hroom : (img.inodes pn).size + c.SIZE_DIRENT ≤ c.BLOCK_SIZE)
    (hlen : child.length < c.DIR_NAME_LENGTH)
    (hi0 : 0 ≤ i) (hi1 : i < c.BLOCK_COUNT) :
    WF c (put_image c img pn child i) := by
  have hsd : (0 : Int) < c.SIZE_DIRENT := by exact_mod_cast hc.1
  have hokp := hwf.dir pn hp0 hp1 hpa hpd
  refine ⟨?_, ?_, ?_⟩
  · intro k hk ha
    rw [put_image_block, put_image_blocks_bitmap]
    exact hwf.1 k hk ha
  · intro k hk j hj h
    rw [put_image_block, put_image_block]
    exact hwf.2.1 k hk j hj h
  · intro k hk ha hd
    rw [put_image_inode_bitmap] at ha
    rw [put_image_is_directory] at hd
    have hk0 : (0 : Int) ≤ (k : Nat) := Int.ofNat_nonneg k
    have hk1 : ((k : Nat) : Int) < c.BLOCK_COUNT := by exact_mod_cast hk
    have hok : dir_ok c img k := hwf.2.2 k hk ha hd
    have hdata : ∀ a : Int, blocks_get_block c (img.inodes k).block ≤ a →
        a < blocks_get_block c (img.inodes k).block + (img.inodes k).size →
        (put_image c img pn child i).data a = img.data a :=
      fun a h1 h2 => put_image_data_block c hc img hwf pn child i hp0 hp1 hpa hokp.1 hroom hlen
        k hk0 hk1 ha hok.2.2.1 a h1 h2
    have hold : ∀ e : Int, 0 ≤ e → e < (((img.inodes k).size / (c.SIZE_DIRENT : Int)).toNat : Int) →
        entry_ok c (put_image c img pn child i)
          (blocks_get_block c (img.inodes k).block + e * c.SIZE_DIRENT) := by
      intro e he0 he
      have hb := entry_bounds c _ e he0 hok.1 he hc.1
      apply entry_ok_congr c hc img _ _ (hok.entry e he0 he)
      intro t ht0 ht1
      apply hdata
      · omega
      · omega
    by_cases e : (k : Int) = pn
    · obtain ⟨q, hq0, hq, hdiv, hdiv'⟩ := hok.count hc.1
      have hsize : ((put_image c img pn child i).inodes k).size =
          (img.inodes k).size + c.SIZE_DIRENT := by
        rw [put_image_size, if_pos e, e]
      refine ⟨?_, ?_, ?_, ?_⟩
      · rw [hsize]; have := hok.1; omega
      · rw [hsize, Int.add_emod_self]; exact hok.2.1
      · rw [hsize, e]; exact hroom
      · intro n hn
        rw [hsize, hdiv'] at hn
        rw [put_image_block]
        by_cases hnq : (n : Int) < q
        · exact hold n (Int.ofNat_nonneg n) (by rw [hdiv]; omega)
        · have hnq' : (n : Int) = q := by omega
          have hnew : blocks_get_block c (img.inodes k).block + (n : Int) * c.SIZE_DIRENT =
              new_entry c img pn := by
            unfold new_entry
            rw [hnq', ← hq, e]
          rw [hnew]
          exact put_image_entry_ok c hc img pn child i hlen hi0 hi1
    · have hsize : ((put_image c img pn child i).inodes k).size = (img.inodes k).size := by
        rw [put_image_size, if_neg e]
      refine ⟨?_, ?_, ?_, ?_⟩
      · rw [hsize]; exact hok.1
      · rw [hsize]; exact hok.2.1
      · rw [hsize]; exact hok.2.2.1
      · intro n hn
        rw [hsize] at hn
        rw [put_image_block]
        exact hold n (Int.ofNat_nonneg n) (by omega)

/-! ## The image after `directory_delete` -/

/-- `directory_delete` at the first entry with the name, whose `inum` is an
allocated inode: it removes the entry and returns 0. -/
theorem directory_delete_eq (c : Config) (img : Image) (dd : Int) (name : CString)
    (hsd : 0 < c.SIZE_DIRENT) (i inum : Int)
    (hfind : find_entry c img (blocks_get_block c (img.inodes dd).block) name
      (Int.tdiv (img.inodes dd).size c.SIZE_DIRENT).toNat 0 = some i)
    (hl : load_int img (blocks_get_block c (img.inodes dd).block + i * c.SIZE_DIRENT +
      INUM_OFFSET c) = inum)
    (hg : get_inode img inum = some inum) :
    directory_delete c img dd name = some (0, delete_image c img dd i inum) := by
  obtain ⟨img1, hdec, hdata, hrefs, hflds, hoth, hib, hbb, hz, hnz⟩ :=
    decrement_references_spec img inum hg
  obtain ⟨hi0, hin⟩ := find_entry_bounds c img _ name _ 0 i hfind
  have hm := find_entry_match c img _ name _ 0 i hfind
  obtain ⟨hs0, hfit⟩ := entry_fits c.SIZE_DIRENT (img.inodes dd).size i hsd hi0 (by omega)
  have hsize1 : (img1.inodes dd).size = (img.inodes dd).size := (hflds dd).1
  have hbody : directory_delete_from c img dd name 1 i =
      some (0, delete_image c img dd i inum) := by
    unfold directory_delete_from delete_image
    dsimp only
    rw [if_pos hm, hl, hdec]
    dsimp only [Option.getD_some]
    unfold shrink_inode
    have hc : (memcpy img1 (blocks_get_block c (img.inodes dd).block + i * c.SIZE_DIRENT)
        (fun k => img1.data (blocks_get_block c (img.inodes dd).block +
          (i + 1) * c.SIZE_DIRENT + k))
        ((img1.inodes dd).size - (i + 1) * c.SIZE_DIRENT).toNat).inodes = img1.inodes := rfl
    rw [hc]
    rw [if_pos (by constructor <;> (rw [hsize1]; nlinarith))]
  exact directory_delete_from_found c img dd name i _ _ 0 hfind hbody

/-- The fields of the inodes after `directory_delete`. -/
theorem delete_image_inodes (c : Config) (img : Image) (dd i inum : Int)
    (hg : get_inode img inum = some inum) (k : Int) :
    ((delete_image c img dd i inum).inodes k).mode = (img.inodes k).mode ∧
    ((delete_image c img dd i inum).inodes k).block = (img.inodes k).block ∧
    ((delete_image c img dd i inum).inodes k).size =
      (if k = dd then (img.inodes k).size - c.SIZE_DIRENT else (img.inodes k).size) ∧
    ((delete_image c img dd i inum).inodes k).refs =
      (if k = inum then (img.inodes k).refs - 1 else (img.inodes k).refs) := by
  obtain ⟨img1, hdec, hdata, hrefs, hflds, hoth, hib, hbb, hz, hnz⟩ :=
    decrement_references_spec img inum hg
  have hr : (img1.inodes k).refs = if k = inum then (img.inodes k).refs - 1
      else (img.inodes k).refs := by
    by_cases e : k = inum
    · rw [if_pos e, e]; exact hrefs
    · rw [if_neg e, hoth k e]
  unfold delete_image
  rw [hdec]
  dsimp only [Option.getD_some]
  by_cases e : k = dd
  · subst e
    simp only [Image.set_inode, memcpy_inodes, if_true]
    exact ⟨(hflds k).2.1, (hflds k).2.2, by rw [(hflds k).1], hr⟩
  · simp only [Image.set_inode, memcpy_inodes, if_neg e]
    exact ⟨(hflds k).2.1, (hflds k).2.2, (hflds k).1, hr⟩

/-- The bitmaps after `directory_delete`: the bits of `inum` and of its block
are cleared when its count has reached 0, and nothing else changes. -/
theorem delete_image_bitmaps (c : Config) (img : Image) (dd i inum : Int)
    (hg : get_inode img inum = some inum) :
    (∀ k, k ≠ inum →
      (delete_image c img dd i inum).inode_bitmap k = img.inode_bitmap k) ∧
    (∀ b, b ≠ (img.inodes inum).block →
      (delete_image c img dd i inum).blocks_bitmap b = img.blocks_bitmap b) ∧
    ((img.inodes inum).refs - 1 = 0 →
      (delete_image c img dd i inum).inode_bitmap inum = false ∧
      (delete_image c img dd i inum).blocks_bitmap (img.inodes inum).block = false) ∧
    ((img.inodes inum).refs - 1 ≠ 0 →
      (delete_image c img dd i inum).inode_bitmap = img.inode_bitmap ∧
      (delete_image c img dd i inum).blocks_bitmap = img.blocks_bitmap) := by
  obtain ⟨img1, hdec, hdata, hrefs, hflds, hoth, hib, hbb, hz, hnz⟩ :=
    decrement_references_spec img inum hg
  unfold delete_image
  rw [hdec]
  exact ⟨hib, hbb, hz, hnz⟩

/-- The bytes after `directory_delete`: those of the entries behind entry `i`
are the bytes that stood one entry further, and nothing else changes. -/
theorem delete_image_data (c : Config) (img : Image) (dd i inum : Int)
    (hg : get_inode img inum = some inum) (_ : 0 ≤ i)
    (hfit : (i + 1) * c.SIZE_DIRENT ≤ (img.inodes dd).size) (a : Int) :
    (delete_image c img dd i inum).data a =
      if blocks_get_block c (img.inodes dd).block + i * c.SIZE_DIRENT ≤ a ∧
          a < blocks_get_block c (img.inodes dd).block + (img.inodes dd).size - c.SIZE_DIRENT
      then img.data (a + c.SIZE_DIRENT) else img.data a := by
  obtain ⟨img1, hdec, hdata, hrefs, hflds, hoth, hib, hbb, hz, hnz⟩ :=
    decrement_references_spec img inum hg
  have hsize1 : (img1.inodes dd).size = (img.inodes dd).size := (hflds dd).1
  unfold delete_image
  rw [hdec]
  dsimp only [Option.getD_some]
  rw [set_inode_data, memcpy_data, hsize1, hdata]
  have hn : ((((img.inodes dd).size - (i + 1) * c.SIZE_DIRENT).toNat : Nat) : Int) =
      (img.inodes dd).size - (i + 1) * c.SIZE_DIRENT := Int.toNat_of_nonneg (by omega)
  rw [hn]
  have e1 : (i + 1) * (c.SIZE_DIRENT : Int) = i * c.SIZE_DIRENT + c.SIZE_DIRENT := by ring
  by_cases hr : blocks_get_block c (img.inodes dd).block + i * c.SIZE_DIRENT ≤ a ∧
      a < blocks_get_block c (img.inodes dd).block + (img.inodes dd).size - c.SIZE_DIRENT
  · rw [if_pos (by constructor <;> omega), if_pos hr]
    congr 1
    rw [Int.toNat_of_nonneg (by omega)]
    omega
  · rw [if_neg (by intro h; apply hr; constructor <;> omega), if_neg hr]

/-- A lookup that finds its entry gives the index of the entry. -/
theorem directory_lookup_found (c : Config) (img : Image) (dd : Int) (name : CString)
    (h : directory_lookup c img dd name ≠ -1) :
    is_directory (img.inodes dd) = true ∧
    ∃ k, find_entry c img (blocks_get_block c (img.inodes dd).block) name
        (Int.tdiv (img.inodes dd).size c.SIZE_DIRENT).toNat 0 = some k ∧
      load_int img (blocks_get_block c (img.inodes dd).block + k * c.SIZE_DIRENT +
        INUM_OFFSET c) = directory_lookup c img dd name := by
  cases hd : is_directory (img.inodes dd) with
  | false => exact absurd (directory_lookup_not_dir c img dd name hd) h
  | true =>
    refine ⟨rfl, ?_⟩
    rw [directory_lookup_dir c img dd name hd] at h ⊢
    cases hf : find_entry c img (blocks_get_block c (img.inodes dd).block) name
        (Int.tdiv (img.inodes dd).size c.SIZE_DIRENT).toNat 0 with
    | none => exact absurd (lookup_from_of_find_none c img _ name _ 0 hf) h
    | some k => exact ⟨k, rfl, (lookup_from_of_find_some c img _ name k _ 0 hf).symm⟩

/-- A lookup in a directory other than the one an entry was deleted from
finds the entry it found before. -/
theorem delete_image_lookup_other (c : Config) (hc : valid_config c) (img : Image)
    (hwf : WF c img) (dd i inum : Int)
    (hd0 : 0 ≤ dd) (hd1 : dd < c.BLOCK_COUNT) (hda : img.inode_bitmap dd = true)
    (hdd : is_directory (img.inodes dd) = true)
    (hg : get_inode img inum = some inum) (h0 : 0 ≤ i)
    (hfit : (i + 1) * c.SIZE_DIRENT ≤ (img.inodes dd).size)
    (d2 : Int) (h20 : 0 ≤ d2) (h21 : d2 < c.BLOCK_COUNT) (h2a : img.inode_bitmap d2 = true)
    (hne : d2 ≠ dd) (name : CString) (hname : cstring_ok name)
    (hfound : directory_lookup c img d2 name ≠ -1) :
    directory_lookup c (delete_image c img dd i inum) d2 name =
      directory_lookup c img d2 name := by
  have h2d := (directory_lookup_found c img d2 name hfound).1
  have hok := hwf.dir d2 h20 h21 h2a h2d
  have hokd := hwf.dir dd hd0 hd1 hda hdd
  have hf := delete_image_inodes c img dd i inum hg d2
  have hsd : (0 : Int) < c.SIZE_DIRENT := by exact_mod_cast hc.1
  apply directory_lookup_kept c hc img _ d2 hok hf.1 hf.2.1
  · rw [hf.2.2.1, if_neg hne]
  · intro a h1 h2
    rw [delete_image_data c img dd i inum hg h0 hfit, if_neg]
    intro hcon
    have hb := hwf.distinct d2 dd h20 h21 hd0 hd1 h2a hda hne
    have := block_disjoint c _ _ hb a h1 (by have := hok.2.2.1; omega)
    have := hokd.2.2.1
    have : 0 ≤ i * (c.SIZE_DIRENT : Int) := Int.mul_nonneg h0 (le_of_lt hsd)
    omega
  · exact hname
  · exact hfound

/-- The bytes of the entries of a directory after one of its entries has been
deleted: in front of the deleted entry they are unchanged, behind it they are
those of the next entry. -/
theorem delete_image_entry (c : Config) (hc : valid_config c) (img : Image) (dd i inum : Int)
    (hg : get_inode img inum = some inum) (h0 : 0 ≤ i)
    (hfit : (i + 1) * c.SIZE_DIRENT ≤ (img.inodes dd).size)
    (e t : Int) (_ : 0 ≤ e) (ht0 : 0 ≤ t) (ht : t < c.SIZE_DIRENT) :
    (e < i → (delete_image c img dd i inum).data
        (blocks_get_block c (img.inodes dd).block + e * c.SIZE_DIRENT + t) =
      img.data (blocks_get_block c (img.inodes dd).block + e * c.SIZE_DIRENT + t)) ∧
    (i ≤ e → (e + 2) * c.SIZE_DIRENT ≤ (img.inodes dd).size →
      (delete_image c img dd i inum).data
        (blocks_get_block c (img.inodes dd).block + e * c.SIZE_DIRENT + t) =
      img.data (blocks_get_block c (img.inodes dd).block + (e + 1) * c.SIZE_DIRENT + t)) := by
  have hsd : (0 : Int) < c.SIZE_DIRENT := by exact_mod_cast hc.1
  constructor
  · intro hlt
    rw [delete_image_data c img dd i inum hg h0 hfit, if_neg]
    intro hcon
    have : (e + 1) * (c.SIZE_DIRENT : Int) ≤ i * c.SIZE_DIRENT :=
      Int.mul_le_mul_of_nonneg_right (by omega) (le_of_lt hsd)
    have e1 : (e + 1) * (c.SIZE_DIRENT : Int) = e * c.SIZE_DIRENT + c.SIZE_DIRENT := by ring
    omega
  · intro hle h2
    have : i * (c.SIZE_DIRENT : Int) ≤ e * c.SIZE_DIRENT :=
      Int.mul_le_mul_of_nonneg_right hle (le_of_lt hsd)
    have e1 : (e + 1) * (c.SIZE_DIRENT : Int) = e * c.SIZE_DIRENT + c.SIZE_DIRENT := by ring
    have e2 : (e + 2) * (c.SIZE_DIRENT : Int) = e * c.SIZE_DIRENT + 2 * c.SIZE_DIRENT := by ring
    rw [delete_image_data c img dd i inum hg h0 hfit, if_pos (by constructor <;> omega)]
    congr 1
    omega

/-- A lookup of another name in the directory an entry was deleted from finds
the entry it found before. -/
theorem delete_image_lookup_same (c : Config) (hc : valid_config c) (img : Image)
    (dd i inum : Int) (hok : dir_ok c img dd) (hdd : is_directory (img.inodes dd) = true)
    (hg : get_inode img inum = some inum) (x : CString) (hx : cstring_ok x)
    (hfind : find_entry c img (blocks_get_block c (img.inodes dd).block) x
      (Int.tdiv (img.inodes dd).size c.SIZE_DIRENT).toNat 0 = some i)
    (name : CString) (hname : cstring_ok name) (hne : name ≠ x)
    (hfound : directory_lookup c img dd name ≠ -1) :
    directory_lookup c (delete_image c img dd i inum) dd name =
      directory_lookup c img dd name := by
  have hsd : (0 : Int) < c.SIZE_DIRENT := by exact_mod_cast hc.1
  have hio := INUM_OFFSET_ge c
  have hv := hc.2.1
  obtain ⟨q, hq0, hq, hdiv, _⟩ := hok.count hc.1
  have hn : (Int.tdiv (img.inodes dd).size c.SIZE_DIRENT).toNat = q.toNat := by
    rw [tdiv_of_nonneg _ _ hok.1, hdiv]
  rw [hn] at hfind
  obtain ⟨hi0, hi1, hmi, _⟩ := (find_entry_eq_some c img _ x _ 0 i).1 hfind
  have hiq : i < q := by omega
  have hmul : ∀ a b : Int, a ≤ b → a * (c.SIZE_DIRENT : Int) ≤ b * c.SIZE_DIRENT :=
    fun a b h => Int.mul_le_mul_of_nonneg_right h (le_of_lt hsd)
  have hfit : (i + 1) * c.SIZE_DIRENT ≤ (img.inodes dd).size := by
    rw [hq]; exact hmul _ _ (by omega)
  obtain ⟨_, k, hfk, hload⟩ := directory_lookup_found c img dd name hfound
  rw [hn] at hfk
  obtain ⟨hk0, hk1, hmk, hbefore⟩ := (find_entry_eq_some c img _ name _ 0 k).1 hfk
  have hkq : k < q := by omega
  have hki : k ≠ i := by
    intro e
    rw [e] at hmk
    exact hne (strcmp_eq_unique img _ name x hname hx hmk hmi)
  have hentry : ∀ e : Int, 0 ≤ e → e < q →
      entry_ok c img (blocks_get_block c (img.inodes dd).block + e * c.SIZE_DIRENT) :=
    fun e h0 h1 => hok.entry e h0 (by rw [hdiv]; omega)
  -- the comparisons and the inode numbers at the entries after the deletion
  have hlt : ∀ e : Int, 0 ≤ e → e < i →
      strcmp_eq (delete_image c img dd i inum)
        (blocks_get_block c (img.inodes dd).block + e * c.SIZE_DIRENT) name =
      strcmp_eq img (blocks_get_block c (img.inodes dd).block + e * c.SIZE_DIRENT) name := by
    intro e he0 he
    apply strcmp_eq_congr c img _ _ _ name hname (hentry e he0 (by omega)).1
    intro j hj
    exact (delete_image_entry c hc img dd i inum hg hi0 hfit e j he0 (by omega) (by omega)).1 he
  have hge : ∀ e : Int, i ≤ e → e + 1 < q →
      strcmp_eq (delete_image c img dd i inum)
        (blocks_get_block c (img.inodes dd).block + e * c.SIZE_DIRENT) name =
      strcmp_eq img (blocks_get_block c (img.inodes dd).block + (e + 1) * c.SIZE_DIRENT) name := by
    intro e he he1
    apply strcmp_eq_congr c img _ _ _ name hname (hentry (e + 1) (by omega) he1).1
    intro j hj
    exact (delete_image_entry c hc img dd i inum hg hi0 hfit e j (by omega) (by omega)
      (by omega)).2 he (by rw [hq]; exact hmul _ _ (by omega))
  have hf := delete_image_inodes c img dd i inum hg dd
  have hd' : is_directory ((delete_image c img dd i inum).inodes dd) = true := by
    unfold is_directory at hdd ⊢; rw [hf.1]; exact hdd
  have hsize : ((delete_image c img dd i inum).inodes dd).size = (q - 1) * c.SIZE_DIRENT := by
    rw [hf.2.2.1, if_pos rfl, hq]; ring
  have hn' : (Int.tdiv ((delete_image c img dd i inum).inodes dd).size c.SIZE_DIRENT).toNat
      = (q - 1).toNat := by
    rw [hsize, tdiv_of_nonneg _ _ (Int.mul_nonneg (by omega) (le_of_lt hsd)),
      Int.mul_ediv_cancel _ (ne_of_gt hsd)]
  rw [directory_lookup_dir c _ dd name hd', hf.2.1, hn', ← hload]
  rcases lt_or_gt_of_ne hki with hlo | hhi
  · have hf' : find_entry c (delete_image c img dd i inum)
        (blocks_get_block c (img.inodes dd).block) name (q - 1).toNat 0 = some k := by
      rw [find_entry_eq_some]
      refine ⟨hk0, by omega, ?_, fun e he0 he => ?_⟩
      · rw [hlt k hk0 hlo]; exact hmk
      · rw [hlt e he0 (by omega)]; exact hbefore e he0 he
    rw [lookup_from_of_find_some c _ _ name k _ 0 hf']
    apply load_int_congr
    intro j hj0 hj4
    have := (delete_image_entry c hc img dd i inum hg hi0 hfit k (INUM_OFFSET c + j) hk0
      (by omega) (by omega)).1 hlo
    rw [← add_assoc] at this
    exact this
  · have hf' : find_entry c (delete_image c img dd i inum)
        (blocks_get_block c (img.inodes dd).block) name (q - 1).toNat 0 = some (k - 1) := by
      rw [find_entry_eq_some]
      refine ⟨by omega, by omega, ?_, fun e he0 he => ?_⟩
      · rw [hge (k - 1) (by omega) (by omega), sub_add_cancel]; exact hmk
      · by_cases hei : e < i
        · rw [hlt e he0 hei]; exact hbefore e he0 (by omega)
        · rw [hge e (by omega) (by omega)]; exact hbefore (e + 1) (by omega) (by omega)
    rw [lookup_from_of_find_some c _ _ name (k - 1) _ 0 hf']
    apply load_int_congr
    intro j hj0 hj4
    have := (delete_image_entry c hc img dd i inum hg hi0 hfit (k - 1) (INUM_OFFSET c + j)
      (by omega) (by omega) (by omega)).2 (by omega) (by
        rw [hq]
        have := hmul (k - 1 + 2) q (by omega)
        exact this)
    rw [sub_add_cancel, ← add_assoc, ← add_assoc] at this
    exact this

/-- A walk that resolves to a directory resolves to the same directory after
the entry of a node that is not a directory has been deleted. -/
theorem delete_image_tree_walk (c : Config) (hc : valid_config c) (img : Image)
    (hwf : WF c img) (dd i inum : Int)
    (hd0 : 0 ≤ dd) (hd1 : dd < c.BLOCK_COUNT) (hda : img.inode_bitmap dd = true)
    (hdd : is_directory (img.inodes dd) = true)
    (hg : get_inode img inum = some inum)
    (hfile : is_directory (img.inodes inum) = false)
    (x : CString) (hx : cstring_ok x)
    (hfind : find_entry c img (blocks_get_block c (img.inodes dd).block) x
      (Int.tdiv (img.inodes dd).size c.SIZE_DIRENT).toNat 0 = some i)
    (hl : load_int img (blocks_get_block c (img.inodes dd).block + i * c.SIZE_DIRENT +
      INUM_OFFSET c) = inum)
    (comps : List CString) (hcomps : ∀ y ∈ comps, cstring_ok y) :
    ∀ (src r : Int), 0 ≤ src → src < c.BLOCK_COUNT →
      tree_walk c img comps src = some r → r ≠ -1 → is_directory (img.inodes r) = true →
      tree_walk c (delete_image c img dd i inum) comps src = some r := by
  obtain ⟨hi0, hin⟩ := find_entry_bounds c img _ x _ 0 i hfind
  obtain ⟨_, hfit⟩ := entry_fits c.SIZE_DIRENT (img.inodes dd).size i hc.1 hi0 (by omega)
  have hlx : directory_lookup c img dd x = inum := by
    rw [directory_lookup_dir c img dd x hdd, lookup_from_of_find_some c img _ x i _ 0 hfind, hl]
  obtain ⟨hinum0, _, _⟩ := (get_inode_some_iff img inum inum).1 hg
  induction comps with
  | nil => intro src r _ _ h _ _; exact h
  | cons name next ih =>
    intro src r h0 h1 h hr hrd
    unfold tree_walk at h ⊢
    have hs : src ≠ -1 := by omega
    rw [if_neg hs] at h ⊢
    cases hgs : get_inode img src with
    | none => rw [hgs] at h; cases h
    | some node =>
      rw [hgs] at h
      obtain ⟨_, hbit, hnode⟩ := (get_inode_some_iff img src node).1 hgs
      subst hnode
      dsimp only at h
      have hlk : directory_lookup c img node name ≠ -1 := by
        intro e
        rw [e, tree_walk_neg_one] at h
        cases h
        exact hr rfl
      have hsd := (directory_lookup_found c img node name hlk).1
      have hsi : node ≠ inum := by
        intro e; rw [e, hfile] at hsd; cases hsd
      have hg' : get_inode (delete_image c img dd i inum) node = some node := by
        apply get_inode_eq_some _ _ h0
        rw [(delete_image_bitmaps c img dd i inum hg).1 node hsi]
        exact hbit
      rw [hg']
      dsimp only
      have hrange := directory_lookup_range c img node name
        (fun hd => hwf.dir node h0 h1 hbit hd) hlk
      have hname := hcomps name (List.mem_cons_self _ _)
      have hkept : directory_lookup c (delete_image c img dd i inum) node name =
          directory_lookup c img node name := by
        by_cases e : node = dd
        · subst e
          by_cases en : name = x
          · exfalso
            rw [en, hlx] at h
            cases next with
            | nil =>
              unfold tree_walk at h
              cases h
              rw [hfile] at hrd
              cases hrd
            | cons n2 rest =>
              unfold tree_walk at h
              rw [if_neg (by omega), hg] at h
              dsimp only at h
              rw [directory_lookup_not_dir c img inum n2 hfile, tree_walk_neg_one] at h
              cases h
              exact hr rfl
          · exact delete_image_lookup_same c hc img node i inum (hwf.dir node hd0 hd1 hda hdd)
              hdd hg x hx hfind name hname en hlk
        · exact delete_image_lookup_other c hc img hwf dd i inum hd0 hd1 hda hdd hg hi0 hfit
            node h0 h1 hbit e name hname hlk
      rw [hkept]
      exact ih (fun y hy => hcomps y (List.mem_cons_of_mem _ hy)) _ r hrange.2.1 hrange.2.2 h hr
        hrd

/-! ## `storage_link` and `storage_unlink` on a file -/

theorem cstring_ok_components (path : CString) (hp : cstring_ok path) (p : Nat)
    (rest : CString) (e : path = p :: rest) : ∀ x ∈ s_explode rest SLASH, cstring_ok x := by
  intro x hx ch hch
  apply hp ch
  rw [e]
  exact List.mem_cons_of_mem _ (s_explode_mem rest SLASH x hx ch hch)

/-- What a path resolves to in a well-formed image is `-1` or an inode
number. -/
theorem tree_lookup_range (c : Config) (img : Image) (hwf : WF c img) (path : CString)
    (r : Int) (hbc : 0 < c.BLOCK_COUNT) (h : tree_lookup c img path = some r) (hr : r ≠ -1) :
    0 ≤ r ∧ r < c.BLOCK_COUNT := by
  unfold tree_lookup at h
  cases path with
  | nil => cases h
  | cons p rest =>
    exact tree_walk_range c img hwf _ ROOT_INODE r (le_refl _)
      (by unfold ROOT_INODE; exact_mod_cast hbc) h hr

theorem put_image_tree_lookup (c : Config) (hc : valid_config c) (img : Image)
    (hwf : WF c img) (pn : Int) (child : CString) (i : Int)
    (hp0 : 0 ≤ pn) (hp1 : pn < c.BLOCK_COUNT) (hpa : img.inode_bitmap pn = true)
    (hpd : is_directory (img.inodes pn) = true)
    (hroom : (img.inodes pn).size + c.SIZE_DIRENT ≤ c.BLOCK_SIZE)
    (hlen : child.length < c.DIR_NAME_LENGTH)
    (path : CString) (hpath : cstring_ok path) (r : Int)
    (h : tree_lookup c img path = some r) (hr : r ≠ -1) :
    tree_lookup c (put_image c img pn child i) path = some r := by
  unfold tree_lookup at h ⊢
  cases path with
  | nil => cases h
  | cons p rest =>
    exact put_image_tree_walk c hc img hwf pn child i hp0 hp1 hpa hpd hroom hlen _
      (cstring_ok_components _ hpath p rest rfl) ROOT_INODE r (le_refl _)
      (by unfold ROOT_INODE; omega) h hr

theorem delete_image_tree_lookup (c : Config) (hc : valid_config c) (img : Image)
    (hwf : WF c img) (dd i inum : Int)
    (hd0 : 0 ≤ dd) (hd1 : dd < c.BLOCK_COUNT) (hda : img.inode_bitmap dd = true)
    (hdd : is_directory (img.inodes dd) = true)
    (hg : get_inode img inum = some inum)
    (hfile : is_directory (img.inodes inum) = false)
    (x : CString) (hx : cstring_ok x)
    (hfind : find_entry c img (blocks_get_block c (img.inodes dd).block) x
      (Int.tdiv (img.inodes dd).size c.SIZE_DIRENT).toNat 0 = some i)
    (hl : load_int img (blocks_get_block c (img.inodes dd).block + i * c.SIZE_DIRENT +
      INUM_OFFSET c) = inum)
    (path : CString) (hpath : cstring_ok path) (r : Int)
    (h : tree_lookup c img path = some r) (hr : r ≠ -1)
    (hrd : is_directory (img.inodes r) = true) :
    tree_lookup c (delete_image c img dd i inum) path = some r := by
  unfold tree_lookup at h ⊢
  cases path with
  | nil => cases h
  | cons p rest =>
    exact delete_image_tree_walk c hc img hwf dd i inum hd0 hd1 hda hdd hg hfile x hx hfind hl _
      (cstring_ok_components _ hpath p rest rfl) ROOT_INODE r (le_refl _)
      (by unfold ROOT_INODE; omega) h hr hrd

/-- Resolving a path through its parent: the basename is looked up in the
directory the parent resolves to. -/
theorem tree_lookup_child (c : Config) (img : Image) (path parent : CString) (pn : Int)
    (hp : get_parent path = some parent) (hne : path.drop parent.length ≠ [])
    (hpn : tree_lookup c img parent = some pn) (hpn1 : pn ≠ -1)
    (hg : get_inode img pn = some pn) :
    tree_lookup c img path = some (directory_lookup c img pn (path.drop parent.length)) := by
  rw [tree_lookup_split c img path parent hp hne, hpn, Option.some_bind]
  unfold tree_walk
  rw [if_neg hpn1, hg]
  rfl

/-- The basename of a path is not empty when the path and its parent resolve
differently. -/
theorem child_ne_nil (c : Config) (img : Image) (path parent : CString) (r pn : Int)
    (hp : get_parent path = some parent) (h : tree_lookup c img path = some r)
    (hpn : tree_lookup c img parent = some pn) (hne : r ≠ pn) :
    path.drop parent.length ≠ [] := by
  obtain ⟨pre, child, e1, e2, _, e3⟩ := get_parent_spec path parent hp
  intro e
  rw [e3] at e
  have hpp : path = parent := by rw [e1, e2, e]
  rw [hpp, hpn] at h
  cases h
  exact hne rfl

/-- What `storage_read` returns for a regular file that passes the read test,
at an offset inside the file. -/
theorem storage_read_eq (c : Config) (img : Image) (path : CString) (buf : Nat → Nat)
    (size : Nat) (offset inum : Int)
    (hlook : tree_lookup c img path = some inum) (hex : inum ≠ -1) (h0 : 0 ≤ inum)
    (halloc : img.inode_bitmap inum = true)
    (hreg : is_directory (img.inodes inum) = false)
    (hperm : read_check (img.inodes inum).mode = true)
    (hs : (img.inodes inum).size < 2147483648)
    (hoff : 0 ≤ offset) (hle : offset ≤ (img.inodes inum).size) :
    storage_read c img path buf size offset =
      some (((min size ((img.inodes inum).size - offset).toNat : Nat) : Int),
        (fun k => if k < min size ((img.inodes inum).size - offset).toNat
          then img.data (blocks_get_block c (img.inodes inum).block + offset + k) else buf k),
        img) := by
  have hg := get_inode_eq_some img inum h0 halloc
  have hcnt : (if size > to_size_t ((img.inodes inum).size - offset)
        then to_size_t ((img.inodes inum).size - offset) else size)
      = min size ((img.inodes inum).size - offset).toNat := by
    have e : to_size_t ((img.inodes inum).size - offset)
        = ((img.inodes inum).size - offset).toNat := by
      unfold to_size_t
      congr 1
      omega
    rw [e]
    split_ifs with h <;> omega
  have hng : ¬ offset > (img.inodes inum).size := by omega
  simp only [storage_read, hlook, hex, hg, hreg, hperm, hng, if_false, if_true,
    Bool.false_eq_true, hcnt]
  rw [to_int_of_range _ (by omega) (by omega)]

/-- The bits below `i` of a bitmap, read at `int` indices. -/
theorem bits_below (bm : Int → Bool) (i : Int)
    (h : ∀ k : Nat, k < i.toNat → bm k = true) (k : Int) (h0 : 0 ≤ k) (h1 : k < i) :
    bm k = true := by
  have := h k.toNat (by omega)
  rw [Int.toNat_of_nonneg h0] at this
  exact this

/-- The inode a successful `storage_mknod` marks allocated is the first free
one, with the first free block; no other bit of the inode bitmap changes. -/
theorem storage_mknod_inode (c : Config) (img : Image) (path : CString) (mode : Int)
    (r : Int × Image) (i b : Int)
    (hi : first_clear img.inode_bitmap c.BLOCK_COUNT 0 = some i)
    (hb : first_clear img.blocks_bitmap c.BLOCK_COUNT 0 = some b)
    (h : storage_mknod c img path mode = some r) (h0 : r.1 = 0) :
    r.2.inode_bitmap i = true ∧ (r.2.inodes i).block = b ∧
      ∀ k, k ≠ i → r.2.inode_bitmap k = img.inode_bitmap k := by
  have hinit : ∀ (x : Image) (n m : Int),
      (init_child x n m).inode_bitmap = x.inode_bitmap ∧
      ∀ k, ((init_child x n m).inodes k).block = (x.inodes k).block := by
    intro x n m
    refine ⟨rfl, fun k => ?_⟩
    by_cases e : k = n
    · subst e; simp [init_child, Image.set_inode]
    · simp [init_child, Image.set_inode, e]
  have halloc : ∀ a : Int × Image, alloc_inode c img = some a → a.1 ≠ -1 →
      a.1 = i ∧ a.2 = alloc_image img i b := by
    intro a ha hne
    obtain ⟨b', h1, h2, e⟩ := alloc_inode_from_some c img _ 0 (le_refl _) a ha hne
    rw [hi] at h1
    rw [hb] at h2
    have e1 : i = a.1 := Option.some.inj h1
    have e2 : b = b' := Option.some.inj h2
    rw [← e1, ← e2] at e
    exact ⟨e1.symm, e⟩
  have hfin : ∀ x : Image, x.inode_bitmap = (alloc_image img i b).inode_bitmap →
      (∀ k, (x.inodes k).block = ((alloc_image img i b).inodes k).block) →
      x.inode_bitmap i = true ∧ (x.inodes i).block = b ∧
        ∀ k, k ≠ i → x.inode_bitmap k = img.inode_bitmap k := by
    intro x h1 h2
    refine ⟨by rw [h1]; simp, by rw [h2, alloc_image_inodes, if_pos rfl], fun k hk => ?_⟩
    rw [h1, alloc_image_inode_bitmap, if_neg hk]
  unfold storage_mknod at h
  dsimp only at h
  repeat' split at h
  all_goals try (cases h; done)
  all_goals try
    (cases h; revert h0; simp [EEXIST, ENOENT, ENOTDIR, EACCES, ENOSPC, EINVAL]; done)
  · rename_i _ a ha hne _ p hp _ node hg hm _ p1 hp1 _ p2 hp2
    cases h
    obtain ⟨e1, e2⟩ := halloc a ha hne
    have hs := directory_put_same _ _ _ _ _ _ hp
    have hs1 := directory_put_same _ _ _ _ _ _ hp1
    have hs2 := directory_put_same _ _ _ _ _ _ hp2
    apply hfin
    · rw [hs2.1, hs1.1, (hinit _ _ _).1, hs.1, e2]
    · intro k
      rw [(hs2.2.2 k).1, (hs1.2.2 k).1, (hinit _ _ _).2 k, (hs.2.2 k).1, e2]
  · rename_i _ a ha hne _ p hp _ node hg hm
    cases h
    obtain ⟨e1, e2⟩ := halloc a ha hne
    have hs := directory_put_same _ _ _ _ _ _ hp
    apply hfin
    · rw [(hinit _ _ _).1, hs.1, e2]
    · intro k
      rw [(hinit _ _ _).2 k, (hs.2.2 k).1, e2]

end FuseFS
